import Mathlib

/-!
# Staged birthday-collision engine (`bday.cpp`)

A shallow embedding of the element arithmetic, the per-stage `expand`
operation, the generator loop with its ancestry recovery and the driver of
`src/bday.cpp`, followed by the properties established about them.

Conventions of the embedding:

* a `uint8_t buf[32]` is a `List Nat` together with the predicate `Bytes32`
  (length 32, every entry below 256);
* an `FVector<T>` is represented by the list of its first `size()` records;
* a `std::set<uint64_t>` is a strictly ascending `List Nat` built with
  `setInsert`;
* `std::sort` leaves the relative order of equal keys unspecified, so the
  operations that call it take the sorting function as a parameter and the
  theorems quantify over every function satisfying `IsStdSort`.
-/

namespace Bday

/-! ## Elements and their arithmetic -/

/-- The record `struct Elem`: a 32-byte digest and a 64-bit id. -/
structure Elem where
  buf : List Nat
  id : Nat
deriving DecidableEq, Repr

/-- The record `struct FoundElem`. -/
structure FoundElem where
  localId : Nat
  parentId1 : Nat
  parentId2 : Nat
deriving DecidableEq, Repr

/-- Well-formedness of a `uint8_t[32]` buffer. -/
def Bytes32 (l : List Nat) : Prop := l.length = 32 ∧ ∀ b ∈ l, b < 256

instance (l : List Nat) : Decidable (Bytes32 l) := by
  unfold Bytes32; infer_instance

/-- The value of a buffer read as a little-endian unsigned integer
(byte 0 least significant). -/
def leVal : List Nat → Nat
  | [] => 0
  | b :: bs => b + 256 * leVal bs

/-- The loop of `Elem::add`, with `n` iterations left, at index `i`, on the
current buffer and the current `uint64_t v`:
`v = buf[i] + otherBuf[i] + v; buf[i] = v & 0xff; v >>= 8`. -/
def addLoop (otherBuf : List Nat) : Nat → Nat → List Nat → Nat → List Nat
  | 0, _, buf, _ => buf
  | n + 1, i, buf, v =>
    let v1 := (buf.getD i 0 + otherBuf.getD i 0 + v) % 2 ^ 64
    addLoop otherBuf n (i + 1) (buf.set i (v1 &&& 0xff)) (v1 >>> 8)

/-- `Elem::add(otherBuf, v)`: 32 iterations from index 0. -/
def Elem.add (e : Elem) (otherBuf : List Nat) (v : Nat) : Elem :=
  { e with buf := addLoop otherBuf 32 0 e.buf v }

/-- The first loop of `Elem::negateAndAdd`: `buf[i] = ~buf[i]` on every byte
(the complement of a byte `b` truncated to `uint8_t` is `255 - b`). -/
def negateBytes (buf : List Nat) : List Nat := buf.map (fun b => 255 - b)

/-- `Elem::negateAndAdd(target)`: complement every byte, then `add(target, 1)`. -/
def Elem.negateAndAdd (e : Elem) (target : List Nat) : Elem :=
  Elem.add { e with buf := negateBytes e.buf } target 1

/-- `Elem::setToZero`: the state it leaves. -/
def Elem.setToZero : Elem := { buf := List.replicate 32 0, id := 0 }

/-! ### Auxiliary view of the add loop as a ripple-carry over paired bytes -/

/-- Ripple-carry over two byte lists, returning the bytes and the final `v`. -/
def addBytes : List Nat → List Nat → Nat → List Nat × Nat
  | a :: as, b :: bs, v =>
    let v1 := (a + b + v) % 2 ^ 64
    let r := addBytes as bs (v1 >>> 8)
    ((v1 &&& 0xff) :: r.1, r.2)
  | _, _, v => ([], v)

/-! ## Library operations used by the engine -/

/-- Insertion into a `std::set<uint64_t>`, kept as a strictly ascending list. -/
def setInsert (x : Nat) : List Nat → List Nat
  | [] => [x]
  | y :: ys => if x < y then x :: y :: ys else if x = y then y :: ys else y :: setInsert x ys

/-- `memcmp(a, b, n)`: the sign of the first differing byte among the first `n`. -/
def memcmp : List Nat → List Nat → Nat → Int
  | a :: as, b :: bs, n + 1 => if a < b then -1 else if b < a then 1 else memcmp as bs n
  | _, _, _ => 0

/-- The comparator of `expand`: `memcmp(a.buf, b.buf, 32) < 0`. -/
def cmp (a b : Elem) : Bool := decide (memcmp a.buf b.buf 32 < 0)

/-- `s.starts_with(t)` on byte strings. -/
def startsWith : List Nat → List Nat → Bool
  | _, [] => true
  | [], _ :: _ => false
  | a :: as, b :: bs => a == b && startsWith as bs

/-- What `expand` relies on from `std::sort(..., cmp)`: the result is a
rearrangement of the input in which no later element compares below an earlier
one. The order among equal keys is left open. -/
structure IsStdSort (sort : List Elem → List Elem) : Prop where
  perm : ∀ l, (sort l).Perm l
  sorted : ∀ l, (sort l).Pairwise (fun x y => cmp y x = false)

/-- The loop of `std::merge(first1, last1, first2, last2, out, cmp)`: an element
of the second range is taken only when it compares below the head of the first. -/
def mergeLoop : Nat → List Elem → List Elem → List Elem
  | 0, xs, ys => xs ++ ys
  | _ + 1, [], ys => ys
  | _ + 1, xs, [] => xs
  | n + 1, x :: xs, y :: ys =>
    if cmp y x then y :: mergeLoop n (x :: xs) ys else x :: mergeLoop n xs (y :: ys)

/-- `std::merge` of two ranges; the loop needs at most one step per element. -/
def stdMerge (xs ys : List Elem) : List Elem := mergeLoop (xs.length + ys.length) xs ys

/-- A stable insertion used by `insertSort`. -/
def insertElem (x : Elem) : List Elem → List Elem
  | [] => [x]
  | y :: ys => if cmp x y then x :: y :: ys else y :: insertElem x ys

/-- One admissible behaviour of `std::sort(..., cmp)`: insertion sort. -/
def insertSort : List Elem → List Elem
  | [] => []
  | x :: xs => insertElem x (insertSort xs)

/-- The loop of `std::lower_bound(first, last, v, comp)` with
`comp(a, v) = a.localId < v`, on the half-open range of `len` records starting at
index `first`; the first argument bounds the number of iterations. -/
def lowerBoundLoop (found : List FoundElem) (v : Nat) : Nat → Nat → Nat → Nat
  | 0, first, _ => first
  | fuel + 1, first, len =>
    if len = 0 then first
    else
      let half := len >>> 1
      let middle := first + half
      match found[middle]? with
      | some a =>
        if a.localId < v then lowerBoundLoop found v fuel (middle + 1) (len - half - 1)
        else lowerBoundLoop found v fuel first half
      | none => first

/-- `std::lower_bound(found.begin(), found.end(), v, comp)` as an index; `len`
shrinks in every iteration, so `found.length` iterations are enough. -/
def lowerBound (found : List FoundElem) (v : Nat) : Nat :=
  lowerBoundLoop found v found.length 0 found.length

/-- `memcpy(dst + dstOff, src + srcOff, n)` on buffers. -/
def memcpy (dst : List Nat) (dstOff : Nat) (src : List Nat) (srcOff n : Nat) : List Nat :=
  dst.take dstOff ++ (src.drop srcOff).take n ++ dst.drop (dstOff + n)

/-! ## Stage -/

/-- The fields of `struct Stage` that `expand` reads or writes. `target` is the
content of the buffer the `uint8_t *target` member points to. -/
structure Stage where
  target : List Nat
  stageNum : Nat
  stopMerging : Nat
  isFinalStage : Bool
  currId : Nat
  inbox : List Elem
  big : List Elem
  found : List FoundElem
deriving DecidableEq, Repr

/-- The constructor `Stage(memDir, target, stageNum, stopMerging)`. -/
def Stage.new (target : List Nat) (stageNum stopMerging : Nat) : Stage :=
  { target := target, stageNum := stageNum, stopMerging := stopMerging,
    isFinalStage := false, currId := 1, inbox := [], big := [], found := [] }

/-- What the matching loop of `expand` writes: `found`, the outbox and `currId`. -/
structure WalkState where
  found : List FoundElem
  outbox : List Elem
  currId : Nat
deriving DecidableEq, Repr

/-- The test `currBig->sv().starts_with(currInboxNeg->sv().substr(0, (stageNum + 1) * 4))`. -/
def isMatch (stageNum : Nat) (a b : Elem) : Bool :=
  startsWith a.buf (b.buf.take ((stageNum + 1) * 4))

/-- The synthesized element of a match: a copy of `*currInboxNeg`, then
`negateAndAdd(target)`, `add(currBig->buf)` and `id = currId`. -/
def foundItem (target : List Nat) (a b : Elem) (currId : Nat) : Elem :=
  { ((b.negateAndAdd target).add a.buf 0) with id := currId }

/-- The matching loop of `expand` over the rest of `big` and of `inboxNegs`.
The first argument bounds the number of iterations. A final stage leaves at its
first match with the set `{ currBig->id, currInboxNeg->id }`. -/
def walk (target : List Nat) (stageNum : Nat) (isFinalStage : Bool) :
    Nat → List Elem → List Elem → WalkState → Option (List Nat) × WalkState
  | 0, _, _, st => (none, st)
  | _ + 1, [], _, st => (none, st)
  | _ + 1, _ :: _, [], st => (none, st)
  | n + 1, a :: bigRest, b :: negRest, st =>
    if isMatch stageNum a b && isFinalStage then
      (some (setInsert b.id (setInsert a.id [])), st)
    else
      let st1 : WalkState :=
        if isMatch stageNum a b then
          { found := st.found ++ [⟨st.currId, a.id, b.id⟩],
            outbox := st.outbox ++ [foundItem target a b st.currId],
            currId := st.currId + 1 }
        else st
      if cmp b a then walk target stageNum isFinalStage n (a :: bigRest) negRest st1
      else walk target stageNum isFinalStage n bigRest (b :: negRest) st1

/-- The outcome of `expand`: the returned id set, the stage afterwards and the
outbox afterwards. -/
structure ExpandResult where
  ids : List Nat
  stage : Stage
  outbox : List Elem
deriving DecidableEq, Repr

/-- The first phase of `expand`: `inboxNegs` holds a copy of every inbox
element after `negateAndAdd(target)`, and is then sorted. -/
def Stage.sortedNegs (sort : List Elem → List Elem) (s : Stage) : List Elem :=
  sort (s.inbox.map (fun e => e.negateAndAdd s.target))

/-- The inbox after the conditional `std::sort` of `expand`. -/
def Stage.sortedInbox (sort : List Elem → List Elem) (s : Stage) : List Elem :=
  if decide (s.big.length < s.stopMerging) = true then sort s.inbox else s.inbox

/-- The second phase of `expand`, "Merge into big": with `doMerge`, a non-empty
`big` is replaced by its `std::merge` with the sorted inbox and an empty `big`
is swapped with the inbox; without `doMerge`, `big` stays. -/
def Stage.mergedBig (sort : List Elem → List Elem) (s : Stage) : List Elem :=
  if decide (s.big.length < s.stopMerging) = true then
    (if s.big.length ≠ 0 then stdMerge s.big (s.sortedInbox sort) else s.sortedInbox sort)
  else s.big

/-- The inbox after the second phase of `expand` (it receives the old, empty
`big` when the two are swapped). -/
def Stage.mergedInbox (sort : List Elem → List Elem) (s : Stage) : List Elem :=
  if decide (s.big.length < s.stopMerging) = true then
    (if s.big.length ≠ 0 then s.sortedInbox sort else s.big)
  else s.sortedInbox sort

/-- The third phase of `expand`, "Find matches": the matching loop over the
merged `big` and `inboxNegs`. Every iteration advances one of the two cursors,
so the sum of the two sizes bounds the number of iterations. -/
def Stage.expandWalk (sort : List Elem → List Elem) (s : Stage) (outbox : List Elem) :
    Option (List Nat) × WalkState :=
  walk s.target s.stageNum s.isFinalStage
    ((s.mergedBig sort).length + (s.sortedNegs sort).length)
    (s.mergedBig sort) (s.sortedNegs sort) ⟨s.found, outbox, s.currId⟩

/-- `Stage::expand(outbox)`: the three phases, then either the early return of
a final-stage match (the inbox is not replaced) or the replacement of the inbox
by an empty vector and the return of the empty set. -/
def Stage.expand (sort : List Elem → List Elem) (s : Stage) (outbox : List Elem) :
    ExpandResult :=
  match s.expandWalk sort outbox with
  | (some ids, st) =>
    { ids := ids,
      stage := { s with inbox := s.mergedInbox sort, big := s.mergedBig sort,
                        found := st.found, currId := st.currId },
      outbox := st.outbox }
  | (none, st) =>
    { ids := [],
      stage := { s with inbox := [], big := s.mergedBig sort,
                        found := st.found, currId := st.currId },
      outbox := st.outbox }

/-- Well-formedness of the buffers a stage holds: the target and the digests
of the inbox and of `big` are 32-byte buffers. -/
def Stage.WF (s : Stage) : Prop :=
  Bytes32 s.target ∧ (∀ e ∈ s.inbox, Bytes32 e.buf) ∧ (∀ e ∈ s.big, Bytes32 e.buf)

instance (s : Stage) : Decidable s.WF := by
  unfold Stage.WF; infer_instance

/-! ### Auxiliary view of the matching loop as a list of matched pairs -/

/-- The `found` records written for a list of matched pairs (element of `big`,
element of `inboxNegs`), numbered from `currId`. -/
def recordsOf : Nat → List (Elem × Elem) → List FoundElem
  | _, [] => []
  | currId, m :: ms => ⟨currId, m.1.id, m.2.id⟩ :: recordsOf (currId + 1) ms

/-- The outbox elements written for a list of matched pairs, numbered from `currId`. -/
def itemsOf (target : List Nat) : Nat → List (Elem × Elem) → List Elem
  | _, [] => []
  | currId, m :: ms => foundItem target m.1 m.2 currId :: itemsOf target (currId + 1) ms

/-! ## Generator -/

/-- The members of `struct Generator`. -/
structure Generator where
  batchSize : Nat
  mergeLimit : Nat
  currSeed : Nat
  stages : List Stage
deriving DecidableEq, Repr

/-- The constructor `Generator(memDir, batchSize, mergeLimit)`. -/
def Generator.new (batchSize mergeLimit : Nat) : Generator :=
  { batchSize := batchSize, mergeLimit := mergeLimit, currSeed := 1, stages := [] }

/-- The stage `stages[i]`; indexing past the end is undefined in the source and
yields an empty dummy here. -/
def Generator.stage (g : Generator) (i : Nat) : Stage :=
  g.stages.getD i (Stage.new [] 0 0)

/-- The error thrown by `recoverSeeds`: "Unable to find id `id` in stage `stage`". -/
structure UnknownAncestor where
  id : Nat
  stage : Nat
deriving DecidableEq, Repr

/-- The outcome of `recoverSeeds`: the returned set or the error thrown. -/
inductive Recovered where
  | seeds (ids : List Nat)
  | unknownAncestor (e : UnknownAncestor)
deriving DecidableEq, Repr

/-- The inner loop of `recoverSeeds` at stage `stage`: every id of the current
set, in ascending order, is looked up with `std::lower_bound` in `found`; a miss
throws, a hit inserts both parents into `newIds`. -/
def recoverLevel (found : List FoundElem) (stage : Nat) :
    List Nat → List Nat → Recovered
  | [], newIds => .seeds newIds
  | id :: rest, newIds =>
    match found[lowerBound found id]? with
    | none => .unknownAncestor ⟨id, stage⟩
    | some lower =>
      if lower.localId ≠ id then .unknownAncestor ⟨id, stage⟩
      else recoverLevel found stage rest
        (setInsert lower.parentId2 (setInsert lower.parentId1 newIds))

/-- The outer loop of `recoverSeeds`, with `n = i + 1` stages left to descend:
`for (; i >= 0; i--)`. -/
def Generator.recoverFrom (g : Generator) : Nat → List Nat → Recovered
  | 0, ids => .seeds ids
  | n + 1, ids =>
    match recoverLevel (g.stage n).found n ids [] with
    | .unknownAncestor e => .unknownAncestor e
    | .seeds newIds => g.recoverFrom n newIds

/-- `Generator::recoverSeeds(ids, i)` for a signed `i` (at least -1 in every call). -/
def Generator.recoverSeeds (g : Generator) (ids : List Nat) (i : Int) : Recovered :=
  g.recoverFrom (i + 1).toNat ids

/-- `Generator::populateHashes`: `numRecs` elements with seeds `currSeed + i`;
`H seed` stands for the reversed SHA-256 digest of the decimal string of `seed`. -/
def Generator.populateHashes (H : Nat → List Nat) (g : Generator) (numRecs : Nat) :
    List Elem × Generator :=
  ((List.range numRecs).map (fun i => ⟨H (g.currSeed + i), g.currSeed + i⟩),
    { g with currSeed := g.currSeed + numRecs })

/-- The start of `Generator::run(numStages, target)`: stages are appended up to
`numStages`, stage `numStages - 1` is marked final and a dummy stage is appended.
Every stage holds the pointer `target`; a stage kept from an earlier run was given
the same pointer by the driver, so it reads the current content too. -/
def Generator.setup (g : Generator) (numStages : Nat) (target : List Nat) : Generator :=
  let kept := g.stages.map (fun s => { s with target := target })
  let fresh := (List.range' g.stages.length (numStages - g.stages.length)).map
    (fun i => Stage.new target i g.mergeLimit)
  let all := kept ++ fresh
  let marked := all.set (numStages - 1)
    { all.getD (numStages - 1) (Stage.new [] 0 0) with isFinalStage := true }
  { g with stages := marked ++ [Stage.new target 0 0] }

/-- The call `stages[i].expand(*stages[i + 1].inbox)` of `run` and what follows
it: a non-empty id set ends `run` with `recoverSeeds(ids, i - 1)`. -/
def Generator.expandAt (sort : List Elem → List Elem) (g : Generator) (i : Nat) :
    Option Recovered × Generator :=
  let r := (g.stage i).expand sort (g.stage (i + 1)).inbox
  let next : Stage := { g.stage (i + 1) with inbox := r.outbox }
  let g1 : Generator := { g with stages := (g.stages.set i r.stage).set (i + 1) next }
  if r.ids.length ≠ 0 then (some (g1.recoverSeeds r.ids ((i : Int) - 1)), g1)
  else (none, g1)

/-- The stage walk of one iteration of `run`, at index `i`:
`for (ssize_t i = numStages - 1; i >= 0; i--)`, left by `break` after one `expand`. -/
def Generator.walkStages (H : Nat → List Nat) (sort : List Elem → List Elem)
    (g : Generator) : Nat → Option Recovered × Generator
  | 0 =>
    if (g.stage 0).inbox.length = 0 then
      let p := g.populateHashes H g.batchSize
      let g1 : Generator :=
        { p.2 with stages := p.2.stages.set 0 { g.stage 0 with inbox := p.1 } }
      g1.expandAt sort 0
    else g.expandAt sort 0
  | i + 1 =>
    if (g.stage (i + 1)).inbox.length > 0 then g.expandAt sort (i + 1)
    else g.walkStages H sort i

/-- The `while (1)` loop of `run`; the first argument bounds the number of
iterations, and `none` is returned when it is used up. -/
def Generator.runLoop (H : Nat → List Nat) (sort : List Elem → List Elem)
    (numStages : Nat) : Nat → Generator → Option Recovered × Generator
  | 0, g => (none, g)
  | fuel + 1, g =>
    match g.walkStages H sort (numStages - 1) with
    | (some r, g1) => (some r, g1)
    | (none, g1) => Generator.runLoop H sort numStages fuel g1

/-- `Generator::run(numStages, target)`. -/
def Generator.run (H : Nat → List Nat) (sort : List Elem → List Elem) (fuel : Nat)
    (g : Generator) (numStages : Nat) (target : List Nat) : Option Recovered × Generator :=
  Generator.runLoop H sort numStages fuel (g.setup numStages target)

/-! ## Driver -/

/-- The variables of the driver loop of `main`. -/
structure DriverState where
  currStage : Nat
  currTarget : Elem
  accum : Elem
  g : Generator
deriving DecidableEq, Repr

/-- The loop `while (currStage < (numStages-1) && target.substr(currStage * 4, 4)
== std::string(4, 0)) currStage++`; the first argument bounds the iterations. -/
def skipZeroWindows (target : List Nat) (numStages : Nat) : Nat → Nat → Nat
  | 0, currStage => currStage
  | fuel + 1, currStage =>
    if currStage < numStages - 1 ∧ (target.drop (currStage * 4)).take 4 = List.replicate 4 0
    then skipZeroWindows target numStages fuel (currStage + 1)
    else currStage

/-- The driver's variables when its loop is entered, for the stored 32-byte
`target`: `currStage`, `currTarget` (zero, then `memcpy` of the target from
`currOffset` on), `accum` (zero) and the generator `g`. -/
def driverInit (target : List Nat) (numStages : Nat) (g : Generator) : DriverState :=
  let currStage := skipZeroWindows target numStages numStages 0
  let currOffset := currStage * 4
  { currStage := currStage,
    currTarget :=
      { Elem.setToZero with
        buf := memcpy Elem.setToZero.buf currOffset target currOffset (32 - currOffset) },
    accum := Elem.setToZero,
    g := g }

/-- The loop `for (auto seed : seeds) { ...; accum.add(hash); }`, where `H seed`
is the reversed SHA-256 digest of the decimal string of `seed`. -/
def accumulate (H : Nat → List Nat) (accum : Elem) (seeds : List Nat) : Elem :=
  seeds.foldl (fun acc seed => acc.add (H seed) 0) accum

/-- The new `currTarget` for the window at `currOffset`: `a1` and `a2` receive
the four bytes of `accum` and of the target at `currOffset`, `a1.negateAndAdd(a2.buf)`
is computed, and `currTarget` is zero with the four low bytes of `a1` copied to
`currOffset` and the target copied from `currOffset + 4` on. -/
def nextTarget (target : List Nat) (accum : Elem) (currOffset : Nat) : Elem :=
  let a1 : Elem :=
    { Elem.setToZero with buf := memcpy Elem.setToZero.buf 0 accum.buf currOffset 4 }
  let a2 : Elem :=
    { Elem.setToZero with buf := memcpy Elem.setToZero.buf 0 target currOffset 4 }
  let a1 := a1.negateAndAdd a2.buf
  let withWindow := memcpy Elem.setToZero.buf currOffset a1.buf 0 4
  { Elem.setToZero with
    buf := memcpy withWindow (currOffset + 4) target (currOffset + 4) (32 - (currOffset + 4)) }

/-- The generator's stages after `pop_back()` twice and, when a stage is left,
`stages.back().found->clear()`. -/
def dropFinalStages (g : Generator) : Generator :=
  let kept := g.stages.dropLast.dropLast
  { g with stages :=
      match kept.getLast? with
      | some last => kept.dropLast ++ [{ last with found := [] }]
      | none => kept }

/-- One iteration of the driver loop for a generator call `run`: the seeds
returned are hashed and added to `accum`, `currStage` is incremented, and either
the loop is left (`true`) or the stages are dropped and `currTarget` is rebuilt.
No state results when `run` returns no seed set. -/
def driverIter (H : Nat → List Nat)
    (run : Generator → Nat → List Nat → Option Recovered × Generator)
    (target : List Nat) (numStages : Nat) (st : DriverState) : Option (DriverState × Bool) :=
  match run st.g (st.currStage + 1) st.currTarget.buf with
  | (some (.seeds seeds), g1) =>
    let accum := accumulate H st.accum seeds
    let currStage := st.currStage + 1
    if currStage ≥ numStages then
      some ({ st with currStage := currStage, accum := accum, g := g1 }, true)
    else
      some ({ currStage := currStage,
              currTarget := nextTarget target accum (currStage * 4),
              accum := accum,
              g := dropFinalStages g1 }, false)
  | _ => none

/-- The driver loop `while (1)`; the first argument bounds the iterations. -/
def driverLoop (H : Nat → List Nat)
    (run : Generator → Nat → List Nat → Option Recovered × Generator)
    (target : List Nat) (numStages : Nat) : Nat → DriverState → Option DriverState
  | 0, _ => none
  | fuel + 1, st =>
    match driverIter H run target numStages st with
    | some (st1, true) => some st1
    | some (st1, false) => driverLoop H run target numStages fuel st1
    | none => none

/-- The driver of `main` from the stored target on, with `Generator::run` as the
generator call: the state in which the loop is left. -/
def driver (H : Nat → List Nat) (sort : List Elem → List Elem) (runFuel : Nat)
    (target : List Nat) (numStages batchSize mergeLimit : Nat) : Option DriverState :=
  driverLoop H (Generator.run H sort runFuel) target numStages numStages
    (driverInit target numStages (Generator.new batchSize mergeLimit))

/-- The element `a1` of the re-targeting after `a1.negateAndAdd(a2.buf)`. -/
def residual (target : List Nat) (accum : Elem) (off : Nat) : Elem :=
  Elem.negateAndAdd ⟨(accum.buf.drop off).take 4 ++ List.replicate 28 0, 0⟩
    ((target.drop off).take 4 ++ List.replicate 28 0)

/-- The driver's variables after `k` iterations of its loop, when each of them
got a seed set from `run`. -/
def driverAt (H : Nat → List Nat)
    (run : Generator → Nat → List Nat → Option Recovered × Generator)
    (target : List Nat) (numStages : Nat) (g : Generator) : Nat → Option DriverState
  | 0 => some (driverInit target numStages g)
  | k + 1 =>
    match driverAt H run target numStages g k with
    | some st =>
      match driverIter H run target numStages st with
      | some (st1, _) => some st1
      | none => none
    | none => none

/-- The assumption on one generator call: `run` returns a seed set, and the sum
of the hashes of its seeds agrees with the call's `currTarget` on the first
`4 * (currStage + 1)` bytes. -/
def RunAgrees (H : Nat → List Nat)
    (run : Generator → Nat → List Nat → Option Recovered × Generator)
    (st : DriverState) : Prop :=
  match (run st.g (st.currStage + 1) st.currTarget.buf).1 with
  | some (.seeds seeds) =>
    (accumulate H Elem.setToZero seeds).buf.take (4 * (st.currStage + 1))
      = st.currTarget.buf.take (4 * (st.currStage + 1))
  | _ => False

instance (H : Nat → List Nat)
    (run : Generator → Nat → List Nat → Option Recovered × Generator)
    (st : DriverState) : Decidable (RunAgrees H run st) := by
  unfold RunAgrees; split <;> infer_instance

/-- What the driver maintains between iterations, in numbers: `accum` agrees
with the target below the current window, `currTarget` is zero there, and
`accum + currTarget` agrees with the target up to the end of the current window. -/
def DriverInv (target : List Nat) (st : DriverState) : Prop :=
  Bytes32 st.accum.buf ∧ Bytes32 st.currTarget.buf ∧
  leVal st.accum.buf % 256 ^ (4 * st.currStage) = leVal target % 256 ^ (4 * st.currStage) ∧
  leVal st.currTarget.buf % 256 ^ (4 * st.currStage) = 0 ∧
  (leVal st.accum.buf + leVal st.currTarget.buf) % 256 ^ (4 * (st.currStage + 1))
    = leVal target % 256 ^ (4 * (st.currStage + 1))

/-- The sum of the digests of a list of seeds, as a natural number. -/
def sumHash (H : Nat → List Nat) (seeds : List Nat) : Nat :=
  (seeds.map (fun seed => leVal (H seed))).sum

/-! ### The ancestry descent in the words of the specification -/

/-- A `found` vector sorted by `localId`, ascending. -/
def FoundSorted (found : List FoundElem) : Prop :=
  found.Pairwise (fun a b => a.localId ≤ b.localId)

instance (found : List FoundElem) : Decidable (FoundSorted found) := by
  unfold FoundSorted; infer_instance

/-- The record of `found` with a given `localId` (the first one, should several
carry it). -/
def lookupFound : List FoundElem → Nat → Option FoundElem
  | [], _ => none
  | r :: rs, id => if r.localId = id then some r else lookupFound rs id

/-- Some id of the current set has no record with that `localId`. -/
def MissingAncestor (found : List FoundElem) (ids : List Nat) : Prop :=
  ∃ id ∈ ids, ∀ r ∈ found, r.localId ≠ id

/-- The union of `{parentId1, parentId2}` over the records looked up for the
ids of the current set, added to the set `acc`. -/
def parentsInto (found : List FoundElem) : List Nat → List Nat → List Nat
  | [], acc => acc
  | id :: rest, acc =>
    match lookupFound found id with
    | some r => parentsInto found rest (setInsert r.parentId2 (setInsert r.parentId1 acc))
    | none => parentsInto found rest acc

/-- The set at the next level: the union of the parents of the looked-up records. -/
def parentSet (found : List FoundElem) (ids : List Nat) : List Nat :=
  parentsInto found ids []

/-- The current set after descending `k` levels, starting with `ids` when `n`
levels (stages `n - 1` down to 0) are left. -/
def descend (g : Generator) : Nat → Nat → List Nat → List Nat
  | _, 0, ids => ids
  | 0, _ + 1, ids => ids
  | n + 1, k + 1, ids => descend g n k (parentSet (g.stage n).found ids)

/-! ### Sortedness by `buf` and the pairs the matching loop reports -/

/-- A vector of elements sorted ascending by `buf` under the comparator of
`expand`: no later element compares below an earlier one. -/
def SortedByBuf (l : List Elem) : Prop := l.Pairwise (fun x y => cmp y x = false)

instance (l : List Elem) : Decidable (SortedByBuf l) := by
  unfold SortedByBuf; infer_instance

/-- The pairs (element of `big`, element of `inboxNegs`) at which the matching
loop finds its test true, in the order met, for the cursor movement of the loop
(`++currInboxNeg` when it compares below `*currBig`, else `++currBig`). -/
def walkMatches (stageNum : Nat) : Nat → List Elem → List Elem → List (Elem × Elem)
  | 0, _, _ => []
  | _ + 1, [], _ => []
  | _ + 1, _ :: _, [] => []
  | n + 1, a :: bigRest, b :: negRest =>
    (if isMatch stageNum a b then [(a, b)] else []) ++
      (if cmp b a then walkMatches stageNum n (a :: bigRest) negRest
       else walkMatches stageNum n bigRest (b :: negRest))

/-! ### Sequences of `expand` calls on one stage -/

/-- What other code has done to a stage when `expand` is called on it again: the
content of the target buffer, the elements put into its inbox, and the outbox
handed to the call. -/
structure ExpandCall where
  target : List Nat
  inbox : List Elem
  outbox : List Elem
deriving DecidableEq, Repr

/-- The stage after a sequence of `expand` calls. -/
def expandSeq (sort : List Elem → List Elem) : Stage → List ExpandCall → Stage
  | s, [] => s
  | s, c :: cs =>
    expandSeq sort
      (({ s with target := c.target, inbox := c.inbox } : Stage).expand sort c.outbox).stage cs

/-- The value of a buffer read as a big-endian unsigned integer
(byte 0 most significant). -/
def beVal : List Nat → Nat
  | [] => 0
  | b :: bs => b * 256 ^ bs.length + beVal bs

/-! ## FVector -/

/-- The members of `struct FVector<T>`: `_size`, `_capacity`, whether `ptr` is
not null (`mapped`), whether `path` is not empty (`hasPath`), and the content
of the backing file at `path` in units of `T`, of which the mapping is a shared
view, so that `ptr[i]` is `file[i]`. The system calls are taken to succeed. -/
structure FVector (α : Type) where
  size : Nat
  capacity : Nat
  mapped : Bool
  hasPath : Bool
  file : List α
deriving DecidableEq, Repr

/-- The constructor `FVector(dir, name)`: a path, nothing mapped. -/
def FVector.new (α : Type) : FVector α :=
  { size := 0, capacity := 0, mapped := false, hasPath := true, file := [] }

/-- `FVector::clear()`. -/
def FVector.clear {α : Type} (v : FVector α) : FVector α := { v with size := 0 }

/-- The states of an `FVector` that its operations produce: the size is within
the capacity, the capacity is a `size_t`, a mapping covers exactly `capacity`
units of the file and is never empty, and nothing mapped means capacity 0. -/
def FVector.WF {α : Type} (v : FVector α) : Prop :=
  v.size ≤ v.capacity ∧ v.capacity < 2 ^ 64 ∧
  (v.mapped = true → v.file.length = v.capacity ∧ 0 < v.capacity) ∧
  (v.mapped = false → v.capacity = 0)

instance {α : Type} (v : FVector α) : Decidable v.WF := by
  unfold FVector.WF; infer_instance

/-- What is done to a stage between its construction and the end of the
program: an `expand` call of `Generator::run`, or the `found->clear()` of the
driver on the last stage it keeps between two runs. -/
inductive StageOp where
  | expand (c : ExpandCall)
  | clearFound
deriving DecidableEq, Repr

/-- The stage after a sequence of `expand` calls and `found->clear()`. -/
def stageOps (sort : List Elem → List Elem) : Stage → List StageOp → Stage
  | s, [] => s
  | s, .expand c :: ops =>
    stageOps sort
      (({ s with target := c.target, inbox := c.inbox } : Stage).expand sort c.outbox).stage ops
  | s, .clearFound :: ops => stageOps sort { s with found := [] } ops

/-- The records appended to `found` by the `expand` calls of a sequence, in the
order of their `push_back`: every call contributes what it added behind the
records it met. -/
def appendedBy (sort : List Elem → List Elem) : Stage → List StageOp → List FoundElem
  | _, [] => []
  | s, .expand c :: ops =>
    ((({ s with target := c.target, inbox := c.inbox } : Stage).expand sort
        c.outbox).stage.found.drop s.found.length) ++
      appendedBy sort
        (({ s with target := c.target, inbox := c.inbox } : Stage).expand sort c.outbox).stage ops
  | s, .clearFound :: ops => appendedBy sort { s with found := [] } ops

/-! ## Sample data -/

/-- A 32-byte buffer with bytes 0, 1, ..., 31. -/
def sampleBuf : List Nat := List.range 32

/-- A 32-byte buffer of 0xff bytes (the value 2^256 - 1). -/
def onesBuf : List Nat := List.replicate 32 255

/-- A digest whose low four bytes are 01 00 00 00. -/
def xBuf : List Nat := [1, 0, 0, 0, 5] ++ List.replicate 27 0

/-- A digest whose low four bytes are ff ff ff ff, so that `xBuf + yBuf` is zero
on its low four bytes. -/
def yBuf : List Nat := [255, 255, 255, 255, 7] ++ List.replicate 27 0

/-- A fresh non-final stage 0 with target zero and two colliding inbox elements. -/
def sampleStage : Stage :=
  { Stage.new (List.replicate 32 0) 0 100 with inbox := [⟨xBuf, 1⟩, ⟨yBuf, 2⟩] }

/-- The same stage marked final. -/
def sampleFinalStage : Stage := { sampleStage with isFinalStage := true }

/-- The SHA-256 digest of the string "1", reversed (little-endian storage):
6b86b273ff34fce19d6b804eff5a3f5747ada4eaa22f1d49c01e52ddb7875b4b. -/
def sha1Le : List Nat :=
  [75, 91, 135, 183, 221, 82, 30, 192, 73, 29, 47, 162, 234, 164, 173, 71,
   87, 63, 90, 255, 78, 128, 107, 157, 225, 252, 52, 255, 115, 178, 134, 107]

/-- A hash function that agrees with reversed SHA-256 on the seed 1. -/
def sampleHash (seed : Nat) : List Nat :=
  if seed = 1 then sha1Le else List.replicate 32 0

/-- The stored target for the command-line target `6f0eb696` (one stage): its
four low bytes are those of twice the digest of seed 1. -/
def selfTarget : List Nat := [150, 182, 14, 111] ++ List.replicate 28 0

/-- A fresh final stage 0 with target `selfTarget` whose inbox holds the single
fresh hash of seed 1, as `run(1, selfTarget)` builds it with a batch size of 1. -/
def selfStage : Stage :=
  { Stage.new selfTarget 0 4000000000 with isFinalStage := true, inbox := [⟨sha1Le, 1⟩] }

/-- A generator with two stages holding sorted ancestry records. -/
def sampleGen : Generator :=
  { Generator.new 1 100 with
    stages := [{ Stage.new onesBuf 0 100 with found := [⟨1, 10, 11⟩, ⟨2, 12, 13⟩, ⟨3, 10, 14⟩] },
               { Stage.new onesBuf 1 100 with found := [⟨1, 1, 2⟩, ⟨2, 2, 3⟩] }] }

/-- The `n` low bytes of a number, least significant first. -/
def leBytes : Nat → Nat → List Nat
  | 0, _ => []
  | n + 1, v => (v % 256) :: leBytes n (v / 256)

/-- A toy hash on the seeds 1 to 6: the digests of 1 and 2 sum to 5 on the low
four bytes, those of 3 and 4 and those of 5 and 6 sum to zero there, and the four
of them sum to `2^32` on the low eight bytes. -/
def toyHash (seed : Nat) : List Nat :=
  leBytes 32 (match seed with
    | 1 => 2 + 2 ^ 32
    | 2 => 3 + 2 ^ 32
    | 3 => 1
    | 4 => 2 ^ 32 - 1
    | 5 => 3
    | 6 => (2 ^ 32 - 3) + 2 ^ 32 * (2 ^ 32 - 1)
    | _ => 0)

/-- The stored target for the command-line target `0000000300000005` (two stages). -/
def toyTarget : List Nat := leBytes 32 (5 + 3 * 2 ^ 32)

/-- A fresh generator with batch size 2. -/
def toyGen : Generator := Generator.new 2 1000

/-- `Generator::run` on the toy hash, with at most five iterations per call. -/
def toyRun : Generator → Nat → List Nat → Option Recovered × Generator :=
  Generator.run toyHash insertSort 5

/-- A non-final stage 0 with a sorted non-empty `big` and an inbox to merge. -/
def mergeStage : Stage :=
  { Stage.new (List.replicate 32 0) 0 100 with
    big := [⟨xBuf, 1⟩, ⟨yBuf, 2⟩], inbox := [⟨sampleBuf, 3⟩, ⟨yBuf, 4⟩] }

/-- A sorted `big` of two elements. -/
def walkBig : List Elem := [⟨xBuf, 1⟩, ⟨yBuf, 2⟩]

/-- A sorted `inboxNegs` whose element shares its low four bytes with `xBuf`. -/
def walkNegs : List Elem := [⟨[1, 0, 0, 0, 9] ++ List.replicate 27 0, 7⟩]

/-- The loop state of a fresh stage with an empty outbox. -/
def walkStart : WalkState := ⟨[], [], 1⟩

/-- Two `expand` calls: an inbox of two colliding elements, then an inbox of one
element colliding with an element of `big`. -/
def twoCalls : List ExpandCall :=
  [⟨List.replicate 32 0, [⟨xBuf, 1⟩, ⟨yBuf, 2⟩], []⟩, ⟨List.replicate 32 0, [⟨yBuf, 3⟩], []⟩]

/-- A final stage 0 whose `big` has reached `stopMerging` and matches the
negation of the inbox element. -/
def stopFinalStage : Stage :=
  { Stage.new (List.replicate 32 0) 0 1 with
    isFinalStage := true, big := [⟨xBuf, 1⟩], inbox := [⟨yBuf, 2⟩] }

/-- The same stage, not final. -/
def stopStage : Stage := { stopFinalStage with isFinalStage := false }

/-- The 32-byte buffer of the number 1 in little-endian storage. -/
def loBuf : List Nat := [1] ++ List.replicate 31 0

/-- The 32-byte buffer of the number 256 in little-endian storage. -/
def hiBuf : List Nat := [0, 1] ++ List.replicate 30 0

/-- The driver's variables after its first iteration on the toy target. -/
def toyStep : DriverState :=
  ((driverIter toyHash toyRun toyTarget 2 (driverInit toyTarget 2 toyGen)).map Prod.fst).getD
    (driverInit toyTarget 2 toyGen)

/-- A stored target whose windows 0 and 1 are zero and whose window 2 is not. -/
def zeroLowTarget : List Nat := leBytes 32 (7 * 2 ^ 64)

/-- The stored target for the command-line target `000000010000000300000005`
(three stages). -/
def toyTarget3 : List Nat := leBytes 32 (5 + 3 * 2 ^ 32 + 2 ^ 64)

/-- Two `expand` calls with the driver's `found->clear()` between them. -/
def clearedOps : List StageOp :=
  [.expand ⟨List.replicate 32 0, [⟨xBuf, 1⟩, ⟨yBuf, 2⟩], []⟩, .clearFound,
   .expand ⟨List.replicate 32 0, [⟨yBuf, 3⟩], []⟩]

/-! ## Properties of the element arithmetic -/

theorem and_0xff (x : Nat) : x &&& 0xff = x % 256 := by
  have h : (0xff : Nat) = 2 ^ 8 - 1 := by norm_num
  rw [h, Nat.and_pow_two_sub_one_eq_mod]

theorem shr_8 (x : Nat) : x >>> 8 = x / 256 := by
  rw [Nat.shiftRight_eq_div_pow]

theorem getD_append_cons (pre : List Nat) (a : Nat) (rest : List Nat) (d : Nat) :
    (pre ++ a :: rest).getD pre.length d = a := by
  induction pre with
  | nil => rfl
  | cons x xs ih => simpa [List.getD] using ih

theorem set_append_cons (pre : List Nat) (a x : Nat) (rest : List Nat) :
    (pre ++ a :: rest).set pre.length x = (pre ++ [x]) ++ rest := by
  induction pre with
  | nil => rfl
  | cons y ys ih => simp [ih]

theorem addLoop_eq_addBytes (otherBuf : List Nat) :
    ∀ (n i : Nat) (pre rest opre orest : List Nat) (v : Nat),
      pre.length = i → opre.length = i → rest.length = n → orest.length = n →
      otherBuf = opre ++ orest →
      addLoop otherBuf n i (pre ++ rest) v = pre ++ (addBytes rest orest v).1 := by
  intro n
  induction n with
  | zero =>
    intro i pre rest opre orest v _ _ hr ho _
    have hr0 : rest = [] := List.length_eq_zero.mp hr
    subst hr0
    simp [addLoop, addBytes]
  | succ n ih =>
    intro i pre rest opre orest v hp hop hr ho hob
    match rest, orest, hr, ho with
    | a :: rest1, b :: orest1, hr, ho =>
      simp only [List.length_cons, Nat.add_right_cancel_iff] at hr ho
      subst hob
      have hga : (pre ++ a :: rest1).getD i 0 = a := by
        rw [← hp]; exact getD_append_cons pre a rest1 0
      have hgb : (opre ++ b :: orest1).getD i 0 = b := by
        rw [← hop]; exact getD_append_cons opre b orest1 0
      have hset : ∀ x, (pre ++ a :: rest1).set i x = (pre ++ [x]) ++ rest1 := by
        intro x; rw [← hp]; exact set_append_cons pre a x rest1
      simp only [addLoop, addBytes, hga, hgb, hset]
      have := ih (i + 1) (pre ++ [(a + b + v) % 2 ^ 64 &&& 0xff]) rest1 (opre ++ [b]) orest1
        (((a + b + v) % 2 ^ 64) >>> 8) (by simp [hp]) (by simp [hop]) hr ho (by simp)
      rw [this]
      simp

theorem addBytes_length : ∀ (a b : List Nat) (v : Nat), a.length = b.length →
    (addBytes a b v).1.length = a.length
  | [], [], _, _ => by simp [addBytes]
  | _ :: as, _ :: bs, v, h => by
    simp only [List.length_cons, Nat.add_right_cancel_iff] at h
    simp [addBytes, addBytes_length as bs _ h]

theorem addBytes_lt : ∀ (a b : List Nat) (v : Nat), ∀ x ∈ (addBytes a b v).1, x < 256
  | [], _, _ => by simp [addBytes]
  | _ :: _, [], _ => by simp [addBytes]
  | a :: as, b :: bs, v => by
    intro x hx
    simp only [addBytes, List.mem_cons] at hx
    rcases hx with hx | hx
    · rw [hx, and_0xff]; exact Nat.mod_lt _ (by norm_num)
    · exact addBytes_lt as bs _ x hx

/-- The ripple-carry is exact: output bytes plus the outgoing carry weigh what
the inputs and the incoming carry weigh. -/
theorem addBytes_val : ∀ (a b : List Nat) (v : Nat), a.length = b.length →
    (∀ x ∈ a, x < 256) → (∀ x ∈ b, x < 256) → v ≤ 1 →
    leVal (addBytes a b v).1 + 256 ^ a.length * (addBytes a b v).2
      = leVal a + leVal b + v ∧ (addBytes a b v).2 ≤ 1
  | [], [], v, _, _, _, hv => by simp [addBytes, leVal, hv]
  | a :: as, b :: bs, v, h, ha, hb, hv => by
    simp only [List.length_cons, Nat.add_right_cancel_iff] at h
    have ha0 : a < 256 := ha a (List.mem_cons_self _ _)
    have hb0 : b < 256 := hb b (List.mem_cons_self _ _)
    have hmod : (a + b + v) % 2 ^ 64 = a + b + v := Nat.mod_eq_of_lt (by norm_num; omega)
    have hc : (a + b + v) / 256 ≤ 1 := by omega
    obtain ⟨ih, ihc⟩ := addBytes_val as bs ((a + b + v) / 256) h
      (fun x hx => ha x (List.mem_cons_of_mem _ hx))
      (fun x hx => hb x (List.mem_cons_of_mem _ hx)) hc
    simp only [addBytes, hmod, and_0xff, shr_8, leVal, List.length_cons]
    refine ⟨?_, ihc⟩
    have hdm := Nat.div_add_mod (a + b + v) 256
    rw [pow_succ]
    nlinarith [ih, hdm]

theorem leVal_lt : ∀ (l : List Nat), (∀ x ∈ l, x < 256) → leVal l < 256 ^ l.length
  | [], _ => by simp [leVal]
  | a :: as, h => by
    have ha : a < 256 := h a (List.mem_cons_self _ _)
    have ih := leVal_lt as (fun x hx => h x (List.mem_cons_of_mem _ hx))
    simp only [leVal, List.length_cons, pow_succ]
    omega

theorem leVal_inj : ∀ (a b : List Nat), a.length = b.length →
    (∀ x ∈ a, x < 256) → (∀ x ∈ b, x < 256) → leVal a = leVal b → a = b
  | [], [], _, _, _, _ => rfl
  | a :: as, b :: bs, h, ha, hb, hv => by
    simp only [List.length_cons, Nat.add_right_cancel_iff] at h
    have ha0 : a < 256 := ha a (List.mem_cons_self _ _)
    have hb0 : b < 256 := hb b (List.mem_cons_self _ _)
    simp only [leVal] at hv
    have h1 : a = b := by omega
    have h2 : leVal as = leVal bs := by omega
    rw [h1, leVal_inj as bs h (fun x hx => ha x (List.mem_cons_of_mem _ hx))
      (fun x hx => hb x (List.mem_cons_of_mem _ hx)) h2]

theorem leVal_negateBytes : ∀ (l : List Nat), (∀ x ∈ l, x < 256) →
    leVal (negateBytes l) + leVal l + 1 = 256 ^ l.length
  | [], _ => by simp [negateBytes, leVal]
  | a :: as, h => by
    have ha : a < 256 := h a (List.mem_cons_self _ _)
    have ih := leVal_negateBytes as (fun x hx => h x (List.mem_cons_of_mem _ hx))
    simp only [negateBytes, List.map_cons, leVal, List.length_cons, pow_succ] at ih ⊢
    omega

theorem negateBytes_bytes32 (l : List Nat) (h : Bytes32 l) : Bytes32 (negateBytes l) := by
  refine ⟨by simpa [negateBytes] using h.1, ?_⟩
  intro b hb
  simp only [negateBytes, List.mem_map] at hb
  obtain ⟨x, _, rfl⟩ := hb
  omega

theorem add_buf_eq (e : Elem) (otherBuf : List Nat) (v : Nat)
    (he : e.buf.length = 32) (ho : otherBuf.length = 32) :
    (e.add otherBuf v).buf = (addBytes e.buf otherBuf v).1 := by
  have := addLoop_eq_addBytes otherBuf 32 0 [] e.buf [] otherBuf v rfl rfl he ho rfl
  simpa [Elem.add] using this

theorem add_id (e : Elem) (otherBuf : List Nat) (v : Nat) : (e.add otherBuf v).id = e.id := by
  simp only [Elem.add]

theorem negateAndAdd_id (e : Elem) (target : List Nat) : (e.negateAndAdd target).id = e.id := by
  simp only [Elem.negateAndAdd, Elem.add]

theorem add_bytes32 (e : Elem) (otherBuf : List Nat) (v : Nat)
    (he : e.buf.length = 32) (ho : otherBuf.length = 32) :
    Bytes32 (e.add otherBuf v).buf := by
  rw [add_buf_eq e otherBuf v he ho]
  exact ⟨by rw [addBytes_length _ _ _ (he.trans ho.symm), he], addBytes_lt _ _ _⟩

theorem pow_256_32 : (256 : Nat) ^ 32 = 2 ^ 256 := by norm_num

theorem add_val (e : Elem) (otherBuf : List Nat) (carry : Nat)
    (he : Bytes32 e.buf) (ho : Bytes32 otherBuf) (hc : carry ≤ 1) :
    leVal (e.add otherBuf carry).buf = (leVal e.buf + leVal otherBuf + carry) % 2 ^ 256 := by
  rw [add_buf_eq e otherBuf carry he.1 ho.1]
  obtain ⟨hv, _⟩ := addBytes_val e.buf otherBuf carry (he.1.trans ho.1.symm) he.2 ho.2 hc
  have hlt := leVal_lt (addBytes e.buf otherBuf carry).1 (addBytes_lt _ _ _)
  rw [addBytes_length _ _ _ (he.1.trans ho.1.symm)] at hlt
  rw [he.1] at hv hlt
  rw [← pow_256_32, ← hv, Nat.add_mul_mod_self_left, Nat.mod_eq_of_lt hlt]

theorem negateAndAdd_bytes32 (e : Elem) (target : List Nat)
    (he : Bytes32 e.buf) (ht : Bytes32 target) : Bytes32 (e.negateAndAdd target).buf :=
  add_bytes32 _ target 1 (negateBytes_bytes32 _ he).1 ht.1

theorem sub_mod_cast (m t x : Nat) (hx : x < m) :
    (((t + (m - x)) % m : Nat) : Int) = ((t : Int) - (x : Int)) % (m : Int) := by
  rw [Int.natCast_mod, Nat.cast_add, Nat.cast_sub hx.le]
  have h : (t : Int) + ((m : Int) - (x : Int)) = ((t : Int) - (x : Int)) + (m : Int) := by ring
  rw [h, Int.add_emod_self]

/-- The digest after `negateAndAdd`, as a natural number. -/
theorem negateAndAdd_val (e : Elem) (target : List Nat)
    (he : Bytes32 e.buf) (ht : Bytes32 target) :
    leVal (e.negateAndAdd target).buf = (leVal target + (2 ^ 256 - leVal e.buf)) % 2 ^ 256 := by
  have hn := leVal_negateBytes e.buf he.2
  have hlt := leVal_lt e.buf he.2
  rw [he.1, pow_256_32] at hn hlt
  unfold Elem.negateAndAdd
  rw [add_val _ target 1 (negateBytes_bytes32 _ he) ht (le_refl 1)]
  congr 1
  simp only
  omega

/-- C7: for 32-byte `buf` and `otherBuf` and a carry in {0, 1},
`Elem::add(otherBuf, carry)` leaves `buf` equal to `(buf + otherBuf + carry) mod 2^256`
in the little-endian reading (byte 0 least significant), keeps it a 32-byte buffer
and leaves `id` unchanged. -/
theorem add_correct (e : Elem) (otherBuf : List Nat) (carry : Nat)
    (he : Bytes32 e.buf) (ho : Bytes32 otherBuf) (hc : carry ≤ 1) :
    leVal (e.add otherBuf carry).buf = (leVal e.buf + leVal otherBuf + carry) % 2 ^ 256 ∧
      Bytes32 (e.add otherBuf carry).buf ∧ (e.add otherBuf carry).id = e.id :=
  ⟨add_val e otherBuf carry he ho hc, add_bytes32 e otherBuf carry he.1 ho.1, add_id _ _ _⟩

theorem add_correct_witness :
    leVal (Elem.add ⟨sampleBuf, 9⟩ onesBuf 1).buf
        = (leVal sampleBuf + leVal onesBuf + 1) % 2 ^ 256 ∧
      Bytes32 (Elem.add ⟨sampleBuf, 9⟩ onesBuf 1).buf ∧
      (Elem.add ⟨sampleBuf, 9⟩ onesBuf 1).id = 9 :=
  add_correct ⟨sampleBuf, 9⟩ onesBuf 1 (by decide) (by decide) (by decide)

/-- The digest after `negateAndAdd`, as an integer modulo `2^256`. -/
theorem negateAndAdd_int_val (e : Elem) (T : List Nat)
    (he : Bytes32 e.buf) (hT : Bytes32 T) :
    (leVal (e.negateAndAdd T).buf : Int)
      = ((leVal T : Int) - (leVal e.buf : Int)) % 2 ^ 256 := by
  have hlt := leVal_lt e.buf he.2
  rw [he.1, pow_256_32] at hlt
  rw [negateAndAdd_val e T he hT, sub_mod_cast (2 ^ 256) (leVal T) (leVal e.buf) hlt]
  norm_cast

/-- C6: for 32-byte `buf` and `T`, `Elem::negateAndAdd(T)` leaves `buf` equal to
`(T - buf) mod 2^256`, both read as little-endian 256-bit unsigned integers, and
leaves `id` unchanged. -/
theorem negateAndAdd_correct (e : Elem) (T : List Nat)
    (he : Bytes32 e.buf) (hT : Bytes32 T) :
    (leVal (e.negateAndAdd T).buf : Int) = ((leVal T : Int) - (leVal e.buf : Int)) % 2 ^ 256 ∧
      Bytes32 (e.negateAndAdd T).buf ∧ (e.negateAndAdd T).id = e.id := by
  exact ⟨negateAndAdd_int_val e T he hT, negateAndAdd_bytes32 e T he hT, negateAndAdd_id _ _⟩

theorem negateAndAdd_correct_witness :
    (leVal (Elem.negateAndAdd ⟨onesBuf, 4⟩ sampleBuf).buf : Int)
        = ((leVal sampleBuf : Int) - (leVal onesBuf : Int)) % 2 ^ 256 ∧
      Bytes32 (Elem.negateAndAdd ⟨onesBuf, 4⟩ sampleBuf).buf ∧
      (Elem.negateAndAdd ⟨onesBuf, 4⟩ sampleBuf).id = 4 :=
  negateAndAdd_correct ⟨onesBuf, 4⟩ sampleBuf (by decide) (by decide)

theorem negateAndAdd_twice_buf (e : Elem) (T : List Nat)
    (he : Bytes32 e.buf) (hT : Bytes32 T) :
    ((e.negateAndAdd T).negateAndAdd T).buf = e.buf := by
  have h1 := negateAndAdd_bytes32 e T he hT
  have h2 := negateAndAdd_bytes32 _ T h1 hT
  apply leVal_inj _ _ (h2.1.trans he.1.symm) h2.2 he.2
  rw [negateAndAdd_val _ T h1 hT, negateAndAdd_val e T he hT]
  have hlt := leVal_lt e.buf he.2
  have hlT := leVal_lt T hT.2
  rw [he.1, pow_256_32] at hlt
  rw [hT.1, pow_256_32] at hlT
  generalize leVal e.buf = x at *
  generalize leVal T = t at *
  generalize (2 : Nat) ^ 256 = m at *
  by_cases hx : x ≤ t
  · have e1 : (t + (m - x)) % m = t - x := by
      have : t + (m - x) = (t - x) + m := by omega
      rw [this, Nat.add_mod_right, Nat.mod_eq_of_lt (by omega)]
    rw [e1]
    have : t + (m - (t - x)) = x + m := by omega
    rw [this, Nat.add_mod_right, Nat.mod_eq_of_lt hlt]
  · have e1 : (t + (m - x)) % m = t + (m - x) := Nat.mod_eq_of_lt (by omega)
    rw [e1]
    have : t + (m - (t + (m - x))) = x := by omega
    rw [this, Nat.mod_eq_of_lt hlt]

/-- C8: for every element `E` and 32-byte `T`, applying `negateAndAdd(T)` twice
restores `E.buf` (and the id is never touched), so it is an involution. -/
theorem negateAndAdd_involution (e : Elem) (T : List Nat)
    (he : Bytes32 e.buf) (hT : Bytes32 T) :
    (e.negateAndAdd T).negateAndAdd T = e := by
  have hb := negateAndAdd_twice_buf e T he hT
  have hid : ((e.negateAndAdd T).negateAndAdd T).id = e.id := by
    rw [negateAndAdd_id, negateAndAdd_id]
  generalize (e.negateAndAdd T).negateAndAdd T = r at hb hid
  cases e; cases r
  simp only at hb hid
  rw [hb, hid]

theorem negateAndAdd_involution_witness :
    (Elem.negateAndAdd (Elem.negateAndAdd ⟨sampleBuf, 4⟩ onesBuf) onesBuf)
      = ⟨sampleBuf, 4⟩ :=
  negateAndAdd_involution ⟨sampleBuf, 4⟩ onesBuf (by decide) (by decide)

/-! ## Properties of the matching loop and of `expand` -/

theorem startsWith_take : ∀ (k : Nat) (s t : List Nat), s.length = t.length →
    startsWith s (t.take k) = true → s.take k = t.take k
  | 0, _, _, _, _ => by simp
  | _ + 1, [], [], _, _ => rfl
  | k + 1, a :: s, b :: t, hl, h => by
    simp only [List.length_cons, Nat.add_right_cancel_iff] at hl
    simp only [List.take_succ_cons, startsWith, Bool.and_eq_true, beq_iff_eq] at h
    simp only [List.take_succ_cons, h.1, startsWith_take k s t hl h.2]

theorem mem_mergeLoop : ∀ (n : Nat) (xs ys : List Elem) (x : Elem),
    x ∈ mergeLoop n xs ys → x ∈ xs ∨ x ∈ ys
  | 0, xs, ys, x, h => by simpa [mergeLoop] using h
  | _ + 1, [], ys, x, h => by simp only [mergeLoop] at h; exact Or.inr h
  | _ + 1, y :: xs, [], x, h => by simp only [mergeLoop] at h; exact Or.inl h
  | n + 1, a :: xs, b :: ys, x, h => by
    simp only [mergeLoop] at h
    split at h
    · rcases List.mem_cons.mp h with h | h
      · exact Or.inr (h ▸ List.mem_cons_self _ _)
      · rcases mem_mergeLoop n (a :: xs) ys x h with h | h
        · exact Or.inl h
        · exact Or.inr (List.mem_cons_of_mem _ h)
    · rcases List.mem_cons.mp h with h | h
      · exact Or.inl (h ▸ List.mem_cons_self _ _)
      · rcases mem_mergeLoop n xs (b :: ys) x h with h | h
        · exact Or.inl (List.mem_cons_of_mem _ h)
        · exact Or.inr h

theorem recordsOf_length : ∀ (c : Nat) (ms : List (Elem × Elem)),
    (recordsOf c ms).length = ms.length
  | _, [] => rfl
  | c, _ :: ms => by simp [recordsOf, recordsOf_length (c + 1) ms]

/-- A non-final matching loop returns no ids, and what it appends to `found` and
to the outbox comes from a list of matching pairs taken from its two inputs. -/
theorem walk_nonfinal (target : List Nat) (stageNum : Nat) :
    ∀ (fuel : Nat) (bigs negs : List Elem) (st : WalkState),
      ∃ ms : List (Elem × Elem),
        (∀ m ∈ ms, m.1 ∈ bigs ∧ m.2 ∈ negs ∧ isMatch stageNum m.1 m.2 = true) ∧
        walk target stageNum false fuel bigs negs st =
          (none, ⟨st.found ++ recordsOf st.currId ms,
                  st.outbox ++ itemsOf target st.currId ms, st.currId + ms.length⟩) := by
  intro fuel
  induction fuel with
  | zero =>
    intro bigs negs st
    exact ⟨[], by simp, by simp [walk, recordsOf, itemsOf]⟩
  | succ n ih =>
    intro bigs negs st
    match bigs, negs with
    | [], negs => exact ⟨[], by simp, by simp [walk, recordsOf, itemsOf]⟩
    | a :: bigRest, [] => exact ⟨[], by simp, by simp [walk, recordsOf, itemsOf]⟩
    | a :: bigRest, b :: negRest =>
      by_cases hm : isMatch stageNum a b = true
      · by_cases hc : cmp b a = true
        · obtain ⟨ms, hms, hw⟩ := ih (a :: bigRest) negRest
            ⟨st.found ++ [⟨st.currId, a.id, b.id⟩],
              st.outbox ++ [foundItem target a b st.currId], st.currId + 1⟩
          refine ⟨(a, b) :: ms, ?_, ?_⟩
          · intro m hmem
            rcases List.mem_cons.mp hmem with h | h
            · subst h; exact ⟨List.mem_cons_self _ _, List.mem_cons_self _ _, hm⟩
            · exact ⟨(hms m h).1, List.mem_cons_of_mem _ (hms m h).2.1, (hms m h).2.2⟩
          · simp only [walk, hm, hc, Bool.and_false, Bool.false_eq_true, if_false, if_true, hw]
            simp [recordsOf, itemsOf, Nat.add_assoc, Nat.add_comm 1]
        · obtain ⟨ms, hms, hw⟩ := ih bigRest (b :: negRest)
            ⟨st.found ++ [⟨st.currId, a.id, b.id⟩],
              st.outbox ++ [foundItem target a b st.currId], st.currId + 1⟩
          refine ⟨(a, b) :: ms, ?_, ?_⟩
          · intro m hmem
            rcases List.mem_cons.mp hmem with h | h
            · subst h; exact ⟨List.mem_cons_self _ _, List.mem_cons_self _ _, hm⟩
            · exact ⟨List.mem_cons_of_mem _ (hms m h).1, (hms m h).2.1, (hms m h).2.2⟩
          · simp only [walk, hm, hc, Bool.and_false, Bool.false_eq_true, if_false, if_true, hw]
            simp [recordsOf, itemsOf, Nat.add_assoc, Nat.add_comm 1]
      · by_cases hc : cmp b a = true
        · obtain ⟨ms, hms, hw⟩ := ih (a :: bigRest) negRest st
          refine ⟨ms, ?_, ?_⟩
          · intro m hmem
            exact ⟨(hms m hmem).1, List.mem_cons_of_mem _ (hms m hmem).2.1, (hms m hmem).2.2⟩
          · simp only [walk, hm, hc, Bool.and_false, Bool.false_eq_true, if_false, if_true, hw]
        · obtain ⟨ms, hms, hw⟩ := ih bigRest (b :: negRest) st
          refine ⟨ms, ?_, ?_⟩
          · intro m hmem
            exact ⟨List.mem_cons_of_mem _ (hms m hmem).1, (hms m hmem).2.1, (hms m hmem).2.2⟩
          · simp only [walk, hm, hc, Bool.and_false, Bool.false_eq_true, if_false, if_true, hw]

/-- A final-stage matching loop writes nothing, and when it returns ids they are
the set of the two ids of a matching pair taken from its two inputs. -/
theorem walk_final (target : List Nat) (stageNum : Nat) :
    ∀ (fuel : Nat) (bigs negs : List Elem) (st : WalkState),
      (walk target stageNum true fuel bigs negs st).2 = st ∧
      ((walk target stageNum true fuel bigs negs st).1 = none ∨
        ∃ a ∈ bigs, ∃ b ∈ negs, isMatch stageNum a b = true ∧
          (walk target stageNum true fuel bigs negs st).1
            = some (setInsert b.id (setInsert a.id []))) := by
  intro fuel
  induction fuel with
  | zero => intro bigs negs st; simp [walk]
  | succ n ih =>
    intro bigs negs st
    match bigs, negs with
    | [], negs => simp [walk]
    | a :: bigRest, [] => simp [walk]
    | a :: bigRest, b :: negRest =>
      by_cases hm : isMatch stageNum a b = true
      · refine ⟨by simp [walk, hm], Or.inr ⟨a, List.mem_cons_self _ _, b,
          List.mem_cons_self _ _, hm, by simp [walk, hm]⟩⟩
      · by_cases hc : cmp b a = true
        · obtain ⟨h1, h2⟩ := ih (a :: bigRest) negRest st
          simp only [walk, hm, hc, Bool.false_and, Bool.false_eq_true, if_false, if_true]
          refine ⟨h1, h2.imp id ?_⟩
          rintro ⟨x, hx, y, hy, hxy, he⟩
          exact ⟨x, hx, y, List.mem_cons_of_mem _ hy, hxy, he⟩
        · obtain ⟨h1, h2⟩ := ih bigRest (b :: negRest) st
          simp only [walk, hm, hc, Bool.false_and, Bool.false_eq_true, if_false, if_true]
          refine ⟨h1, h2.imp id ?_⟩
          rintro ⟨x, hx, y, hy, hxy, he⟩
          exact ⟨x, List.mem_cons_of_mem _ hx, y, hy, hxy, he⟩

theorem memcmp_asymm : ∀ (a b : List Nat) (n : Nat), memcmp a b n < 0 → ¬ memcmp b a n < 0
  | [], _, _, h => by simp [memcmp] at h
  | _ :: _, [], _, h => by simp [memcmp] at h
  | _ :: _, _ :: _, 0, h => by simp [memcmp] at h
  | x :: as, y :: bs, n + 1, h => by
    simp only [memcmp] at h ⊢
    by_cases h1 : x < y
    · have h2 : ¬ y < x := by omega
      simp [h1, h2]
    · by_cases h2 : y < x
      · simp [h1, h2] at h
      · simp only [h1, h2, if_false] at h ⊢
        exact memcmp_asymm as bs n h

theorem memcmp_trans : ∀ (a b c : List Nat) (n : Nat),
    memcmp a b n < 0 → memcmp b c n < 0 → memcmp a c n < 0
  | [], _, _, _, h, _ => by simp [memcmp] at h
  | _ :: _, [], _, _, h, _ => by simp [memcmp] at h
  | _ :: _, _ :: _, [], _, _, h => by simp [memcmp] at h
  | _ :: _, _ :: _, _ :: _, 0, h, _ => by simp [memcmp] at h
  | x :: as, y :: bs, z :: cs, n + 1, h1, h2 => by
    simp only [memcmp] at h1 h2 ⊢
    by_cases hxy : x < y
    · by_cases hyz : y < z
      · have : x < z := by omega
        simp [this]
      · by_cases hzy : z < y
        · simp [hyz, hzy] at h2
        · have : x < z := by omega
          simp [this]
    · by_cases hyx : y < x
      · simp [hxy, hyx] at h1
      · simp only [hxy, hyx, if_false] at h1
        by_cases hyz : y < z
        · have : x < z := by omega
          simp [this]
        · by_cases hzy : z < y
          · simp [hyz, hzy] at h2
          · simp only [hyz, hzy, if_false] at h2
            have e1 : ¬ x < z := by omega
            have e2 : ¬ z < x := by omega
            simp only [e1, e2, if_false]
            exact memcmp_trans as bs cs n h1 h2

theorem cmp_asymm (x y : Elem) (h : cmp x y = true) : cmp y x = false := by
  simp only [cmp, decide_eq_true_eq, decide_eq_false_iff_not] at h ⊢
  exact memcmp_asymm _ _ _ h

theorem cmp_trans (x y z : Elem) (h1 : cmp x y = true) (h2 : cmp y z = true) :
    cmp x z = true := by
  simp only [cmp, decide_eq_true_eq] at h1 h2 ⊢
  exact memcmp_trans _ _ _ _ h1 h2

theorem perm_insertElem (x : Elem) : ∀ (l : List Elem), (insertElem x l).Perm (x :: l)
  | [] => List.Perm.refl _
  | y :: ys => by
    simp only [insertElem]
    split
    · exact List.Perm.refl _
    · exact ((perm_insertElem x ys).cons y).trans (List.Perm.swap x y ys)

theorem perm_insertSort : ∀ (l : List Elem), (insertSort l).Perm l
  | [] => List.Perm.refl _
  | x :: xs => (perm_insertElem x (insertSort xs)).trans ((perm_insertSort xs).cons x)

theorem sorted_insertElem (x : Elem) : ∀ (l : List Elem),
    l.Pairwise (fun p q => cmp q p = false) →
    (insertElem x l).Pairwise (fun p q => cmp q p = false)
  | [], _ => by simp [insertElem]
  | y :: ys, h => by
    obtain ⟨hy, hys⟩ := List.pairwise_cons.mp h
    simp only [insertElem]
    split
    · rename_i hxy
      refine List.pairwise_cons.mpr ⟨?_, h⟩
      intro z hz
      rcases List.mem_cons.mp hz with hz | hz
      · rw [hz]; exact cmp_asymm x y hxy
      · by_contra hzx
        have hzx1 : cmp z x = true := by simpa using hzx
        have := cmp_trans z x y hzx1 hxy
        rw [hy z hz] at this
        exact Bool.noConfusion this
    · rename_i hxy
      refine List.pairwise_cons.mpr ⟨?_, sorted_insertElem x ys hys⟩
      intro w hw
      rcases List.mem_cons.mp ((perm_insertElem x ys).subset hw) with hw | hw
      · rw [hw]; simpa using hxy
      · exact hy w hw

theorem sorted_insertSort : ∀ (l : List Elem),
    (insertSort l).Pairwise (fun p q => cmp q p = false)
  | [] => List.Pairwise.nil
  | x :: xs => sorted_insertElem x _ (sorted_insertSort xs)

/-- Insertion sort is an admissible `std::sort`. -/
theorem insertSort_isStdSort : IsStdSort insertSort :=
  ⟨perm_insertSort, sorted_insertSort⟩

/-- The merged `big` is the `big` that `expand` leaves. -/
theorem expand_big (sort : List Elem → List Elem) (s : Stage) (outbox : List Elem) :
    (s.expand sort outbox).stage.big = s.mergedBig sort := by
  simp only [Stage.expand]
  split <;> rfl

theorem mem_mergedBig (sort : List Elem → List Elem) (hs : IsStdSort sort) (s : Stage)
    (x : Elem) (hx : x ∈ s.mergedBig sort) : x ∈ s.big ∨ x ∈ s.inbox := by
  unfold Stage.mergedBig Stage.sortedInbox at hx
  by_cases hd : s.big.length < s.stopMerging
  · simp only [hd, decide_True, if_true] at hx
    by_cases hb : s.big.length ≠ 0
    · simp only [hb, if_true, ne_eq, not_false_eq_true] at hx
      rcases mem_mergeLoop _ _ _ _ hx with h | h
      · exact Or.inl h
      · exact Or.inr ((hs.perm _).subset h)
    · simp only [hb, if_false] at hx
      exact Or.inr ((hs.perm _).subset hx)
  · simp only [hd, decide_False, Bool.false_eq_true, if_false] at hx
    exact Or.inl hx

theorem mem_sortedNegs (sort : List Elem → List Elem) (hs : IsStdSort sort) (s : Stage)
    (y : Elem) (hy : y ∈ s.sortedNegs sort) : ∃ b ∈ s.inbox, y = b.negateAndAdd s.target := by
  obtain ⟨b, hb, rfl⟩ := List.mem_map.mp ((hs.perm _).subset hy)
  exact ⟨b, hb, rfl⟩

/-- How `expand` reduces to the matching loop: its outcome is read off the
loop's result on the merged `big` and the sorted negations. -/
theorem expand_unfold (sort : List Elem → List Elem) (s : Stage) (outbox : List Elem) :
    (s.expand sort outbox).ids = ((s.expandWalk sort outbox).1).getD [] ∧
    (s.expand sort outbox).stage.found = (s.expandWalk sort outbox).2.found ∧
    (s.expand sort outbox).outbox = (s.expandWalk sort outbox).2.outbox ∧
    (s.expand sort outbox).stage.currId = (s.expandWalk sort outbox).2.currId := by
  simp only [Stage.expand]
  split <;> rename_i heq <;> simp only [heq] <;> simp

theorem add_mul_mod_window (a x m : Nat) (ha : a < 256) (hm : 0 < m) :
    (a + 256 * x) % (256 * m) = a + 256 * (x % m) := by
  have hx := Nat.div_add_mod x m
  have hr := Nat.mod_lt x hm
  have e : a + 256 * x = (a + 256 * (x % m)) + (256 * m) * (x / m) := by
    conv_lhs => rw [← hx]
    ring
  rw [e, Nat.add_mul_mod_self_left]
  apply Nat.mod_eq_of_lt
  generalize x % m = r at hr
  omega

/-- The first `k` bytes of a buffer hold its value modulo `256^k`. -/
theorem leVal_take : ∀ (l : List Nat) (k : Nat), (∀ x ∈ l, x < 256) →
    leVal (l.take k) = leVal l % 256 ^ k
  | [], k, _ => by simp [leVal]
  | _ :: _, 0, _ => by simp [leVal, Nat.mod_one]
  | a :: as, k + 1, h => by
    have ha : a < 256 := h a (List.mem_cons_self _ _)
    have ih := leVal_take as k (fun x hx => h x (List.mem_cons_of_mem _ hx))
    simp only [List.take_succ_cons, leVal, ih]
    rw [pow_succ, Nat.mul_comm (256 ^ k) 256, add_mul_mod_window a _ _ ha (by positivity)]

theorem take_eq_of_mod_eq (x y : List Nat) (k : Nat) (hl : x.length = y.length)
    (hx : ∀ b ∈ x, b < 256) (hy : ∀ b ∈ y, b < 256)
    (h : leVal x % 256 ^ k = leVal y % 256 ^ k) : x.take k = y.take k := by
  apply leVal_inj
  · simp [hl]
  · exact fun b hb => hx b (List.mem_of_mem_take hb)
  · exact fun b hb => hy b (List.mem_of_mem_take hb)
  · rw [leVal_take x k hx, leVal_take y k hy, h]

theorem mod_eq_of_take_eq (x y : List Nat) (k : Nat)
    (hx : ∀ b ∈ x, b < 256) (hy : ∀ b ∈ y, b < 256)
    (h : x.take k = y.take k) : leVal x % 256 ^ k = leVal y % 256 ^ k := by
  rw [← leVal_take x k hx, ← leVal_take y k hy, h]

theorem sum_mod_window (m M a b t : Nat) (hmM : m ∣ M) (hb : b < M)
    (ha : a % m = ((t + (M - b)) % M) % m) : ((b + a + 0) % M) % m = t % m := by
  rw [Nat.mod_mod_of_dvd _ hmM] at ha ⊢
  have h1 : (b + a) % m = (b + (t + (M - b))) % m := by
    rw [Nat.add_mod, ha, ← Nat.add_mod]
  have h2 : b + (t + (M - b)) = t + M := by omega
  obtain ⟨q, rfl⟩ := hmM
  rw [Nat.add_zero, h1, h2, Nat.add_mul_mod_self_left]

theorem foundItem_id (target : List Nat) (a b : Elem) (currId : Nat) :
    (foundItem target a b currId).id = currId := by
  simp only [foundItem]

theorem foundItem_buf (target : List Nat) (a b : Elem) (currId : Nat) :
    (foundItem target a b currId).buf = ((b.negateAndAdd target).add a.buf 0).buf := by
  simp only [foundItem]

/-- The synthesized element of a match between `a` and the negation of `b`: its
id is `currId` and its digest is the 256-bit sum of the digests of `a` and `b`. -/
theorem foundItem_sum (target : List Nat) (a b : Elem) (currId : Nat)
    (ht : Bytes32 target) (ha : Bytes32 a.buf) (hb : Bytes32 b.buf) :
    (foundItem target a (b.negateAndAdd target) currId).id = currId ∧
    Bytes32 (foundItem target a (b.negateAndAdd target) currId).buf ∧
    leVal (foundItem target a (b.negateAndAdd target) currId).buf
      = (leVal b.buf + leVal a.buf + 0) % 2 ^ 256 := by
  have h1 := negateAndAdd_bytes32 b target hb ht
  have h2 := negateAndAdd_bytes32 _ target h1 ht
  have h3 := negateAndAdd_twice_buf b target hb ht
  refine ⟨foundItem_id _ _ _ _, ?_, ?_⟩
  · rw [foundItem_buf]
    exact add_bytes32 _ a.buf 0 h2.1 ha.1
  · rw [foundItem_buf]
    have := add_val ((b.negateAndAdd target).negateAndAdd target) a.buf 0 h2 ha (by omega)
    rw [h3] at this
    exact this

theorem mem_itemsOf (target : List Nat) : ∀ (c : Nat) (ms : List (Elem × Elem)) (o : Elem),
    o ∈ itemsOf target c ms → ∃ m ∈ ms, ∃ c1, o = foundItem target m.1 m.2 c1
  | _, [], o, h => by simp [itemsOf] at h
  | c, m :: ms, o, h => by
    simp only [itemsOf, List.mem_cons] at h
    rcases h with h | h
    · exact ⟨m, List.mem_cons_self _ _, c, h⟩
    · obtain ⟨m1, hm1, c1, hc1⟩ := mem_itemsOf target (c + 1) ms o h
      exact ⟨m1, List.mem_cons_of_mem _ hm1, c1, hc1⟩

theorem forall2_recordsOf (target : List Nat) (R : FoundElem → Elem → Prop) :
    ∀ (c : Nat) (ms : List (Elem × Elem)),
      (∀ m ∈ ms, ∀ c1, R ⟨c1, m.1.id, m.2.id⟩ (foundItem target m.1 m.2 c1)) →
      List.Forall₂ R (recordsOf c ms) (itemsOf target c ms)
  | _, [], _ => List.Forall₂.nil
  | c, m :: ms, h =>
    List.Forall₂.cons (h m (List.mem_cons_self _ _) c)
      (forall2_recordsOf target R (c + 1) ms (fun m1 hm1 => h m1 (List.mem_cons_of_mem _ hm1)))

theorem mem_recordsOf : ∀ (c : Nat) (ms : List (Elem × Elem)) (F : FoundElem),
    F ∈ recordsOf c ms → ∃ m ∈ ms, F.parentId1 = m.1.id ∧ F.parentId2 = m.2.id
  | _, [], F, h => by simp [recordsOf] at h
  | c, m :: ms, F, h => by
    simp only [recordsOf, List.mem_cons] at h
    rcases h with h | h
    · exact ⟨m, List.mem_cons_self _ _, by rw [h], by rw [h]⟩
    · obtain ⟨m1, hm1, h1⟩ := mem_recordsOf (c + 1) ms F h
      exact ⟨m1, List.mem_cons_of_mem _ hm1, h1⟩

/-- What a non-final `expand` appends: a list of pairs (element of the merged
`big`, inbox element) such that the former matches the negation of the latter,
with the `found` records and outbox elements written for them. -/
theorem expand_nonfinal (sort : List Elem → List Elem) (hs : IsStdSort sort)
    (s : Stage) (outbox : List Elem) (hfin : s.isFinalStage = false) :
    ∃ ms : List (Elem × Elem),
      (∀ m ∈ ms, m.1 ∈ (s.expand sort outbox).stage.big ∧
        (∃ b ∈ s.inbox, m.2 = b.negateAndAdd s.target) ∧
        isMatch s.stageNum m.1 m.2 = true) ∧
      (s.expand sort outbox).ids = [] ∧
      (s.expand sort outbox).stage.found = s.found ++ recordsOf s.currId ms ∧
      (s.expand sort outbox).outbox = outbox ++ itemsOf s.target s.currId ms ∧
      (s.expand sort outbox).stage.currId = s.currId + ms.length := by
  obtain ⟨h1, h2, h3, h4⟩ := expand_unfold sort s outbox
  obtain ⟨ms, hms, hw⟩ := walk_nonfinal s.target s.stageNum
    ((s.mergedBig sort).length + (s.sortedNegs sort).length)
    (s.mergedBig sort) (s.sortedNegs sort) ⟨s.found, outbox, s.currId⟩
  have hw1 : s.expandWalk sort outbox =
      (none, ⟨s.found ++ recordsOf s.currId ms, outbox ++ itemsOf s.target s.currId ms,
              s.currId + ms.length⟩) := by
    unfold Stage.expandWalk
    rw [hfin]
    exact hw
  rw [hw1] at h1 h2 h3 h4
  refine ⟨ms, ?_, h1, h2, h3, h4⟩
  intro m hm
  obtain ⟨ha, hb, hmatch⟩ := hms m hm
  exact ⟨by rw [expand_big]; exact ha, mem_sortedNegs sort hs s _ hb, hmatch⟩

theorem expand_big_bytes32 (sort : List Elem → List Elem) (hs : IsStdSort sort)
    (s : Stage) (outbox : List Elem) (hwf : s.WF) :
    ∀ a ∈ (s.expand sort outbox).stage.big, Bytes32 a.buf := by
  intro a ha
  rw [expand_big] at ha
  rcases mem_mergedBig sort hs s a ha with h | h
  · exact hwf.2.2 a h
  · exact hwf.2.1 a h

/-- What a final `expand` does: it writes nothing to `found`, the outbox or
`currId`, and the ids it returns, if any, are those of a pair (element of the
merged `big`, inbox element) such that the former matches the negation of the
latter. -/
theorem expand_final (sort : List Elem → List Elem) (hs : IsStdSort sort)
    (s : Stage) (outbox : List Elem) (hfin : s.isFinalStage = true) :
    (s.expand sort outbox).stage.found = s.found ∧
    (s.expand sort outbox).outbox = outbox ∧
    (s.expand sort outbox).stage.currId = s.currId ∧
    ((s.expand sort outbox).ids = [] ∨
      ∃ a ∈ (s.expand sort outbox).stage.big, ∃ b ∈ s.inbox,
        isMatch s.stageNum a (b.negateAndAdd s.target) = true ∧
        (s.expand sort outbox).ids = setInsert b.id (setInsert a.id [])) := by
  obtain ⟨h1, h2, h3, h4⟩ := expand_unfold sort s outbox
  obtain ⟨hst, hids⟩ := walk_final s.target s.stageNum
    ((s.mergedBig sort).length + (s.sortedNegs sort).length)
    (s.mergedBig sort) (s.sortedNegs sort) ⟨s.found, outbox, s.currId⟩
  have hw : s.expandWalk sort outbox = walk s.target s.stageNum true
      ((s.mergedBig sort).length + (s.sortedNegs sort).length)
      (s.mergedBig sort) (s.sortedNegs sort) ⟨s.found, outbox, s.currId⟩ := by
    unfold Stage.expandWalk
    rw [hfin]
  rw [← hw] at hst hids
  rw [hst] at h2 h3 h4
  refine ⟨h2, h3, h4, ?_⟩
  rcases hids with hn | ⟨a, ha, y, hy, hm, he⟩
  · left
    rw [h1, hn]
    rfl
  · right
    obtain ⟨b, hb, rfl⟩ := mem_sortedNegs sort hs s y hy
    refine ⟨a, by rw [expand_big]; exact ha, b, hb, hm, ?_⟩
    rw [h1, he, negateAndAdd_id]
    rfl

/-- A match at stage `S` between `a` and the negation of the inbox element `b`:
`a.buf` and the 32-byte representation of `(target - b.buf) mod 2^256` agree on
their first `4 * (S + 1)` bytes. -/
theorem isMatch_window (target : List Nat) (S : Nat) (a b : Elem)
    (ht : Bytes32 target) (ha : Bytes32 a.buf) (hb : Bytes32 b.buf)
    (hm : isMatch S a (b.negateAndAdd target) = true) :
    ∃ d : List Nat, Bytes32 d ∧
      (leVal d : Int) = ((leVal target : Int) - (leVal b.buf : Int)) % 2 ^ 256 ∧
      a.buf.take (4 * (S + 1)) = d.take (4 * (S + 1)) := by
  have hv := negateAndAdd_int_val b target hb ht
  have hd := negateAndAdd_bytes32 b target hb ht
  refine ⟨(b.negateAndAdd target).buf, hd, hv, ?_⟩
  rw [Nat.mul_comm 4 (S + 1)]
  exact startsWith_take _ _ _ (ha.1.trans hd.1.symm) hm

theorem range_succ_map (c n : Nat) :
    (List.range (n + 1)).map (fun j => c + j)
      = c :: (List.range n).map (fun j => c + 1 + j) := by
  rw [List.range_succ_eq_map, List.map_cons, List.map_map]
  refine congrArg₂ _ rfl (List.map_congr_left ?_)
  intro j _
  simp only [Function.comp_apply]
  omega

theorem itemsOf_ids (target : List Nat) : ∀ (c : Nat) (ms : List (Elem × Elem)),
    (itemsOf target c ms).map Elem.id = (List.range ms.length).map (fun j => c + j)
  | _, [] => rfl
  | c, m :: ms => by
    rw [List.length_cons, range_succ_map, ← itemsOf_ids target (c + 1) ms]
    simp only [itemsOf, List.map_cons, foundItem_id]

theorem itemsOf_length (target : List Nat) : ∀ (c : Nat) (ms : List (Elem × Elem)),
    (itemsOf target c ms).length = ms.length
  | _, [] => rfl
  | c, _ :: ms => by simp [itemsOf, itemsOf_length target (c + 1) ms]

/-- C4: for every record `F{localId, p1, p2}` that a non-final `expand` appends
to `found`, the same step appends to the outbox exactly one element with
`id = localId` (the one at the same position among the appended ones; the ids of
the appended elements are `currId, currId + 1, ...`, all different) and
`buf = (a.buf + b.buf) mod 2^256`, where `a` is an element of the merged `big`
with `a.id = p1` and `b` an element of the stage's inbox, before negation, with
`b.id = p2`. -/
theorem expand_found_outbox_sum (sort : List Elem → List Elem) (hs : IsStdSort sort)
    (s : Stage) (outbox : List Elem) (hwf : s.WF) (hfin : s.isFinalStage = false) :
    ∃ (fs : List FoundElem) (os : List Elem),
      (s.expand sort outbox).stage.found = s.found ++ fs ∧
      (s.expand sort outbox).outbox = outbox ++ os ∧
      os.map Elem.id = (List.range os.length).map (fun j => s.currId + j) ∧
      List.Forall₂ (fun F o => o.id = F.localId ∧
        ∃ a ∈ (s.expand sort outbox).stage.big, ∃ b ∈ s.inbox,
          a.id = F.parentId1 ∧ b.id = F.parentId2 ∧ Bytes32 o.buf ∧
          leVal o.buf = (leVal a.buf + leVal b.buf) % 2 ^ 256) fs os := by
  obtain ⟨ms, hms, _, hf, ho, _⟩ := expand_nonfinal sort hs s outbox hfin
  refine ⟨recordsOf s.currId ms, itemsOf s.target s.currId ms, hf, ho, ?_, ?_⟩
  · rw [itemsOf_ids, itemsOf_length]
  apply forall2_recordsOf
  intro m hm c1
  obtain ⟨ha, ⟨b, hb, hmb⟩, _⟩ := hms m hm
  have hwa := expand_big_bytes32 sort hs s outbox hwf m.1 ha
  obtain ⟨h1, h2, h3⟩ := foundItem_sum s.target m.1 b c1 hwf.1 hwa (hwf.2.1 b hb)
  rw [hmb]
  refine ⟨h1, m.1, ha, b, hb, rfl, by rw [negateAndAdd_id], h2, ?_⟩
  rw [h3, Nat.add_zero, Nat.add_comm]

theorem expand_found_outbox_sum_witness :
    sampleStage.WF ∧ sampleStage.isFinalStage = false ∧
    (∃ (fs : List FoundElem) (os : List Elem),
      (sampleStage.expand insertSort []).stage.found = sampleStage.found ++ fs ∧
      (sampleStage.expand insertSort []).outbox = [] ++ os ∧
      os.map Elem.id = (List.range os.length).map (fun j => sampleStage.currId + j) ∧
      List.Forall₂ (fun F o => o.id = F.localId ∧
        ∃ a ∈ (sampleStage.expand insertSort []).stage.big, ∃ b ∈ sampleStage.inbox,
          a.id = F.parentId1 ∧ b.id = F.parentId2 ∧ Bytes32 o.buf ∧
          leVal o.buf = (leVal a.buf + leVal b.buf) % 2 ^ 256) fs os) ∧
    (sampleStage.expand insertSort []).outbox
      = [⟨leBytes 32 (13 * 2 ^ 32), 1⟩, ⟨leBytes 32 (13 * 2 ^ 32), 2⟩] :=
  ⟨by decide, by decide,
    expand_found_outbox_sum insertSort insertSort_isStdSort sampleStage [] (by decide) (by decide),
    by decide⟩

/-- C5: for every match the matching loop of `expand` produces at a stage with
stageNum `S`, be it a record appended to `found` by a non-final stage or the id
set returned by a final stage, the matched element `a` of the merged `big` and
the matched inbox element `b` are such that the first `4 * (S + 1)` bytes of
`a.buf` equal the first `4 * (S + 1)` bytes of `(target - b.buf) mod 2^256`. -/
theorem expand_match_window (sort : List Elem → List Elem) (hs : IsStdSort sort)
    (s : Stage) (outbox : List Elem) (hwf : s.WF) :
    (s.isFinalStage = false →
      ∃ fs : List FoundElem, (s.expand sort outbox).stage.found = s.found ++ fs ∧
        ∀ F ∈ fs, ∃ a ∈ (s.expand sort outbox).stage.big, ∃ b ∈ s.inbox,
          a.id = F.parentId1 ∧ b.id = F.parentId2 ∧
          ∃ d : List Nat, Bytes32 d ∧
            (leVal d : Int) = ((leVal s.target : Int) - (leVal b.buf : Int)) % 2 ^ 256 ∧
            a.buf.take (4 * (s.stageNum + 1)) = d.take (4 * (s.stageNum + 1))) ∧
    (s.isFinalStage = true → (s.expand sort outbox).ids ≠ [] →
      ∃ a ∈ (s.expand sort outbox).stage.big, ∃ b ∈ s.inbox,
        (s.expand sort outbox).ids = setInsert b.id (setInsert a.id []) ∧
        ∃ d : List Nat, Bytes32 d ∧
          (leVal d : Int) = ((leVal s.target : Int) - (leVal b.buf : Int)) % 2 ^ 256 ∧
          a.buf.take (4 * (s.stageNum + 1)) = d.take (4 * (s.stageNum + 1))) := by
  constructor
  · intro hfin
    obtain ⟨ms, hms, _, hf, _, _⟩ := expand_nonfinal sort hs s outbox hfin
    refine ⟨recordsOf s.currId ms, hf, ?_⟩
    intro F hF
    obtain ⟨m, hm, hp1, hp2⟩ := mem_recordsOf _ _ F hF
    obtain ⟨ha, ⟨b, hb, hmb⟩, hmatch⟩ := hms m hm
    have hwa := expand_big_bytes32 sort hs s outbox hwf m.1 ha
    rw [hmb] at hmatch
    refine ⟨m.1, ha, b, hb, hp1.symm, ?_,
      isMatch_window s.target s.stageNum m.1 b hwf.1 hwa (hwf.2.1 b hb) hmatch⟩
    rw [hp2, hmb, negateAndAdd_id]
  · intro hfin hne
    obtain ⟨_, _, _, hids⟩ := expand_final sort hs s outbox hfin
    rcases hids with h | ⟨a, ha, b, hb, hmatch, he⟩
    · exact absurd h hne
    · have hwa := expand_big_bytes32 sort hs s outbox hwf a ha
      exact ⟨a, ha, b, hb, he,
        isMatch_window s.target s.stageNum a b hwf.1 hwa (hwf.2.1 b hb) hmatch⟩

theorem expand_match_window_witness :
    sampleStage.WF ∧
    ((sampleStage.isFinalStage = false →
      ∃ fs : List FoundElem,
        (sampleStage.expand insertSort []).stage.found = sampleStage.found ++ fs ∧
        ∀ F ∈ fs, ∃ a ∈ (sampleStage.expand insertSort []).stage.big, ∃ b ∈ sampleStage.inbox,
          a.id = F.parentId1 ∧ b.id = F.parentId2 ∧
          ∃ d : List Nat, Bytes32 d ∧
            (leVal d : Int)
              = ((leVal sampleStage.target : Int) - (leVal b.buf : Int)) % 2 ^ 256 ∧
            a.buf.take (4 * (sampleStage.stageNum + 1))
              = d.take (4 * (sampleStage.stageNum + 1))) ∧
    (sampleStage.isFinalStage = true → (sampleStage.expand insertSort []).ids ≠ [] →
      ∃ a ∈ (sampleStage.expand insertSort []).stage.big, ∃ b ∈ sampleStage.inbox,
        (sampleStage.expand insertSort []).ids = setInsert b.id (setInsert a.id []) ∧
        ∃ d : List Nat, Bytes32 d ∧
          (leVal d : Int)
            = ((leVal sampleStage.target : Int) - (leVal b.buf : Int)) % 2 ^ 256 ∧
          a.buf.take (4 * (sampleStage.stageNum + 1))
            = d.take (4 * (sampleStage.stageNum + 1)))) ∧
    (sampleStage.expand insertSort []).stage.found = [⟨1, 1, 2⟩, ⟨2, 2, 1⟩] ∧
    (sampleFinalStage.expand insertSort []).ids = [1, 2] ∧
    (∃ a ∈ (sampleFinalStage.expand insertSort []).stage.big, ∃ b ∈ sampleFinalStage.inbox,
      (sampleFinalStage.expand insertSort []).ids = setInsert b.id (setInsert a.id []) ∧
      ∃ d : List Nat, Bytes32 d ∧
        (leVal d : Int)
          = ((leVal sampleFinalStage.target : Int) - (leVal b.buf : Int)) % 2 ^ 256 ∧
        a.buf.take (4 * (sampleFinalStage.stageNum + 1))
          = d.take (4 * (sampleFinalStage.stageNum + 1))) :=
  ⟨by decide, expand_match_window insertSort insertSort_isStdSort sampleStage [] (by decide),
    by decide, by decide,
    (expand_match_window insertSort insertSort_isStdSort sampleFinalStage [] (by decide)).2
      (by decide) (by decide)⟩

/-- C3: for a stage with stageNum `S` at most 7, any target and any contents of
`big` and of the inbox, every synthesized element that a non-final `expand`
appends to the outbox has its first `4 * (S + 1)` bytes equal to the first
`4 * (S + 1)` bytes of the target. -/
theorem expand_outbox_target_window (sort : List Elem → List Elem) (hs : IsStdSort sort)
    (s : Stage) (outbox : List Elem) (hwf : s.WF) (hfin : s.isFinalStage = false)
    (hS : s.stageNum ≤ 7) :
    ∃ os : List Elem, (s.expand sort outbox).outbox = outbox ++ os ∧
      ∀ o ∈ os, o.buf.take (4 * (s.stageNum + 1)) = s.target.take (4 * (s.stageNum + 1)) := by
  obtain ⟨ms, hms, _, _, ho, _⟩ := expand_nonfinal sort hs s outbox hfin
  refine ⟨itemsOf s.target s.currId ms, ho, ?_⟩
  intro o hmem
  obtain ⟨m, hm, c1, rfl⟩ := mem_itemsOf _ _ _ _ hmem
  obtain ⟨ha, ⟨b, hb, hmb⟩, hmatch⟩ := hms m hm
  have hwa := expand_big_bytes32 sort hs s outbox hwf m.1 ha
  have hwb := hwf.2.1 b hb
  have hwn := negateAndAdd_bytes32 b s.target hwb hwf.1
  rw [hmb] at hmatch ⊢
  obtain ⟨_, h2, h3⟩ := foundItem_sum s.target m.1 b c1 hwf.1 hwa hwb
  have htake := startsWith_take _ _ _ (hwa.1.trans hwn.1.symm) hmatch
  rw [Nat.mul_comm (s.stageNum + 1) 4] at htake
  have hmod := mod_eq_of_take_eq _ _ _ hwa.2 hwn.2 htake
  rw [negateAndAdd_val b s.target hwb hwf.1] at hmod
  have hlt := leVal_lt b.buf hwb.2
  rw [hwb.1, pow_256_32] at hlt
  have hdvd : 256 ^ (4 * (s.stageNum + 1)) ∣ 2 ^ 256 := by
    rw [← pow_256_32]
    exact pow_dvd_pow 256 (by omega)
  apply take_eq_of_mod_eq _ _ _ (h2.1.trans hwf.1.1.symm) h2.2 hwf.1.2
  rw [h3]
  exact sum_mod_window _ _ _ _ _ hdvd hlt hmod

theorem expand_outbox_target_window_witness :
    sampleStage.WF ∧ sampleStage.isFinalStage = false ∧ sampleStage.stageNum ≤ 7 ∧
    (∃ os : List Elem, (sampleStage.expand insertSort []).outbox = [] ++ os ∧
      ∀ o ∈ os, o.buf.take (4 * (sampleStage.stageNum + 1))
        = sampleStage.target.take (4 * (sampleStage.stageNum + 1))) ∧
    (sampleStage.expand insertSort []).outbox.length = 2 :=
  ⟨by decide, by decide, by decide,
    expand_outbox_target_window insertSort insertSort_isStdSort sampleStage []
      (by decide) (by decide) (by decide), by decide⟩

/-! ## Properties of `recoverSeeds` -/

theorem sorted_getElem_le : ∀ (L : List FoundElem), FoundSorted L →
    ∀ (i j : Nat) (a b : FoundElem), i ≤ j → L[i]? = some a → L[j]? = some b →
      a.localId ≤ b.localId
  | [], _, i, j, a, b, _, ha, _ => by simp at ha
  | r :: rs, h, 0, 0, a, b, _, ha, hb => by
    simp only [List.getElem?_cons_zero, Option.some.injEq] at ha hb
    rw [← ha, ← hb]
  | r :: rs, h, 0, j + 1, a, b, _, ha, hb => by
    simp only [List.getElem?_cons_zero, Option.some.injEq, List.getElem?_cons_succ] at ha hb
    rw [← ha]
    exact (List.pairwise_cons.mp h).1 b (List.getElem?_mem hb)
  | r :: rs, h, i + 1, 0, a, b, hij, _, _ => by omega
  | r :: rs, h, i + 1, j + 1, a, b, hij, ha, hb => by
    simp only [List.getElem?_cons_succ] at ha hb
    exact sorted_getElem_le rs (List.pairwise_cons.mp h).2 i j a b (by omega) ha hb

/-- The binary search returns the partition point of a sorted `found`: every
record before it has a smaller `localId`, no record from it on has. -/
theorem lowerBoundLoop_spec (L : List FoundElem) (hL : FoundSorted L) (v : Nat) :
    ∀ (fuel first len : Nat), len ≤ fuel → first + len ≤ L.length →
      (∀ i < first, ∀ r, L[i]? = some r → r.localId < v) →
      (∀ i, first + len ≤ i → ∀ r, L[i]? = some r → v ≤ r.localId) →
      (∀ i < lowerBoundLoop L v fuel first len, ∀ r, L[i]? = some r → r.localId < v) ∧
      (∀ i, lowerBoundLoop L v fuel first len ≤ i → ∀ r, L[i]? = some r → v ≤ r.localId) := by
  intro fuel
  induction fuel with
  | zero =>
    intro first len hlen _ hlo hhi
    have : len = 0 := by omega
    subst this
    exact ⟨by simpa [lowerBoundLoop] using hlo, by simpa [lowerBoundLoop] using hhi⟩
  | succ n ih =>
    intro first len hlen hbound hlo hhi
    by_cases h0 : len = 0
    · subst h0
      exact ⟨by simpa [lowerBoundLoop] using hlo, by simpa [lowerBoundLoop] using hhi⟩
    · have hhalf : len >>> 1 = len / 2 := by rw [Nat.shiftRight_eq_div_pow]
      have hmid : first + len / 2 < L.length := by omega
      obtain ⟨a, ha⟩ : ∃ a, L[first + len / 2]? = some a :=
        ⟨L[first + len / 2], List.getElem?_eq_getElem hmid⟩
      by_cases hav : a.localId < v
      · have hstep : lowerBoundLoop L v (n + 1) first len
            = lowerBoundLoop L v n (first + len / 2 + 1) (len - len / 2 - 1) := by
          simp [lowerBoundLoop, h0, hhalf, ha, hav]
        rw [hstep]
        apply ih _ _ (by omega) (by omega)
        · intro i hi r hr
          exact lt_of_le_of_lt (sorted_getElem_le L hL i _ r a (by omega) hr ha) hav
        · intro i hi r hr
          exact hhi i (by omega) r hr
      · have hstep : lowerBoundLoop L v (n + 1) first len
            = lowerBoundLoop L v n first (len / 2) := by
          simp [lowerBoundLoop, h0, hhalf, ha, hav]
        rw [hstep]
        apply ih _ _ (by omega) (by omega) hlo
        intro i hi r hr
        exact le_trans (by omega) (sorted_getElem_le L hL _ i a r hi ha hr)

theorem lookupFound_none_of_lt : ∀ (L : List FoundElem) (v : Nat),
    (∀ r ∈ L, v < r.localId) → lookupFound L v = none
  | [], _, _ => rfl
  | r :: rs, v, h => by
    have h1 : r.localId ≠ v := by have := h r (List.mem_cons_self _ _); omega
    simp only [lookupFound, h1, if_false]
    exact lookupFound_none_of_lt rs v (fun x hx => h x (List.mem_cons_of_mem _ hx))

theorem lookup_at_partition : ∀ (L : List FoundElem), FoundSorted L → ∀ (v p : Nat),
    (∀ i < p, ∀ r, L[i]? = some r → r.localId < v) →
    (∀ i, p ≤ i → ∀ r, L[i]? = some r → v ≤ r.localId) →
    (match L[p]? with
      | none => none
      | some r => if r.localId ≠ v then none else some r) = lookupFound L v
  | [], _, v, p, _, _ => by simp [lookupFound]
  | r :: rs, h, v, 0, _, hhi => by
    have hr : v ≤ r.localId := hhi 0 (le_refl 0) r (by simp)
    by_cases he : r.localId = v
    · simp [lookupFound, he]
    · simp only [List.getElem?_cons_zero, lookupFound, he, ne_eq, not_false_eq_true, if_true,
        if_false]
      symm
      apply lookupFound_none_of_lt
      intro x hx
      have := (List.pairwise_cons.mp h).1 x hx
      omega
  | r :: rs, h, v, p + 1, hlo, hhi => by
    have hr : r.localId < v := hlo 0 (by omega) r (by simp)
    have he : r.localId ≠ v := by omega
    simp only [List.getElem?_cons_succ, lookupFound, he, if_false]
    apply lookup_at_partition rs (List.pairwise_cons.mp h).2 v p
    · intro i hi x hx
      exact hlo (i + 1) (by omega) x (by simpa using hx)
    · intro i hi x hx
      exact hhi (i + 1) (by omega) x (by simpa using hx)

/-- On a sorted `found`, the test of `recoverSeeds` after `std::lower_bound`
finds exactly the record with the given `localId`. -/
theorem lowerBound_lookup (L : List FoundElem) (hL : FoundSorted L) (v : Nat) :
    (match L[lowerBound L v]? with
      | none => none
      | some r => if r.localId ≠ v then none else some r) = lookupFound L v := by
  obtain ⟨h1, h2⟩ := lowerBoundLoop_spec L hL v L.length 0 L.length (le_refl _) (by omega)
    (by intro i hi; omega)
    (by
      intro i hi r hr
      have := List.getElem?_eq_none (l := L) (n := i) (by omega)
      rw [this] at hr
      exact Option.noConfusion hr)
  exact lookup_at_partition L hL v _ h1 h2

theorem lookupFound_none : ∀ (L : List FoundElem) (v : Nat),
    lookupFound L v = none ↔ ∀ r ∈ L, r.localId ≠ v
  | [], _ => by simp [lookupFound]
  | r :: rs, v => by
    by_cases he : r.localId = v
    · simp [lookupFound, he]
    · simp [lookupFound, he, lookupFound_none rs v]

theorem lookupFound_some : ∀ (L : List FoundElem) (v : Nat) (r : FoundElem),
    lookupFound L v = some r → r ∈ L ∧ r.localId = v
  | [], _, _, h => by simp [lookupFound] at h
  | x :: rs, v, r, h => by
    by_cases he : x.localId = v
    · simp only [lookupFound, he, if_true, Option.some.injEq] at h
      subst h
      exact ⟨List.mem_cons_self _ _, he⟩
    · simp only [lookupFound, he, if_false] at h
      obtain ⟨h1, h2⟩ := lookupFound_some rs v r h
      exact ⟨List.mem_cons_of_mem _ h1, h2⟩

theorem mem_setInsert (x a : Nat) : ∀ (l : List Nat), x ∈ setInsert a l ↔ x = a ∨ x ∈ l
  | [] => by simp [setInsert]
  | y :: ys => by
    simp only [setInsert]
    split
    · simp
    · split
      · rename_i h
        subst h
        simp
      · simp only [List.mem_cons, mem_setInsert x a ys]
        tauto

theorem or_shuffle (A B C Q : Prop) : ((B ∨ A ∨ C) ∨ Q) ↔ (C ∨ (A ∨ B) ∨ Q) := by
  tauto

theorem mem_parentsInto (found : List FoundElem) : ∀ (ids acc : List Nat) (x : Nat),
    x ∈ parentsInto found ids acc ↔
      x ∈ acc ∨ ∃ id ∈ ids, ∃ r, lookupFound found id = some r ∧
        (x = r.parentId1 ∨ x = r.parentId2)
  | [], acc, x => by simp [parentsInto]
  | id :: rest, acc, x => by
    cases h : lookupFound found id with
    | none =>
      simp only [parentsInto, h, mem_parentsInto found rest acc x, List.mem_cons,
        exists_eq_or_imp]
      simp
    | some r =>
      simp only [parentsInto, h, mem_parentsInto found rest _ x, List.mem_cons,
        exists_eq_or_imp, mem_setInsert, Option.some.injEq, exists_eq_left']
      exact or_shuffle _ _ _ _

/-- One level of the descent on a sorted `found`: it throws for an id without
record when there is one, and otherwise yields the union of the parents. -/
theorem recoverLevel_spec (found : List FoundElem) (hL : FoundSorted found) (stage : Nat) :
    ∀ (ids acc : List Nat),
      (MissingAncestor found ids →
        ∃ id ∈ ids, (∀ r ∈ found, r.localId ≠ id) ∧
          recoverLevel found stage ids acc = .unknownAncestor ⟨id, stage⟩) ∧
      (¬ MissingAncestor found ids →
        recoverLevel found stage ids acc = .seeds (parentsInto found ids acc))
  | [], acc => by
    constructor
    · rintro ⟨id, hid, _⟩
      simp at hid
    · intro _
      rfl
  | id :: rest, acc => by
    have key := lowerBound_lookup found hL id
    cases hlook : lookupFound found id with
    | none =>
      have hmiss : ∀ r ∈ found, r.localId ≠ id := (lookupFound_none found id).mp hlook
      have herr : recoverLevel found stage (id :: rest) acc = .unknownAncestor ⟨id, stage⟩ := by
        rw [hlook] at key
        simp only [recoverLevel]
        cases hget : found[lowerBound found id]? with
        | none => rfl
        | some lower =>
          rw [hget] at key
          by_cases hne : lower.localId ≠ id
          · simp [hne]
          · simp [hne] at key
      constructor
      · intro _
        exact ⟨id, List.mem_cons_self _ _, hmiss, herr⟩
      · intro hno
        exact absurd ⟨id, List.mem_cons_self _ _, hmiss⟩ hno
    | some r =>
      obtain ⟨hr1, hr2⟩ := lookupFound_some found id r hlook
      have hstep : recoverLevel found stage (id :: rest) acc
          = recoverLevel found stage rest
              (setInsert r.parentId2 (setInsert r.parentId1 acc)) := by
        rw [hlook] at key
        simp only [recoverLevel]
        cases hget : found[lowerBound found id]? with
        | none => rw [hget] at key; simp at key
        | some lower =>
          rw [hget] at key
          by_cases hne : lower.localId ≠ id
          · simp [hne] at key
          · simp only [hne, if_false, Option.some.injEq] at key
            subst key
            simp [hne]
      obtain ⟨ih1, ih2⟩ := recoverLevel_spec found hL stage rest
        (setInsert r.parentId2 (setInsert r.parentId1 acc))
      have hiff : MissingAncestor found (id :: rest) ↔ MissingAncestor found rest := by
        constructor
        · rintro ⟨x, hx, hxm⟩
          rcases List.mem_cons.mp hx with hx | hx
          · subst hx
            exact absurd hr2 (hxm r hr1)
          · exact ⟨x, hx, hxm⟩
        · rintro ⟨x, hx, hxm⟩
          exact ⟨x, List.mem_cons_of_mem _ hx, hxm⟩
      constructor
      · intro hm
        obtain ⟨x, hx, hxm, he⟩ := ih1 (hiff.mp hm)
        exact ⟨x, List.mem_cons_of_mem _ hx, hxm, by rw [hstep, he]⟩
      · intro hno
        rw [hstep, ih2 (fun h => hno (hiff.mpr h))]
        simp only [parentsInto, hlook]

/-- The descent over `n` levels on sorted `found` vectors: an error names a
level and an id of that level's current set without record; an id without
record at some level forces an error; a returned set is the fully descended one. -/
theorem recoverFrom_spec (g : Generator) : ∀ (n : Nat) (ids : List Nat),
    (∀ j < n, FoundSorted (g.stage j).found) →
    (∀ e, g.recoverFrom n ids = .unknownAncestor e →
      e.stage < n ∧ e.id ∈ descend g n (n - 1 - e.stage) ids ∧
        ∀ r ∈ (g.stage e.stage).found, r.localId ≠ e.id) ∧
    ((∃ j < n, MissingAncestor (g.stage j).found (descend g n (n - 1 - j) ids)) →
      ∃ e, g.recoverFrom n ids = .unknownAncestor e) ∧
    (∀ out, g.recoverFrom n ids = .seeds out → out = descend g n n ids)
  | 0, ids, _ => by
    refine ⟨?_, ?_, ?_⟩
    · intro e he
      simp [Generator.recoverFrom] at he
    · rintro ⟨j, hj, _⟩
      omega
    · intro out hout
      simp only [Generator.recoverFrom, Recovered.seeds.injEq] at hout
      simp [descend, hout]
  | n + 1, ids, hs => by
    have hsn : FoundSorted (g.stage n).found := hs n (by omega)
    obtain ⟨hmiss, hok⟩ := recoverLevel_spec (g.stage n).found hsn n ids []
    by_cases hm : MissingAncestor (g.stage n).found ids
    · obtain ⟨id, hid, hnone, herr⟩ := hmiss hm
      have hrec : g.recoverFrom (n + 1) ids = .unknownAncestor ⟨id, n⟩ := by
        simp only [Generator.recoverFrom, herr]
      refine ⟨?_, fun _ => ⟨_, hrec⟩, ?_⟩
      · intro e he
        rw [hrec] at he
        simp only [Recovered.unknownAncestor.injEq] at he
        subst he
        refine ⟨by simp, ?_, hnone⟩
        simpa [descend] using hid
      · intro out hout
        rw [hrec] at hout
        exact Recovered.noConfusion hout
    · have hlev := hok hm
      have hrec : g.recoverFrom (n + 1) ids
          = g.recoverFrom n (parentSet (g.stage n).found ids) := by
        simp only [Generator.recoverFrom, hlev, parentSet]
      obtain ⟨ih1, ih2, ih3⟩ := recoverFrom_spec g n (parentSet (g.stage n).found ids)
        (fun j hj => hs j (by omega))
      refine ⟨?_, ?_, ?_⟩
      · intro e he
        rw [hrec] at he
        obtain ⟨h1, h2, h3⟩ := ih1 e he
        refine ⟨by omega, ?_, h3⟩
        have hk : n + 1 - 1 - e.stage = (n - 1 - e.stage) + 1 := by omega
        rw [hk]
        exact h2
      · rintro ⟨j, hj, hmj⟩
        rw [hrec]
        by_cases hjn : j = n
        · subst hjn
          simp only [Nat.add_sub_cancel, Nat.sub_self, descend] at hmj
          exact absurd hmj hm
        · apply ih2
          refine ⟨j, by omega, ?_⟩
          have hk : n + 1 - 1 - j = (n - 1 - j) + 1 := by omega
          rw [hk] at hmj
          exact hmj
      · intro out hout
        rw [hrec] at hout
        exact ih3 out hout

/-- C9: `recoverSeeds(ids, i)` over stages whose `found` vectors are sorted by
`localId`. With `i = -1` the input set is returned unchanged. For `i >= 0` the
levels `i` down to 0 are descended, every id of the current set being looked up
in `stages[j].found`: the call fails if and only if at some level some id of the
current set has no record with that `localId`, the error then names such an id
and its stage; otherwise the returned set is the result of replacing, level by
level, the current set by the union of `{parentId1, parentId2}` of the records
looked up (`parentSet`, whose members are exactly those parents). -/
theorem recoverSeeds_spec (g : Generator) (ids : List Nat) (i : Nat)
    (hs : ∀ j ≤ i, FoundSorted (g.stage j).found) :
    g.recoverSeeds ids (-1) = .seeds ids ∧
    ((∃ e, g.recoverSeeds ids i = .unknownAncestor e) ↔
      ∃ j ≤ i, MissingAncestor (g.stage j).found (descend g (i + 1) (i - j) ids)) ∧
    (∀ e, g.recoverSeeds ids i = .unknownAncestor e →
      e.stage ≤ i ∧ e.id ∈ descend g (i + 1) (i - e.stage) ids ∧
        ∀ r ∈ (g.stage e.stage).found, r.localId ≠ e.id) ∧
    (∀ out, g.recoverSeeds ids i = .seeds out → out = descend g (i + 1) (i + 1) ids) ∧
    (∀ (found : List FoundElem) (cur : List Nat) (x : Nat),
      x ∈ parentSet found cur ↔
        ∃ id ∈ cur, ∃ r ∈ found, r.localId = id ∧ lookupFound found id = some r ∧
          (x = r.parentId1 ∨ x = r.parentId2)) := by
  have hcast : g.recoverSeeds ids (i : Int) = g.recoverFrom (i + 1) ids := by
    unfold Generator.recoverSeeds
    congr 1
  obtain ⟨h1, h2, h3⟩ := recoverFrom_spec g (i + 1) ids (fun j hj => hs j (by omega))
  simp only [Nat.add_sub_cancel] at h1 h2
  refine ⟨rfl, ⟨?_, ?_⟩, ?_, ?_, ?_⟩
  · rintro ⟨e, he⟩
    rw [hcast] at he
    obtain ⟨ha, hb, hc⟩ := h1 e he
    exact ⟨e.stage, by omega, e.id, hb, hc⟩
  · rintro ⟨j, hj, hm⟩
    rw [hcast]
    exact h2 ⟨j, by omega, hm⟩
  · intro e he
    rw [hcast] at he
    obtain ⟨ha, hb, hc⟩ := h1 e he
    exact ⟨by omega, hb, hc⟩
  · intro out hout
    rw [hcast] at hout
    exact h3 out hout
  · intro found cur x
    unfold parentSet
    rw [mem_parentsInto]
    constructor
    · rintro (h | ⟨id, hid, r, hr, hx⟩)
      · simp at h
      · obtain ⟨hr1, hr2⟩ := lookupFound_some found id r hr
        exact ⟨id, hid, r, hr1, hr2, hr, hx⟩
    · rintro ⟨id, hid, r, _, _, hr, hx⟩
      exact Or.inr ⟨id, hid, r, hr, hx⟩

theorem recoverSeeds_spec_witness :
    (∀ j ≤ 1, FoundSorted (sampleGen.stage j).found) ∧
    sampleGen.recoverSeeds [1, 2] (1 : Nat) = .seeds [10, 11, 12, 13, 14] ∧
    [10, 11, 12, 13, 14] = descend sampleGen 2 2 [1, 2] ∧
    ((∃ e, sampleGen.recoverSeeds [1, 3] (1 : Nat) = .unknownAncestor e) ↔
      ∃ j ≤ 1, MissingAncestor (sampleGen.stage j).found (descend sampleGen 2 (1 - j) [1, 3])) :=
  ⟨by decide, by decide,
    (recoverSeeds_spec sampleGen [1, 2] 1 (by decide)).2.2.2.1 _ (by decide),
    (recoverSeeds_spec sampleGen [1, 3] 1 (by decide)).2.1⟩

/-! ## The self-match of a final stage -/

/-- C10, at the input where it fails: the final stage 0 built by
`run(1, selfTarget)` from the single fresh hash of seed 1 returns the one-element
set `{1}`: the element of `big` and the element of the inbox that are matched are
the same element, whose digest `h` satisfies `2 * h = target` on the four low
bytes. Nothing is appended to `found` or to the outbox. -/
theorem expand_final_self_match :
    selfStage.isFinalStage = true ∧ selfStage.WF ∧
    (selfStage.expand insertSort []).ids = [1] ∧
    (selfStage.expand insertSort []).stage.big = [⟨sha1Le, 1⟩] ∧
    selfStage.inbox = [⟨sha1Le, 1⟩] ∧
    isMatch 0 ⟨sha1Le, 1⟩ (Elem.negateAndAdd ⟨sha1Le, 1⟩ selfTarget) = true ∧
    (selfStage.expand insertSort []).stage.found = [] ∧
    (selfStage.expand insertSort []).outbox = [] := by
  decide

/-- C1, at the input where it fails: with a hash that maps seed 1 to the reversed
SHA-256 digest of "1", batch size 1 and the one-stage target `selfTarget`,
`run(1, selfTarget)` returns the seed set `{1}` in its first iteration. The
finally matched pair is the element of seed 1 with itself; the sum of its two
digests agrees with the target on the first 4 bytes, but the sum of `H(seed)` over
the returned set is the digest of seed 1 alone, which differs from that sum and
from the target on the first 4 bytes; the driver ends with that accumulator. -/
theorem run_self_match :
    (Generator.run sampleHash insertSort 1 (Generator.new 1 4000000000) 1 selfTarget).1
      = some (.seeds [1]) ∧
    (Elem.add ⟨sampleHash 1, 1⟩ (sampleHash 1) 0).buf.take 4 = selfTarget.take 4 ∧
    (accumulate sampleHash Elem.setToZero [1]).buf = sampleHash 1 ∧
    (sampleHash 1).take 4 ≠ selfTarget.take 4 ∧
    sampleHash 1 ≠ (Elem.add ⟨sampleHash 1, 1⟩ (sampleHash 1) 0).buf ∧
    (driver sampleHash insertSort 1 selfTarget 1 1 4000000000).map (fun st => st.accum.buf)
      = some sha1Le := by
  decide

/-! ## Properties of the driver -/

theorem leVal_append : ∀ (xs ys : List Nat),
    leVal (xs ++ ys) = leVal xs + 256 ^ xs.length * leVal ys
  | [], ys => by simp [leVal]
  | x :: xs, ys => by
    have ih := leVal_append xs ys
    show leVal (x :: (xs ++ ys)) = _
    simp only [leVal, ih, List.length_cons, pow_succ]
    ring

theorem leVal_replicate_zero : ∀ (n : Nat), leVal (List.replicate n 0) = 0
  | 0 => rfl
  | n + 1 => by simp [List.replicate_succ, leVal, leVal_replicate_zero n]

theorem leVal_drop (l : List Nat) (k : Nat) (hl : ∀ x ∈ l, x < 256) :
    leVal (l.drop k) = leVal l / 256 ^ k := by
  have h := leVal_append (l.take k) (l.drop k)
  rw [List.take_append_drop] at h
  have ht := leVal_take l k hl
  by_cases hk : k ≤ l.length
  · rw [List.length_take, Nat.min_eq_left hk] at h
    have hlt : leVal (l.take k) < 256 ^ k := by
      rw [ht]
      exact Nat.mod_lt _ (by positivity)
    rw [h, Nat.add_mul_div_left _ _ (by positivity : 0 < 256 ^ k), Nat.div_eq_of_lt hlt,
      Nat.zero_add]
  · have hlen : l.length ≤ k := by omega
    rw [List.drop_eq_nil_of_le hlen]
    have h1 := leVal_lt l hl
    have h2 : 256 ^ l.length ≤ 256 ^ k := Nat.pow_le_pow_right (by norm_num) hlen
    rw [Nat.div_eq_of_lt (by omega)]
    rfl

/-- The four bytes at offset `off`, as a number. -/
theorem leVal_window (l : List Nat) (off : Nat) (hl : ∀ x ∈ l, x < 256) :
    leVal ((l.drop off).take 4) = leVal l / 256 ^ off % 256 ^ 4 := by
  rw [leVal_take _ 4 (fun x hx => hl x (List.mem_of_mem_drop hx)), leVal_drop l off hl]

theorem bytes32_zero : Bytes32 Elem.setToZero.buf := by decide

theorem accumulate_val (H : Nat → List Nat) (hH : ∀ seed, Bytes32 (H seed))
    (seeds : List Nat) : ∀ (acc : Elem), Bytes32 acc.buf →
      Bytes32 (accumulate H acc seeds).buf ∧
      leVal (accumulate H acc seeds).buf = (leVal acc.buf + sumHash H seeds) % 2 ^ 256 := by
  induction seeds with
  | nil =>
    intro acc h
    have hlt := leVal_lt acc.buf h.2
    rw [h.1, pow_256_32] at hlt
    simp only [accumulate, sumHash, List.foldl, List.map, List.sum_nil, Nat.add_zero]
    exact ⟨h, (Nat.mod_eq_of_lt hlt).symm⟩
  | cons seed rest ih =>
    intro acc h
    have h1 := add_bytes32 acc (H seed) 0 h.1 (hH seed).1
    have h2 := add_val acc (H seed) 0 h (hH seed) (by omega)
    obtain ⟨ih1, ih2⟩ := ih (acc.add (H seed) 0) h1
    have hstep : accumulate H acc (seed :: rest) = accumulate H (acc.add (H seed) 0) rest := by
      simp only [accumulate, List.foldl]
    rw [hstep]
    refine ⟨ih1, ?_⟩
    rw [ih2, h2]
    simp only [sumHash, List.map_cons, List.sum_cons, Nat.add_zero]
    generalize (2 : Nat) ^ 256 = M
    rw [Nat.add_mod, Nat.mod_mod, ← Nat.add_mod, Nat.add_assoc]

theorem memcpy_zero_tail (src : List Nat) (off : Nat) (hs : src.length = 32) (ho : off ≤ 32) :
    memcpy Elem.setToZero.buf off src off (32 - off) = List.replicate off 0 ++ src.drop off := by
  have hz : Elem.setToZero.buf = List.replicate 32 0 := rfl
  simp only [memcpy, hz, List.take_replicate, List.drop_replicate]
  have h1 : min off 32 = off := Nat.min_eq_left ho
  have h2 : 32 - (off + (32 - off)) = 0 := by omega
  have h3 : (src.drop off).take (32 - off) = src.drop off :=
    List.take_of_length_le (by simp [hs])
  rw [h1, h2, h3]
  simp

theorem memcpy_zero_head (src : List Nat) (off : Nat) :
    memcpy Elem.setToZero.buf 0 src off 4 = (src.drop off).take 4 ++ List.replicate 28 0 := by
  have hz : Elem.setToZero.buf = List.replicate 32 0 := rfl
  simp only [memcpy, hz, List.take_replicate, List.drop_replicate]
  simp

theorem window_pad_bytes32 (l : List Nat) (off : Nat) (hl : Bytes32 l) (ho : off + 4 ≤ 32) :
    Bytes32 ((l.drop off).take 4 ++ List.replicate 28 0) := by
  refine ⟨by simp [hl.1]; omega, ?_⟩
  intro b hb
  rcases List.mem_append.mp hb with h | h
  · exact hl.2 b (List.mem_of_mem_drop (List.mem_of_mem_take h))
  · rw [(List.mem_replicate.mp h).2]
    omega

/-- The bytes of the rebuilt `currTarget`: zeros below the window, the four low
bytes of the negated-and-added element in the window, the target above. -/
theorem nextTarget_buf (target : List Nat) (accum : Elem) (off : Nat)
    (ht : Bytes32 target) (ha : Bytes32 accum.buf) (ho : off + 4 ≤ 32) :
    (nextTarget target accum off).buf =
      List.replicate off 0 ++ ((residual target accum off).buf.take 4) ++
        target.drop (off + 4) := by
  have hz : Elem.setToZero.buf = List.replicate 32 0 := rfl
  have hid : Elem.setToZero.id = 0 := rfl
  have hnb : (residual target accum off).buf.length = 32 :=
    (negateAndAdd_bytes32 _ _ (window_pad_bytes32 accum.buf off ha ho)
      (window_pad_bytes32 target off ht ho)).1
  simp only [nextTarget, memcpy_zero_head accum.buf off, memcpy_zero_head target off, hid]
  change (memcpy (memcpy Elem.setToZero.buf off (residual target accum off).buf 0 4) (off + 4)
    target (off + 4) (32 - (off + 4))) = _
  generalize (residual target accum off).buf = nb at hnb ⊢
  simp only [memcpy, hz, List.take_replicate, List.drop_replicate, List.drop_zero]
  have h1 : min off 32 = off := Nat.min_eq_left (by omega)
  have h2 : (List.replicate off 0 ++ List.take 4 nb).length = off + 4 := by
    simp [hnb]
  have h3 : (target.drop (off + 4)).take (32 - (off + 4)) = target.drop (off + 4) :=
    List.take_of_length_le (by simp [ht.1])
  have h4 : List.drop (off + 4 + (32 - (off + 4)))
      (List.replicate off 0 ++ List.take 4 nb ++ List.replicate (32 - (off + 4)) 0) = [] := by
    apply List.drop_eq_nil_of_le
    simp [hnb]
    omega
  rw [h1, List.take_left' h2, h3, h4, List.append_nil]

theorem sum_agrees_window (M W a s ct t : Nat) (hWM : W ∣ M)
    (hs : s % M % W = ct % W) (hi : (a + ct) % W = t % W) :
    (a + s) % M % W = t % W := by
  rw [Nat.mod_mod_of_dvd _ hWM] at hs ⊢
  rw [Nat.add_mod, hs, ← Nat.add_mod, hi]

theorem sum_keeps_window (M W1 W a s ct : Nat) (hW : W ∣ W1) (hWM : W1 ∣ M)
    (hs : s % M % W1 = ct % W1) (hz : ct % W = 0) :
    (a + s) % M % W = a % W := by
  have h1 : s % W = 0 := by
    rw [Nat.mod_mod_of_dvd _ hWM] at hs
    rw [← Nat.mod_mod_of_dvd s hW, hs, Nat.mod_mod_of_dvd _ hW, hz]
  rw [Nat.mod_mod_of_dvd _ (Nat.dvd_trans hW hWM), Nat.add_mod, h1, Nat.add_zero, Nat.mod_mod]

theorem window_residual (a1 a2 B M : Nat) (ha1 : a1 < B) (ha2 : a2 < B) (hBM : B ∣ M)
    (hM : 0 < M) : (a1 + (a2 + (M - a1)) % M % B) % B = a2 := by
  have hBle : B ≤ M := Nat.le_of_dvd hM hBM
  rw [Nat.mod_mod_of_dvd _ hBM, Nat.add_mod, Nat.mod_mod, ← Nat.add_mod]
  have h : a1 + (a2 + (M - a1)) = a2 + M := by omega
  rw [h]
  obtain ⟨m, rfl⟩ := hBM
  rw [Nat.add_mul_mod_self_left, Nat.mod_eq_of_lt ha2]

/-- The arithmetic of the re-targeting: adding the rebuilt target to the
accumulator reproduces the target up to the end of the new window. -/
theorem retarget_window (X T W B M D : Nat) (hW : 0 < W) (hB : 0 < B) (hM : 0 < M)
    (hBM : B ∣ M) (hXT : X % W = T % W) :
    (X + (W * ((T / W % B + (M - X / W % B)) % M % B) + W * B * D)) % (W * B)
      = T % (W * B) := by
  have ha1 : X / W % B < B := Nat.mod_lt _ hB
  have ha2 : T / W % B < B := Nat.mod_lt _ hB
  have hX : X = (X % W + W * (X / W % B)) + W * B * (X / (W * B)) := by
    rw [← Nat.mod_mul]
    exact (Nat.mod_add_div X (W * B)).symm
  have hT : T % (W * B) = T % W + W * (T / W % B) := Nat.mod_mul
  have hw := window_residual _ _ B M ha1 ha2 hBM hM
  have hxl : X % W < W := Nat.mod_lt _ hW
  rw [hT, ← hXT]
  generalize X / W % B = a1 at hX hw ⊢
  generalize T / W % B = a2 at hw ha2 ⊢
  generalize (a2 + (M - a1)) % M % B = w at hw ⊢
  generalize X / (W * B) = xq at hX
  generalize X % W = xl at hX hxl ⊢
  have hq := Nat.mod_add_div (a1 + w) B
  rw [hw] at hq
  generalize (a1 + w) / B = q at hq
  have e : X + (W * w + W * B * D) = (xl + W * a2) + W * B * (q + xq + D) := by
    have e1 : W * a1 + W * w = W * a2 + W * B * q := by
      rw [← Nat.mul_add, ← hq, Nat.mul_add, Nat.mul_assoc]
    rw [hX]
    calc xl + W * a1 + W * B * xq + (W * w + W * B * D)
        = xl + (W * a1 + W * w) + W * B * xq + W * B * D := by ring
      _ = xl + (W * a2 + W * B * q) + W * B * xq + W * B * D := by rw [e1]
      _ = (xl + W * a2) + W * B * (q + xq + D) := by ring
  rw [e, Nat.add_mul_mod_self_left]
  apply Nat.mod_eq_of_lt
  calc xl + W * a2 < W + W * a2 := by omega
    _ = W * (a2 + 1) := by ring
    _ ≤ W * B := Nat.mul_le_mul_left W ha2

theorem leVal_zero : leVal Elem.setToZero.buf = 0 := leVal_replicate_zero 32

theorem leVal_window_pad (l : List Nat) (off : Nat) (hl : ∀ x ∈ l, x < 256) :
    leVal ((l.drop off).take 4 ++ List.replicate 28 0) = leVal l / 256 ^ off % 256 ^ 4 := by
  rw [leVal_append, leVal_replicate_zero, Nat.mul_zero, Nat.add_zero, leVal_window l off hl]

/-- The rebuilt `currTarget` as a number: the residual of the window at `off`,
placed at `off`, below the bytes of the target from `off + 4` on. -/
theorem nextTarget_val (target : List Nat) (accum : Elem) (off : Nat)
    (ht : Bytes32 target) (ha : Bytes32 accum.buf) (ho : off + 4 ≤ 32) :
    Bytes32 (nextTarget target accum off).buf ∧
    leVal (nextTarget target accum off).buf =
      256 ^ off * ((leVal target / 256 ^ off % 256 ^ 4
          + (2 ^ 256 - leVal accum.buf / 256 ^ off % 256 ^ 4)) % 2 ^ 256 % 256 ^ 4)
        + 256 ^ off * 256 ^ 4 * leVal (target.drop (off + 4)) := by
  have hp1 := window_pad_bytes32 accum.buf off ha ho
  have hp2 := window_pad_bytes32 target off ht ho
  have hres : Bytes32 (residual target accum off).buf := negateAndAdd_bytes32 _ _ hp1 hp2
  have hval : leVal (residual target accum off).buf
      = (leVal target / 256 ^ off % 256 ^ 4
          + (2 ^ 256 - leVal accum.buf / 256 ^ off % 256 ^ 4)) % 2 ^ 256 := by
    unfold residual
    rw [negateAndAdd_val _ _ hp1 hp2, leVal_window_pad target off ht.2]
    simp only
    rw [leVal_window_pad accum.buf off ha.2]
  have hlen : (List.replicate off 0 ++ (residual target accum off).buf.take 4).length
      = off + 4 := by
    simp [hres.1]
  rw [nextTarget_buf target accum off ht ha ho]
  constructor
  · refine ⟨?_, ?_⟩
    · rw [List.length_append, hlen, List.length_drop, ht.1]
      omega
    · intro b hb
      rcases List.mem_append.mp hb with h | h
      · rcases List.mem_append.mp h with h | h
        · rw [(List.mem_replicate.mp h).2]
          omega
        · exact hres.2 b (List.mem_of_mem_take h)
      · exact ht.2 b (List.mem_of_mem_drop h)
  · rw [leVal_append, hlen, leVal_append, leVal_replicate_zero, List.length_replicate,
      leVal_take _ 4 hres.2, hval, Nat.zero_add, pow_add]

theorem skipZeroWindows_spec (target : List Nat) (numStages : Nat) :
    ∀ (fuel c : Nat),
      (c ≤ numStages - 1 → skipZeroWindows target numStages fuel c ≤ numStages - 1) ∧
      ∀ j, c ≤ j → j < skipZeroWindows target numStages fuel c →
        (target.drop (j * 4)).take 4 = List.replicate 4 0 := by
  intro fuel
  induction fuel with
  | zero =>
    intro c
    exact ⟨fun h => by simpa [skipZeroWindows] using h,
      fun j h1 h2 => by simp only [skipZeroWindows] at h2; omega⟩
  | succ n ih =>
    intro c
    by_cases hc : c < numStages - 1 ∧ (target.drop (c * 4)).take 4 = List.replicate 4 0
    · simp only [skipZeroWindows, hc, and_self, if_true]
      obtain ⟨h1, h2⟩ := ih (c + 1)
      refine ⟨fun _ => h1 (by omega), ?_⟩
      intro j hj hlt
      by_cases hjc : j = c
      · rw [hjc]; exact hc.2
      · exact h2 j (by omega) hlt
    · simp only [skipZeroWindows, hc, if_false]
      exact ⟨fun h => h, fun j h1 h2 => by omega⟩

theorem zero_windows_val (target : List Nat) (ht : ∀ x ∈ target, x < 256) :
    ∀ (r : Nat), (∀ j < r, (target.drop (j * 4)).take 4 = List.replicate 4 0) →
      leVal target % 256 ^ (4 * r) = 0
  | 0, _ => by simp [Nat.mod_one]
  | r + 1, h => by
    have ih := zero_windows_val target ht r (fun j hj => h j (by omega))
    have hw := leVal_window target (r * 4) ht
    rw [h r (by omega), leVal_replicate_zero, Nat.mul_comm r 4] at hw
    have e : 256 ^ (4 * (r + 1)) = 256 ^ (4 * r) * 256 ^ 4 := by
      rw [Nat.mul_add, pow_add, Nat.mul_one]
    rw [e, Nat.mod_mul, ih, ← hw, Nat.mul_zero]

/-- The driver's invariant holds when its loop is entered, at a stage below
`numStages`. -/
theorem driverInit_inv (target : List Nat) (numStages : Nat) (g : Generator)
    (ht : Bytes32 target) (hn1 : 1 ≤ numStages) (hn8 : numStages ≤ 8) :
    (driverInit target numStages g).currStage < numStages ∧
    DriverInv target (driverInit target numStages g) := by
  obtain ⟨hle, hzero⟩ := skipZeroWindows_spec target numStages numStages 0
  have hle := hle (Nat.zero_le _)
  have hz := zero_windows_val target ht.2 _ (fun j hj => hzero j (Nat.zero_le _) hj)
  generalize hc : skipZeroWindows target numStages numStages 0 = c at hle hz
  have hst : driverInit target numStages g =
      { currStage := c,
        currTarget := { Elem.setToZero with
          buf := memcpy Elem.setToZero.buf (c * 4) target (c * 4) (32 - c * 4) },
        accum := Elem.setToZero, g := g } := by
    simp only [driverInit, hc]
  have hbuf := memcpy_zero_tail target (c * 4) ht.1 (by omega)
  have hval : leVal (List.replicate (c * 4) 0 ++ target.drop (c * 4)) = leVal target := by
    rw [leVal_append, leVal_replicate_zero, List.length_replicate, leVal_drop _ _ ht.2,
      Nat.zero_add, Nat.mul_comm c 4]
    have := Nat.div_add_mod (leVal target) (256 ^ (4 * c))
    rw [hz, Nat.add_zero] at this
    exact this
  rw [hst]
  refine ⟨by simp only; omega, bytes32_zero, ?_, ?_, ?_, ?_⟩
  · simp only [hbuf]
    refine ⟨by simp [ht.1]; omega, ?_⟩
    intro b hb
    rcases List.mem_append.mp hb with h | h
    · rw [(List.mem_replicate.mp h).2]
      omega
    · exact ht.2 b (List.mem_of_mem_drop h)
  · simp only [leVal_zero, hz, Nat.zero_mod]
  · simp only [hbuf, hval, hz]
  · simp only [hbuf, hval, leVal_zero, Nat.zero_add]

theorem pow_window_dvd (k : Nat) (hk : k ≤ 8) : 256 ^ (4 * k) ∣ 2 ^ 256 := by
  rw [← pow_256_32]
  exact pow_dvd_pow 256 (by omega)

/-- One iteration of the driver on a state satisfying the invariant, when the
hash sum of the seeds agrees with `currTarget` on the current prefix: the new
accumulator agrees with the target up to the end of the current window, is
unchanged below it, and the invariant holds for the next stage. -/
theorem driver_step (H : Nat → List Nat) (hH : ∀ seed, Bytes32 (H seed))
    (target : List Nat) (ht : Bytes32 target) (numStages : Nat) (hn8 : numStages ≤ 8)
    (st : DriverState) (seeds : List Nat) (hc : st.currStage < numStages)
    (hinv : DriverInv target st)
    (hag : (accumulate H Elem.setToZero seeds).buf.take (4 * (st.currStage + 1))
      = st.currTarget.buf.take (4 * (st.currStage + 1))) :
    Bytes32 (accumulate H st.accum seeds).buf ∧
    (accumulate H st.accum seeds).buf.take (4 * (st.currStage + 1))
      = target.take (4 * (st.currStage + 1)) ∧
    (accumulate H st.accum seeds).buf.take (4 * st.currStage)
      = st.accum.buf.take (4 * st.currStage) ∧
    (st.currStage + 1 < numStages → ∀ g1 : Generator,
      DriverInv target
        { currStage := st.currStage + 1,
          currTarget := nextTarget target (accumulate H st.accum seeds)
            ((st.currStage + 1) * 4),
          accum := accumulate H st.accum seeds,
          g := g1 }) := by
  obtain ⟨ha, hct, hi3, hi4, hi5⟩ := hinv
  obtain ⟨hsb, hsv⟩ := accumulate_val H hH seeds Elem.setToZero bytes32_zero
  obtain ⟨hab, hav⟩ := accumulate_val H hH seeds st.accum ha
  rw [leVal_zero, Nat.zero_add] at hsv
  have hs := mod_eq_of_take_eq _ _ _ hsb.2 hct.2 hag
  rw [hsv] at hs
  have hd1 := pow_window_dvd (st.currStage + 1) (by omega)
  have hd0 : 256 ^ (4 * st.currStage) ∣ 256 ^ (4 * (st.currStage + 1)) :=
    pow_dvd_pow 256 (by omega)
  have hnew : leVal (accumulate H st.accum seeds).buf % 256 ^ (4 * (st.currStage + 1))
      = leVal target % 256 ^ (4 * (st.currStage + 1)) := by
    rw [hav]
    exact sum_agrees_window _ _ _ _ _ _ hd1 hs hi5
  have hkeep : leVal (accumulate H st.accum seeds).buf % 256 ^ (4 * st.currStage)
      = leVal st.accum.buf % 256 ^ (4 * st.currStage) := by
    rw [hav]
    exact sum_keeps_window _ _ _ _ _ _ hd0 hd1 hs hi4
  refine ⟨hab, ?_, ?_, ?_⟩
  · exact take_eq_of_mod_eq _ _ _ (hab.1.trans ht.1.symm) hab.2 ht.2 hnew
  · exact take_eq_of_mod_eq _ _ _ (hab.1.trans ha.1.symm) hab.2 ha.2 hkeep
  · intro hlt g1
    obtain ⟨hnb, hnv⟩ := nextTarget_val target (accumulate H st.accum seeds)
      ((st.currStage + 1) * 4) ht hab (by omega)
    have e1 : (st.currStage + 1) * 4 = 4 * (st.currStage + 1) := Nat.mul_comm _ _
    have e2 : 256 ^ (4 * (st.currStage + 1 + 1))
        = 256 ^ (4 * (st.currStage + 1)) * 256 ^ 4 := by
      rw [Nat.mul_add 4 (st.currStage + 1) 1, pow_add, Nat.mul_one]
    rw [e1] at hnv hnb
    have hB : (256 : Nat) ^ 4 ∣ 2 ^ 256 := by
      rw [← pow_256_32]
      exact pow_dvd_pow 256 (by omega)
    refine ⟨hab, ?_, hnew, ?_, ?_⟩
    · show Bytes32 (nextTarget target _ ((st.currStage + 1) * 4)).buf
      rw [e1]
      exact hnb
    · show leVal (nextTarget target _ ((st.currStage + 1) * 4)).buf % _ = 0
      rw [e1, hnv, Nat.mul_assoc, ← Nat.mul_add, Nat.mul_mod_right]
    · show (_ + leVal (nextTarget target _ ((st.currStage + 1) * 4)).buf) % _ = _
      rw [e1, hnv, e2]
      exact retarget_window _ _ _ _ _ _ (pow_pos (by norm_num) _) (pow_pos (by norm_num) _)
        (pow_pos (by norm_num) _) hB hnew

theorem driverIter_of_run (H : Nat → List Nat)
    (run : Generator → Nat → List Nat → Option Recovered × Generator)
    (target : List Nat) (numStages : Nat) (st : DriverState) (seeds : List Nat)
    (g1 : Generator)
    (h : run st.g (st.currStage + 1) st.currTarget.buf = (some (.seeds seeds), g1)) :
    driverIter H run target numStages st =
      if st.currStage + 1 ≥ numStages then
        some ({ st with currStage := st.currStage + 1,
                        accum := accumulate H st.accum seeds, g := g1 }, true)
      else
        some ({ currStage := st.currStage + 1,
                currTarget := nextTarget target (accumulate H st.accum seeds)
                  ((st.currStage + 1) * 4),
                accum := accumulate H st.accum seeds,
                g := dropFinalStages g1 }, false) := by
  simp only [driverIter, h]

theorem driverIter_currStage (H : Nat → List Nat)
    (run : Generator → Nat → List Nat → Option Recovered × Generator)
    (target : List Nat) (numStages : Nat) (st st1 : DriverState) (done : Bool)
    (h : driverIter H run target numStages st = some (st1, done)) :
    st1.currStage = st.currStage + 1 := by
  rcases hr : run st.g (st.currStage + 1) st.currTarget.buf with ⟨_ | r, g1⟩
  · simp [driverIter, hr] at h
  · cases r with
    | unknownAncestor e => simp [driverIter, hr] at h
    | seeds seeds =>
      rw [driverIter_of_run H run target numStages st seeds g1 hr] at h
      split at h
      · simp only [Option.some.injEq, Prod.mk.injEq] at h
        rw [← h.1]
      · simp only [Option.some.injEq, Prod.mk.injEq] at h
        rw [← h.1]

theorem driverAt_succ (H : Nat → List Nat)
    (run : Generator → Nat → List Nat → Option Recovered × Generator)
    (target : List Nat) (numStages : Nat) (g : Generator) (k : Nat) (st1 : DriverState)
    (h : driverAt H run target numStages g (k + 1) = some st1) :
    ∃ st done, driverAt H run target numStages g k = some st ∧
      driverIter H run target numStages st = some (st1, done) := by
  simp only [driverAt] at h
  split at h
  · rename_i st hst
    split at h
    · rename_i st2 done hit
      simp only [Option.some.injEq] at h
      subst h
      exact ⟨st, done, hst, hit⟩
    · exact Option.noConfusion h
  · exact Option.noConfusion h

theorem runAgrees_exists (H : Nat → List Nat)
    (run : Generator → Nat → List Nat → Option Recovered × Generator)
    (st : DriverState) (h : RunAgrees H run st) :
    ∃ seeds g1, run st.g (st.currStage + 1) st.currTarget.buf = (some (.seeds seeds), g1) ∧
      (accumulate H Elem.setToZero seeds).buf.take (4 * (st.currStage + 1))
        = st.currTarget.buf.take (4 * (st.currStage + 1)) := by
  unfold RunAgrees at h
  split at h
  · rename_i seeds hr
    exact ⟨seeds, (run st.g (st.currStage + 1) st.currTarget.buf).2, by rw [← hr], h⟩
  · exact absurd h id

/-- Every state the driver reaches at a stage below `numStages` satisfies the
invariant, when every generator call so far met the assumption. -/
theorem driverAt_inv (H : Nat → List Nat) (hH : ∀ seed, Bytes32 (H seed))
    (run : Generator → Nat → List Nat → Option Recovered × Generator)
    (target : List Nat) (ht : Bytes32 target) (numStages : Nat)
    (hn1 : 1 ≤ numStages) (hn8 : numStages ≤ 8) (g : Generator)
    (hrun : ∀ k st, driverAt H run target numStages g k = some st →
      st.currStage < numStages → RunAgrees H run st) :
    ∀ k st, driverAt H run target numStages g k = some st →
      st.currStage < numStages → DriverInv target st := by
  intro k
  induction k with
  | zero =>
    intro st hst _
    simp only [driverAt, Option.some.injEq] at hst
    rw [← hst]
    exact (driverInit_inv target numStages g ht hn1 hn8).2
  | succ k ih =>
    intro st1 hst1 hlt
    obtain ⟨st, done, hst, hit⟩ := driverAt_succ H run target numStages g k st1 hst1
    have hcs := driverIter_currStage H run target numStages st st1 done hit
    have hc : st.currStage < numStages := by omega
    have hinv := ih st hst hc
    obtain ⟨seeds, g1, hr, hag⟩ := runAgrees_exists H run st (hrun k st hst hc)
    rw [driverIter_of_run H run target numStages st seeds g1 hr] at hit
    have hnot : ¬ st.currStage + 1 ≥ numStages := by omega
    simp only [hnot, if_false, Option.some.injEq, Prod.mk.injEq] at hit
    rw [← hit.1]
    exact (driver_step H hH target ht numStages hn8 st seeds hc hinv hag).2.2.2 (by omega) _

/-- The driver loop, entered at a reachable state below `numStages` with enough
iterations allowed, is left in a state whose accumulator agrees with the target
on the first `4 * numStages` bytes. -/
theorem driverLoop_spec (H : Nat → List Nat) (hH : ∀ seed, Bytes32 (H seed))
    (run : Generator → Nat → List Nat → Option Recovered × Generator)
    (target : List Nat) (ht : Bytes32 target) (numStages : Nat)
    (hn1 : 1 ≤ numStages) (hn8 : numStages ≤ 8) (g : Generator)
    (hrun : ∀ k st, driverAt H run target numStages g k = some st →
      st.currStage < numStages → RunAgrees H run st) :
    ∀ (fuel k : Nat) (st : DriverState), driverAt H run target numStages g k = some st →
      st.currStage < numStages → numStages - st.currStage ≤ fuel →
      ∃ stf, driverLoop H run target numStages fuel st = some stf ∧
        stf.accum.buf.take (4 * numStages) = target.take (4 * numStages) := by
  intro fuel
  induction fuel with
  | zero =>
    intro k st _ hc hf
    omega
  | succ n ih =>
    intro k st hst hc hf
    have hinv := driverAt_inv H hH run target ht numStages hn1 hn8 g hrun k st hst hc
    obtain ⟨seeds, g1, hr, hag⟩ := runAgrees_exists H run st (hrun k st hst hc)
    have hit := driverIter_of_run H run target numStages st seeds g1 hr
    obtain ⟨_, hnew, _, _⟩ := driver_step H hH target ht numStages hn8 st seeds hc hinv hag
    by_cases hdone : st.currStage + 1 ≥ numStages
    · simp only [hdone, if_true] at hit
      have e : numStages = st.currStage + 1 := by omega
      refine ⟨{ st with currStage := st.currStage + 1,
                        accum := accumulate H st.accum seeds, g := g1 },
        by simp only [driverLoop, hit], ?_⟩
      simp only
      rw [e]
      exact hnew
    · simp only [hdone, if_false] at hit
      have hnext : driverAt H run target numStages g (k + 1) = some
          { currStage := st.currStage + 1,
            currTarget := nextTarget target (accumulate H st.accum seeds)
              ((st.currStage + 1) * 4),
            accum := accumulate H st.accum seeds,
            g := dropFinalStages g1 } := by
        simp only [driverAt, hst, hit]
      obtain ⟨stf, hl, hf1⟩ := ih (k + 1) _ hnext (by simp only; omega) (by simp only; omega)
      exact ⟨stf, by simp only [driverLoop, hit, hl], hf1⟩

theorem driverAt_currStage_ge (H : Nat → List Nat)
    (run : Generator → Nat → List Nat → Option Recovered × Generator)
    (target : List Nat) (numStages : Nat) (g : Generator) :
    ∀ k st, driverAt H run target numStages g k = some st → k ≤ st.currStage := by
  intro k
  induction k with
  | zero => intro st _; exact Nat.zero_le _
  | succ k ih =>
    intro st1 hst1
    obtain ⟨st, done, hst, hit⟩ := driverAt_succ H run target numStages g k st1 hst1
    have := driverIter_currStage H run target numStages st st1 done hit
    have := ih st hst
    omega

/-- C2: the driver loop, for a stored 32-byte target and 1 to 8 stages, assuming
that each generator call returns a seed set whose hash sum agrees with that
call's `currTarget` on the first `4 * (currStage + 1)` bytes. In the outer
iteration for stage index `c` the accumulator ends with
`accum[0 .. 4*(c+1)) = target[0 .. 4*(c+1))` and its bytes below `4*c`, the
windows solved before, are left as they were; and the loop is left with an
accumulator that agrees with the target on the first `4 * numStages` bytes. -/
theorem driver_accum_window (H : Nat → List Nat) (hH : ∀ seed, Bytes32 (H seed))
    (run : Generator → Nat → List Nat → Option Recovered × Generator)
    (target : List Nat) (ht : Bytes32 target) (numStages : Nat)
    (hn1 : 1 ≤ numStages) (hn8 : numStages ≤ 8) (g : Generator)
    (hrun : ∀ k st, driverAt H run target numStages g k = some st →
      st.currStage < numStages → RunAgrees H run st) :
    (∀ k st, driverAt H run target numStages g k = some st → st.currStage < numStages →
      ∃ st1 done, driverIter H run target numStages st = some (st1, done) ∧
        st1.currStage = st.currStage + 1 ∧
        st1.accum.buf.take (4 * (st.currStage + 1)) = target.take (4 * (st.currStage + 1)) ∧
        st1.accum.buf.take (4 * st.currStage) = st.accum.buf.take (4 * st.currStage)) ∧
    (∃ stf, driverLoop H run target numStages numStages (driverInit target numStages g)
        = some stf ∧
      stf.accum.buf.take (4 * numStages) = target.take (4 * numStages)) := by
  constructor
  · intro k st hst hc
    have hinv := driverAt_inv H hH run target ht numStages hn1 hn8 g hrun k st hst hc
    obtain ⟨seeds, g1, hr, hag⟩ := runAgrees_exists H run st (hrun k st hst hc)
    have hit := driverIter_of_run H run target numStages st seeds g1 hr
    obtain ⟨_, hnew, hkeep, _⟩ := driver_step H hH target ht numStages hn8 st seeds hc hinv hag
    by_cases hdone : st.currStage + 1 ≥ numStages
    · simp only [hdone, if_true] at hit
      exact ⟨_, true, hit, rfl, hnew, hkeep⟩
    · simp only [hdone, if_false] at hit
      exact ⟨_, false, hit, rfl, hnew, hkeep⟩
  · exact driverLoop_spec H hH run target ht numStages hn1 hn8 g hrun numStages 0 _ rfl
      (driverInit_inv target numStages g ht hn1 hn8).1 (by omega)

theorem leBytes_bytes : ∀ (n v : Nat), (leBytes n v).length = n ∧ ∀ b ∈ leBytes n v, b < 256
  | 0, _ => by simp [leBytes]
  | n + 1, v => by
    obtain ⟨h1, h2⟩ := leBytes_bytes n (v / 256)
    refine ⟨by simp [leBytes, h1], ?_⟩
    intro b hb
    simp only [leBytes, List.mem_cons] at hb
    rcases hb with hb | hb
    · rw [hb]; exact Nat.mod_lt _ (by norm_num)
    · exact h2 b hb

theorem toyHash_bytes32 (seed : Nat) : Bytes32 (toyHash seed) := leBytes_bytes 32 _

theorem toy_runs_agree : ∀ k st, driverAt toyHash toyRun toyTarget 2 toyGen k = some st →
    st.currStage < 2 → RunAgrees toyHash toyRun st := by
  intro k st hst hlt
  have hk := driverAt_currStage_ge _ _ _ _ _ k st hst
  have h0 : (driverAt toyHash toyRun toyTarget 2 toyGen 0).all
      (fun s => decide (RunAgrees toyHash toyRun s)) = true := by decide
  have h1 : (driverAt toyHash toyRun toyTarget 2 toyGen 1).all
      (fun s => decide (RunAgrees toyHash toyRun s)) = true := by decide
  have hk2 : k = 0 ∨ k = 1 := by omega
  rcases hk2 with rfl | rfl
  · rw [hst] at h0
    simpa using h0
  · rw [hst] at h1
    simpa using h1

theorem driver_accum_window_witness :
    Bytes32 toyTarget ∧
    ((∀ k st, driverAt toyHash toyRun toyTarget 2 toyGen k = some st → st.currStage < 2 →
      ∃ st1 done, driverIter toyHash toyRun toyTarget 2 st = some (st1, done) ∧
        st1.currStage = st.currStage + 1 ∧
        st1.accum.buf.take (4 * (st.currStage + 1)) = toyTarget.take (4 * (st.currStage + 1)) ∧
        st1.accum.buf.take (4 * st.currStage) = st.accum.buf.take (4 * st.currStage)) ∧
    (∃ stf, driverLoop toyHash toyRun toyTarget 2 2 (driverInit toyTarget 2 toyGen)
        = some stf ∧
      stf.accum.buf.take (4 * 2) = toyTarget.take (4 * 2))) ∧
    (driver toyHash insertSort 5 toyTarget 2 2 1000).map (fun st => st.accum.buf)
      = some (leBytes 32 (5 + 3 * 2 ^ 32 + 2 ^ 64)) :=
  ⟨by decide,
    driver_accum_window toyHash toyHash_bytes32 toyRun toyTarget (by decide) 2 (by decide)
      (by decide) toyGen toy_runs_agree,
    by decide⟩

/-! ## The pairs reported by the matching loop -/

theorem recordsOf_append : ∀ (c : Nat) (xs ys : List (Elem × Elem)),
    recordsOf c (xs ++ ys) = recordsOf c xs ++ recordsOf (c + xs.length) ys
  | _, [], _ => by simp [recordsOf]
  | c, x :: xs, ys => by
    have ih := recordsOf_append (c + 1) xs ys
    show recordsOf c (x :: (xs ++ ys)) = _
    simp only [recordsOf, ih, List.length_cons, List.cons_append]
    rw [Nat.add_comm xs.length 1, Nat.add_assoc]

theorem itemsOf_append (target : List Nat) : ∀ (c : Nat) (xs ys : List (Elem × Elem)),
    itemsOf target c (xs ++ ys) = itemsOf target c xs ++ itemsOf target (c + xs.length) ys
  | _, [], _ => by simp [itemsOf]
  | c, x :: xs, ys => by
    have ih := itemsOf_append target (c + 1) xs ys
    show itemsOf target c (x :: (xs ++ ys)) = _
    simp only [itemsOf, ih, List.length_cons, List.cons_append]
    rw [Nat.add_comm xs.length 1, Nat.add_assoc]

/-- A non-final matching loop appends exactly the records and the synthesized
elements of the pairs it reports, and returns no ids. -/
theorem walk_nonfinal_matches (target : List Nat) (stageNum : Nat) :
    ∀ (fuel : Nat) (bigs negs : List Elem) (st : WalkState),
      walk target stageNum false fuel bigs negs st =
        (none, ⟨st.found ++ recordsOf st.currId (walkMatches stageNum fuel bigs negs),
                st.outbox ++ itemsOf target st.currId (walkMatches stageNum fuel bigs negs),
                st.currId + (walkMatches stageNum fuel bigs negs).length⟩) := by
  intro fuel
  induction fuel with
  | zero => intro bigs negs st; simp [walk, walkMatches, recordsOf, itemsOf]
  | succ n ih =>
    intro bigs negs st
    match bigs, negs with
    | [], negs => simp [walk, walkMatches, recordsOf, itemsOf]
    | a :: bigRest, [] => simp [walk, walkMatches, recordsOf, itemsOf]
    | a :: bigRest, b :: negRest =>
      by_cases hm : isMatch stageNum a b = true <;> by_cases hc : cmp b a = true
      all_goals
        simp only [walk, walkMatches, hm, hc, Bool.and_false, Bool.false_eq_true, if_false,
          if_true, ih, recordsOf_append, itemsOf_append, recordsOf, itemsOf, List.length_append,
          List.length_cons, List.length_nil, List.nil_append, List.append_assoc,
          List.singleton_append, Nat.zero_add, Nat.add_zero, Nat.add_assoc]
      all_goals simp [Nat.add_comm]

/-- A final-stage matching loop writes nothing and returns the id set of the
first pair it reports, if any. -/
theorem walk_final_matches (target : List Nat) (stageNum : Nat) :
    ∀ (fuel : Nat) (bigs negs : List Elem) (st : WalkState),
      walk target stageNum true fuel bigs negs st =
        ((walkMatches stageNum fuel bigs negs).head?.map
          (fun m => setInsert m.2.id (setInsert m.1.id [])), st) := by
  intro fuel
  induction fuel with
  | zero => intro bigs negs st; simp [walk, walkMatches]
  | succ n ih =>
    intro bigs negs st
    match bigs, negs with
    | [], negs => simp [walk, walkMatches]
    | a :: bigRest, [] => simp [walk, walkMatches]
    | a :: bigRest, b :: negRest =>
      by_cases hm : isMatch stageNum a b = true <;> by_cases hc : cmp b a = true
      all_goals simp [walk, walkMatches, hm, hc, ih]

/-- The matching loop ends within `big.size() + inboxNegs.size()` iterations:
allowing more changes nothing. -/
theorem walk_fuel (target : List Nat) (stageNum : Nat) (fin : Bool) :
    ∀ (fuel : Nat) (bigs negs : List Elem) (st : WalkState),
      bigs.length + negs.length ≤ fuel →
      walk target stageNum fin fuel bigs negs st
        = walk target stageNum fin (bigs.length + negs.length) bigs negs st := by
  intro fuel
  induction fuel with
  | zero =>
    intro bigs negs st h
    have h1 : bigs.length + negs.length = 0 := by omega
    rw [h1]
  | succ n ih =>
    intro bigs negs st h
    match bigs, negs with
    | [], [] => simp [walk]
    | [], b :: negRest =>
      have e : ([] : List Elem).length + (b :: negRest).length = negRest.length + 1 := by simp
      rw [e]
      simp [walk]
    | a :: bigRest, [] =>
      have e : (a :: bigRest).length + ([] : List Elem).length = bigRest.length + 1 := by simp
      rw [e]
      simp [walk]
    | a :: bigRest, b :: negRest =>
      have e : (a :: bigRest).length + (b :: negRest).length
          = ((a :: bigRest).length + negRest.length) + 1 := by simp; omega
      have e2 : (a :: bigRest).length + negRest.length
          = bigRest.length + (b :: negRest).length := by simp; omega
      simp only [List.length_cons] at h
      rw [e]
      simp only [walk]
      rw [ih (a :: bigRest) negRest _ (by simp only [List.length_cons]; omega)]
      rw [ih bigRest (b :: negRest) _ (by simp only [List.length_cons]; omega)]
      rw [← e2]

/-! ## The bytewise order -/

theorem memcmp_le_trans : ∀ (n : Nat) (x y z : List Nat),
    x.length = n → y.length = n → z.length = n →
    ¬ memcmp y x n < 0 → ¬ memcmp z y n < 0 → ¬ memcmp z x n < 0
  | 0, _, _, _, _, _, _, _, _ => by
    have h : ∀ (a b : List Nat), memcmp a b 0 = 0 := by
      intro a b; cases a <;> cases b <;> rfl
    rw [h]; decide
  | n + 1, [], _, _, hx, _, _, _, _ => by simp at hx
  | n + 1, _ :: _, [], _, _, hy, _, _, _ => by simp at hy
  | n + 1, _ :: _, _ :: _, [], _, _, hz, _, _ => by simp at hz
  | n + 1, x0 :: xs, y0 :: ys, z0 :: zs, hx, hy, hz, h1, h2 => by
    simp only [List.length_cons, Nat.add_right_cancel_iff] at hx hy hz
    simp only [memcmp] at h1 h2 ⊢
    by_cases a1 : y0 < x0
    · simp [a1] at h1
    · by_cases a2 : z0 < y0
      · simp [a2] at h2
      · by_cases a3 : x0 < y0
        · have a4 : ¬ z0 < x0 := by omega
          have a5 : x0 < z0 := by omega
          simp [a4, a5]
        · by_cases a6 : y0 < z0
          · have a4 : ¬ z0 < x0 := by omega
            have a5 : x0 < z0 := by omega
            simp [a4, a5]
          · have a4 : ¬ z0 < x0 := by omega
            have a5 : ¬ x0 < z0 := by omega
            simp only [a1, a3, if_false] at h1
            simp only [a2, a6, if_false] at h2
            simp only [a4, a5, if_false]
            exact memcmp_le_trans n xs ys zs hx hy hz h1 h2

/-- Buffers between two buffers that share their first `k` bytes share them too. -/
theorem take_convex : ∀ (n k : Nat) (x y z : List Nat),
    x.length = n → y.length = n → z.length = n →
    ¬ memcmp y x n < 0 → ¬ memcmp z y n < 0 → x.take k = z.take k → y.take k = x.take k
  | _, 0, _, _, _, _, _, _, _, _, _ => by simp
  | 0, _ + 1, x, y, _, hx, hy, _, _, _, _ => by
    rw [List.length_eq_zero.mp hx, List.length_eq_zero.mp hy]
  | n + 1, _ + 1, [], _, _, hx, _, _, _, _, _ => by simp at hx
  | n + 1, _ + 1, _ :: _, [], _, _, hy, _, _, _, _ => by simp at hy
  | n + 1, _ + 1, _ :: _, _ :: _, [], _, _, hz, _, _, _ => by simp at hz
  | n + 1, k + 1, x0 :: xs, y0 :: ys, z0 :: zs, hx, hy, hz, h1, h2, ht => by
    simp only [List.length_cons, Nat.add_right_cancel_iff] at hx hy hz
    simp only [List.take_succ_cons, List.cons.injEq] at ht ⊢
    simp only [memcmp] at h1 h2
    obtain ⟨h0, htl⟩ := ht
    subst h0
    by_cases a1 : y0 < x0
    · simp [a1] at h1
    · by_cases a2 : x0 < y0
      · simp [a2] at h2
      · have e : y0 = x0 := by omega
        subst e
        simp only [Nat.lt_irrefl, if_false] at h1 h2
        exact ⟨rfl, take_convex n k xs ys zs hx hy hz h1 h2 htl⟩

theorem cmp_false_iff (x y : Elem) : cmp x y = false ↔ ¬ memcmp x.buf y.buf 32 < 0 := by
  simp [cmp]

theorem cmp_le_trans (x y z : Elem) (hx : x.buf.length = 32) (hy : y.buf.length = 32)
    (hz : z.buf.length = 32) (h1 : cmp y x = false) (h2 : cmp z y = false) :
    cmp z x = false := by
  rw [cmp_false_iff] at h1 h2 ⊢
  exact memcmp_le_trans 32 _ _ _ hx hy hz h1 h2

theorem startsWith_self_take : ∀ (k : Nat) (s : List Nat), startsWith s (s.take k) = true
  | 0, s => by cases s <;> simp [startsWith]
  | _ + 1, [] => by simp [startsWith]
  | k + 1, a :: s => by simp [startsWith, startsWith_self_take k s]

/-- On buffers of equal length the test of the matching loop is the equality of
the first `(stageNum + 1) * 4` bytes. -/
theorem isMatch_iff (S : Nat) (a b : Elem) (h : a.buf.length = b.buf.length) :
    isMatch S a b = true ↔ a.buf.take ((S + 1) * 4) = b.buf.take ((S + 1) * 4) := by
  constructor
  · exact startsWith_take _ _ _ h
  · intro ht
    unfold isMatch
    rw [← ht]
    exact startsWith_self_take _ _

/-- An element between two matching elements matches too. -/
theorem isMatch_convex_big (S : Nat) (a0 a b0 : Elem) (h1 : a0.buf.length = 32)
    (h2 : a.buf.length = 32) (h3 : b0.buf.length = 32)
    (hle1 : cmp a0 b0 = false) (hle2 : cmp a a0 = false) (hm : isMatch S a b0 = true) :
    isMatch S a0 b0 = true := by
  rw [isMatch_iff S a b0 (h2.trans h3.symm)] at hm
  rw [isMatch_iff S a0 b0 (h1.trans h3.symm)]
  rw [cmp_false_iff] at hle1 hle2
  exact take_convex 32 _ _ _ _ h3 h1 h2 hle1 hle2 hm.symm

theorem isMatch_convex_neg (S : Nat) (a0 b0 b : Elem) (h1 : a0.buf.length = 32)
    (h2 : b0.buf.length = 32) (h3 : b.buf.length = 32)
    (hle1 : cmp b0 a0 = false) (hle2 : cmp b b0 = false) (hm : isMatch S a0 b = true) :
    isMatch S a0 b0 = true := by
  rw [isMatch_iff S a0 b (h1.trans h3.symm)] at hm
  rw [isMatch_iff S a0 b0 (h1.trans h2.symm)]
  rw [cmp_false_iff] at hle1 hle2
  exact (take_convex 32 _ _ _ _ h1 h2 h3 hle1 hle2 hm).symm

/-- On sorted inputs the matching loop reports a pair whenever some element of
`big` matches some element of `inboxNegs`. -/
theorem walkMatches_complete (S : Nat) :
    ∀ (fuel : Nat) (bigs negs : List Elem), bigs.length + negs.length ≤ fuel →
      (∀ e ∈ bigs, e.buf.length = 32) → (∀ e ∈ negs, e.buf.length = 32) →
      SortedByBuf bigs → SortedByBuf negs →
      (∃ a ∈ bigs, ∃ b ∈ negs, isMatch S a b = true) →
      walkMatches S fuel bigs negs ≠ [] := by
  intro fuel
  induction fuel with
  | zero =>
    rintro bigs negs hf _ _ _ _ ⟨a, ha, _⟩
    have : bigs.length = 0 := by omega
    rw [List.length_eq_zero.mp this] at ha
    simp at ha
  | succ n ih =>
    rintro bigs negs hf hwb hwn hsb hsn ⟨a, ha, b, hb, hm⟩
    match bigs, negs with
    | [], _ => simp at ha
    | _ :: _, [] => simp at hb
    | a0 :: bigRest, b0 :: negRest =>
      by_cases hm0 : isMatch S a0 b0 = true
      · simp [walkMatches, hm0]
      · have hla0 := hwb a0 (List.mem_cons_self _ _)
        have hlb0 := hwn b0 (List.mem_cons_self _ _)
        simp only [List.length_cons] at hf
        by_cases hc : cmp b0 a0 = true
        · simp only [walkMatches, hm0, hc, if_true, Bool.false_eq_true, if_false,
            List.nil_append]
          apply ih (a0 :: bigRest) negRest (by simp only [List.length_cons]; omega) hwb
            (fun e he => hwn e (List.mem_cons_of_mem _ he)) hsb (List.pairwise_cons.mp hsn).2
          rcases List.mem_cons.mp hb with hb0 | hb1
          · exfalso
            subst hb0
            rcases List.mem_cons.mp ha with ha0 | ha1
            · subst ha0
              exact hm0 hm
            · exact hm0 (isMatch_convex_big S a0 a b hla0
                (hwb a (List.mem_cons_of_mem _ ha1)) hlb0 (cmp_asymm b a0 hc)
                ((List.pairwise_cons.mp hsb).1 a ha1) hm)
          · exact ⟨a, ha, b, hb1, hm⟩
        · have hc1 : cmp b0 a0 = false := by simpa using hc
          simp only [walkMatches, hm0, hc1, Bool.false_eq_true, if_false, List.nil_append]
          apply ih bigRest (b0 :: negRest) (by simp only [List.length_cons]; omega)
            (fun e he => hwb e (List.mem_cons_of_mem _ he)) hwn
            (List.pairwise_cons.mp hsb).2 hsn
          rcases List.mem_cons.mp ha with ha0 | ha1
          · exfalso
            subst ha0
            rcases List.mem_cons.mp hb with hb0 | hb1
            · subst hb0
              exact hm0 hm
            · exact hm0 (isMatch_convex_neg S a b0 b hla0 hlb0
                (hwn b (List.mem_cons_of_mem _ hb1)) hc1
                ((List.pairwise_cons.mp hsn).1 b hb1) hm)
          · exact ⟨a, ha1, b, hb, hm⟩

theorem mem_walkMatches (S : Nat) : ∀ (fuel : Nat) (bigs negs : List Elem) (m : Elem × Elem),
    m ∈ walkMatches S fuel bigs negs → m.1 ∈ bigs ∧ m.2 ∈ negs ∧ isMatch S m.1 m.2 = true := by
  intro fuel
  induction fuel with
  | zero => intro bigs negs m h; simp [walkMatches] at h
  | succ n ih =>
    intro bigs negs m h
    match bigs, negs with
    | [], _ => simp [walkMatches] at h
    | _ :: _, [] => simp [walkMatches] at h
    | a :: bigRest, b :: negRest =>
      simp only [walkMatches, List.mem_append] at h
      rcases h with h | h
      · by_cases hm : isMatch S a b = true
        · simp only [hm, if_true, List.mem_singleton] at h
          subst h
          exact ⟨List.mem_cons_self _ _, List.mem_cons_self _ _, hm⟩
        · simp [hm] at h
      · by_cases hc : cmp b a = true
        · simp only [hc, if_true] at h
          obtain ⟨h1, h2, h3⟩ := ih _ _ m h
          exact ⟨h1, List.mem_cons_of_mem _ h2, h3⟩
        · simp only [hc, Bool.false_eq_true, if_false] at h
          obtain ⟨h1, h2, h3⟩ := ih _ _ m h
          exact ⟨List.mem_cons_of_mem _ h1, h2, h3⟩

theorem length_mergeLoop : ∀ (n : Nat) (xs ys : List Elem),
    (mergeLoop n xs ys).length = xs.length + ys.length
  | 0, xs, ys => by simp [mergeLoop]
  | _ + 1, [], ys => by simp [mergeLoop]
  | _ + 1, x :: xs, [] => by simp [mergeLoop]
  | n + 1, x :: xs, y :: ys => by
    simp only [mergeLoop]
    split
    · simp only [List.length_cons, length_mergeLoop n (x :: xs) ys]
      omega
    · simp only [List.length_cons, length_mergeLoop n xs (y :: ys)]
      omega

/-- `std::merge` of two sorted ranges of 32-byte elements is sorted. -/
theorem sorted_mergeLoop : ∀ (n : Nat) (xs ys : List Elem),
    (∀ e ∈ xs, e.buf.length = 32) → (∀ e ∈ ys, e.buf.length = 32) →
    SortedByBuf xs → SortedByBuf ys → xs.length + ys.length ≤ n →
    SortedByBuf (mergeLoop n xs ys)
  | 0, xs, ys, _, _, _, _, h => by
    have h1 : xs.length = 0 := by omega
    have h2 : ys.length = 0 := by omega
    rw [List.length_eq_zero.mp h1, List.length_eq_zero.mp h2]
    exact List.Pairwise.nil
  | _ + 1, [], ys, _, _, _, hy, _ => by simpa [mergeLoop] using hy
  | _ + 1, x :: xs, [], _, _, hx, _, _ => by simpa [mergeLoop] using hx
  | n + 1, x :: xs, y :: ys, hwx, hwy, hx, hy, h => by
    simp only [List.length_cons] at h
    have hlx := hwx x (List.mem_cons_self _ _)
    have hly := hwy y (List.mem_cons_self _ _)
    simp only [mergeLoop]
    split
    · rename_i hc
      refine List.pairwise_cons.mpr ⟨?_, sorted_mergeLoop n (x :: xs) ys hwx
        (fun e he => hwy e (List.mem_cons_of_mem _ he)) hx (List.pairwise_cons.mp hy).2
        (by simp only [List.length_cons]; omega)⟩
      intro e he
      rcases mem_mergeLoop _ _ _ _ he with he | he
      · rcases List.mem_cons.mp he with he | he
        · rw [he]; exact cmp_asymm y x hc
        · by_contra hne
          have h1 : cmp e y = true := by simpa using hne
          have h2 := cmp_trans e y x h1 hc
          rw [(List.pairwise_cons.mp hx).1 e he] at h2
          exact Bool.noConfusion h2
      · exact (List.pairwise_cons.mp hy).1 e he
    · rename_i hc
      have hc1 : cmp y x = false := by simpa using hc
      refine List.pairwise_cons.mpr ⟨?_, sorted_mergeLoop n xs (y :: ys)
        (fun e he => hwx e (List.mem_cons_of_mem _ he)) hwy (List.pairwise_cons.mp hx).2 hy
        (by simp only [List.length_cons]; omega)⟩
      intro e he
      rcases mem_mergeLoop _ _ _ _ he with he | he
      · exact (List.pairwise_cons.mp hx).1 e he
      · rcases List.mem_cons.mp he with he | he
        · rw [he]; exact hc1
        · exact cmp_le_trans x y e hlx hly (hwy e (List.mem_cons_of_mem _ he)) hc1
            ((List.pairwise_cons.mp hy).1 e he)

/-- The `big` that `expand` leaves is sorted when the old one was. -/
theorem sorted_mergedBig (sort : List Elem → List Elem) (hs : IsStdSort sort) (s : Stage)
    (hwf : s.WF) (hb : SortedByBuf s.big) : SortedByBuf (s.mergedBig sort) := by
  unfold Stage.mergedBig Stage.sortedInbox
  by_cases hd : s.big.length < s.stopMerging
  · simp only [hd, decide_True, if_true]
    by_cases hne : s.big.length ≠ 0
    · simp only [hne, if_true, ne_eq, not_false_eq_true]
      exact sorted_mergeLoop _ _ _ (fun e he => (hwf.2.2 e he).1)
        (fun e he => (hwf.2.1 e ((hs.perm _).subset he)).1) hb (hs.sorted _)
        (by rw [(hs.perm _).length_eq])
    · simp only [hne, if_false]
      exact hs.sorted _
  · simp only [hd, decide_False, Bool.false_eq_true, if_false]
    exact hb

/-! ## Sortedness of `big` and completeness of the matching loop -/

/-- C11: sortedness of `big` is an invariant of `expand`. For every stage whose
`big` is sorted ascending by `buf` under the bytewise comparison of the code, and
every inbox, target and `stopMerging`, `big` is sorted ascending after `expand`,
whatever `expand` returns (the empty set or a final-stage match); and the empty
`big` of a freshly constructed stage is sorted. -/
theorem expand_big_sorted (sort : List Elem → List Elem) (hs : IsStdSort sort) (s : Stage)
    (outbox : List Elem) (hwf : s.WF) (hb : SortedByBuf s.big) :
    SortedByBuf (s.expand sort outbox).stage.big ∧
    (∀ (target : List Nat) (stageNum stopMerging : Nat),
      SortedByBuf (Stage.new target stageNum stopMerging).big) := by
  refine ⟨?_, fun _ _ _ => List.Pairwise.nil⟩
  rw [expand_big]
  exact sorted_mergedBig sort hs s hwf hb

theorem expand_big_sorted_witness :
    mergeStage.WF ∧ SortedByBuf mergeStage.big ∧
    (SortedByBuf (mergeStage.expand insertSort []).stage.big ∧
      (∀ (target : List Nat) (stageNum stopMerging : Nat),
        SortedByBuf (Stage.new target stageNum stopMerging).big)) ∧
    (mergeStage.expand insertSort []).stage.big
      = [⟨sampleBuf, 3⟩, ⟨xBuf, 1⟩, ⟨yBuf, 2⟩, ⟨yBuf, 4⟩] :=
  ⟨by decide, by decide,
    expand_big_sorted insertSort insertSort_isStdSort mergeStage [] (by decide) (by decide),
    by decide⟩

theorem setInsert_ne_nil (x : Nat) : ∀ (l : List Nat), setInsert x l ≠ []
  | [] => by simp [setInsert]
  | y :: ys => by
    simp only [setInsert]
    split
    · simp
    · split <;> simp

/-- C20: the matching loop never misses a colliding prefix entirely. For `big`
and `inboxNegs` of 32-byte elements, both sorted ascending bytewise, and every
stageNum `S` (at most 7 in the program): if some element of `big` and some element of `inboxNegs`
share their first `4 * (S + 1)` bytes, the loop reports at least one match (a
final stage returns an id set, a non-final stage appends at least one record and
one outbox element); the loop ends within `big.size() + inboxNegs.size()`
iterations (allowing more changes nothing). Hence, for a final stage with sorted
`big`, `expand` returns a non-empty set if and only if an element of the merged
`big` and the negation of an inbox element share their first `4 * (S + 1)` bytes. -/
theorem walk_complete (target : List Nat) (S : Nat) (bigs negs : List Elem)
    (st : WalkState)
    (hwb : ∀ e ∈ bigs, Bytes32 e.buf) (hwn : ∀ e ∈ negs, Bytes32 e.buf)
    (hsb : SortedByBuf bigs) (hsn : SortedByBuf negs) :
    ((∃ a ∈ bigs, ∃ b ∈ negs, a.buf.take (4 * (S + 1)) = b.buf.take (4 * (S + 1))) →
      (walk target S true (bigs.length + negs.length) bigs negs st).1 ≠ none ∧
      (walk target S false (bigs.length + negs.length) bigs negs st).2.found.length
        > st.found.length ∧
      (walk target S false (bigs.length + negs.length) bigs negs st).2.outbox.length
        > st.outbox.length) ∧
    (∀ (fin : Bool) (fuel : Nat), bigs.length + negs.length ≤ fuel →
      walk target S fin fuel bigs negs st
        = walk target S fin (bigs.length + negs.length) bigs negs st) ∧
    (∀ (sort : List Elem → List Elem) (s : Stage) (outbox : List Elem),
      IsStdSort sort → s.WF → SortedByBuf s.big → s.isFinalStage = true → s.stageNum = S →
      ((s.expand sort outbox).ids ≠ [] ↔
        ∃ a ∈ (s.expand sort outbox).stage.big, ∃ b ∈ s.inbox,
          a.buf.take (4 * (S + 1)) = (b.negateAndAdd s.target).buf.take (4 * (S + 1)))) := by
  refine ⟨?_, fun fin fuel h => walk_fuel target S fin fuel bigs negs st h, ?_⟩
  · rintro ⟨a, ha, b, hb, hab⟩
    have hm : isMatch S a b = true := by
      rw [isMatch_iff S a b ((hwb a ha).1.trans (hwn b hb).1.symm), Nat.mul_comm]
      exact hab
    have hne := walkMatches_complete S _ bigs negs (le_refl _) (fun e he => (hwb e he).1)
      (fun e he => (hwn e he).1) hsb hsn ⟨a, ha, b, hb, hm⟩
    rw [walk_final_matches, walk_nonfinal_matches]
    obtain ⟨m, ms, hms⟩ := List.exists_cons_of_ne_nil hne
    rw [hms]
    simp [recordsOf, itemsOf]
  · intro sort s outbox hs hwf hsorted hfin hSn
    subst hSn
    have hbw : ∀ e ∈ s.mergedBig sort, Bytes32 e.buf := by
      intro e he
      rcases mem_mergedBig sort hs s e he with h | h
      · exact hwf.2.2 e h
      · exact hwf.2.1 e h
    have hnw : ∀ e ∈ s.sortedNegs sort, Bytes32 e.buf := by
      intro e he
      obtain ⟨b, hb, rfl⟩ := mem_sortedNegs sort hs s e he
      exact negateAndAdd_bytes32 b s.target (hwf.2.1 b hb) hwf.1
    constructor
    · intro hne
      obtain ⟨_, _, _, hids⟩ := expand_final sort hs s outbox hfin
      rcases hids with h | ⟨a, ha, b, hb, hm, _⟩
      · exact absurd h hne
      · refine ⟨a, ha, b, hb, ?_⟩
        rw [expand_big] at ha
        rw [isMatch_iff _ a _ ((hbw a ha).1.trans
          (negateAndAdd_bytes32 b s.target (hwf.2.1 b hb) hwf.1).1.symm), Nat.mul_comm] at hm
        exact hm
    · rintro ⟨a, ha, b, hb, hab⟩
      rw [expand_big] at ha
      have hbn : b.negateAndAdd s.target ∈ s.sortedNegs sort :=
        (hs.perm _).symm.subset (List.mem_map.mpr ⟨b, hb, rfl⟩)
      have hm : isMatch s.stageNum a (b.negateAndAdd s.target) = true := by
        rw [isMatch_iff _ a _ ((hbw a ha).1.trans (hnw _ hbn).1.symm), Nat.mul_comm]
        exact hab
      have hne := walkMatches_complete s.stageNum _ (s.mergedBig sort) (s.sortedNegs sort)
        (le_refl _) (fun e he => (hbw e he).1) (fun e he => (hnw e he).1)
        (sorted_mergedBig sort hs s hwf hsorted) (hs.sorted _) ⟨a, ha, _, hbn, hm⟩
      obtain ⟨h1, _⟩ := expand_unfold sort s outbox
      rw [h1]
      unfold Stage.expandWalk
      rw [hfin, walk_final_matches]
      obtain ⟨m, ms, hms⟩ := List.exists_cons_of_ne_nil hne
      rw [hms]
      simp only [List.head?_cons, Option.map_some', Option.getD_some]
      exact setInsert_ne_nil _ _

theorem walk_complete_witness :
    (∀ e ∈ walkBig, Bytes32 e.buf) ∧ (∀ e ∈ walkNegs, Bytes32 e.buf) ∧
    SortedByBuf walkBig ∧ SortedByBuf walkNegs ∧
    (∃ a ∈ walkBig, ∃ b ∈ walkNegs, a.buf.take (4 * (0 + 1)) = b.buf.take (4 * (0 + 1))) ∧
    ((walk onesBuf 0 true (walkBig.length + walkNegs.length) walkBig walkNegs walkStart).1
        ≠ none ∧
      (walk onesBuf 0 false (walkBig.length + walkNegs.length) walkBig walkNegs
        walkStart).2.found.length > walkStart.found.length ∧
      (walk onesBuf 0 false (walkBig.length + walkNegs.length) walkBig walkNegs
        walkStart).2.outbox.length > walkStart.outbox.length) ∧
    walk onesBuf 0 false 50 walkBig walkNegs walkStart
      = walk onesBuf 0 false (walkBig.length + walkNegs.length) walkBig walkNegs walkStart ∧
    ((sampleFinalStage.expand insertSort []).ids ≠ [] ↔
      ∃ a ∈ (sampleFinalStage.expand insertSort []).stage.big, ∃ b ∈ sampleFinalStage.inbox,
        a.buf.take (4 * (0 + 1))
          = (b.negateAndAdd sampleFinalStage.target).buf.take (4 * (0 + 1))) := by
  have h := walk_complete onesBuf 0 walkBig walkNegs walkStart (by decide) (by decide)
    (by decide) (by decide)
  exact ⟨by decide, by decide, by decide, by decide, by decide, h.1 (by decide),
    h.2.1 false 50 (by decide),
    h.2.2 insertSort sampleFinalStage [] insertSort_isStdSort (by decide) (by decide)
      (by decide) (by decide)⟩

/-! ## Sequences of `expand` calls -/

theorem recordsOf_ids : ∀ (c : Nat) (ms : List (Elem × Elem)),
    (recordsOf c ms).map FoundElem.localId = (List.range ms.length).map (fun j => c + j)
  | _, [] => rfl
  | c, m :: ms => by
    rw [List.length_cons, range_succ_map, ← recordsOf_ids (c + 1) ms]
    simp only [recordsOf, List.map_cons]

theorem expand_isFinalStage (sort : List Elem → List Elem) (s : Stage) (outbox : List Elem) :
    (s.expand sort outbox).stage.isFinalStage = s.isFinalStage ∧
    (s.expand sort outbox).stage.stopMerging = s.stopMerging := by
  simp only [Stage.expand]
  split <;> exact ⟨rfl, rfl⟩

set_option maxRecDepth 100000 in
/-- C12, at an input where it fails: the driver on the toy hash with three
stages. Stage 0 is constructed by the second call of `run` and gets four records
there; the driver clears its `found` and keeps its `currId = 5`; the third call
of `run` expands it again, and at the end `found` holds the records 5 and 6
with `currId = 7`: the sequence does not start at 1 and `currId` is not
`found.size() + 1`. -/
theorem found_numbering_after_clear :
    (driverAt toyHash toyRun toyTarget3 3 toyGen 1).map
        (fun st => st.g.stages.length) = some 0 ∧
    (driverAt toyHash toyRun toyTarget3 3 toyGen 2).map
        (fun st => ((st.g.stage 0).isFinalStage, (st.g.stage 0).found, (st.g.stage 0).currId))
      = some (false, [], 5) ∧
    (driver toyHash insertSort 5 toyTarget3 3 2 1000).map
        (fun st => ((st.g.stage 0).isFinalStage,
          (st.g.stage 0).found.map FoundElem.localId, (st.g.stage 0).currId))
      = some (false, [5, 6], 7) := by
  decide

theorem stageOps_isFinalStage (sort : List Elem → List Elem) (ops : List StageOp) :
    ∀ s : Stage, (stageOps sort s ops).isFinalStage = s.isFinalStage := by
  induction ops with
  | nil => intro s; rfl
  | cons op ops ih =>
    intro s
    cases op with
    | expand c =>
      simp only [stageOps]
      rw [ih, (expand_isFinalStage sort _ _).1]
    | clearFound =>
      simp only [stageOps]
      rw [ih]

/-- The invariant of the numbering along a sequence of `expand` calls and
`found->clear()`: the records appended so far carry the ids 1, 2, ...,
`currId` is the next id, and `found` is the end of the list of appended records. -/
theorem stageOps_numbering (sort : List Elem → List Elem) (hs : IsStdSort sort)
    (ops : List StageOp) :
    ∀ (s : Stage) (log : List FoundElem), s.isFinalStage = false →
      log.map FoundElem.localId = (List.range log.length).map (fun k => k + 1) →
      s.currId = log.length + 1 →
      (∃ pre, log = pre ++ s.found) →
      (log ++ appendedBy sort s ops).map FoundElem.localId
        = (List.range (log ++ appendedBy sort s ops).length).map (fun k => k + 1) ∧
      (stageOps sort s ops).currId = (log ++ appendedBy sort s ops).length + 1 ∧
      (∃ pre, log ++ appendedBy sort s ops = pre ++ (stageOps sort s ops).found) ∧
      ((∀ op ∈ ops, op ≠ StageOp.clearFound) → s.found = log →
        (stageOps sort s ops).found = log ++ appendedBy sort s ops) := by
  induction ops with
  | nil =>
    intro s log _ h1 h2 h3
    simp only [appendedBy, stageOps, List.append_nil]
    exact ⟨h1, h2, h3, fun _ h => h⟩
  | cons op ops ih =>
    intro s log hfin h1 h2 h3
    cases op with
    | expand c =>
      obtain ⟨ms, _, _, hf, _, hc⟩ := expand_nonfinal sort hs
        ({ s with target := c.target, inbox := c.inbox } : Stage) c.outbox hfin
      have hfinal := (expand_isFinalStage sort
        ({ s with target := c.target, inbox := c.inbox } : Stage) c.outbox).1
      simp only [appendedBy, stageOps]
      generalize (({ s with target := c.target, inbox := c.inbox } : Stage).expand sort
        c.outbox).stage = s1 at hf hc hfinal ⊢
      have hf1 : s1.found = s.found ++ recordsOf s.currId ms := hf
      have hc1 : s1.currId = s.currId + ms.length := hc
      have hfin1 : s1.isFinalStage = false := hfinal.trans hfin
      have hlog : (log ++ recordsOf s.currId ms).map FoundElem.localId
          = (List.range (log ++ recordsOf s.currId ms).length).map (fun k => k + 1) := by
        rw [List.map_append, h1, recordsOf_ids, List.length_append, recordsOf_length,
          List.range_add, List.map_append, List.map_map, h2]
        congr 1
        apply List.map_congr_left
        intro j _
        simp only [Function.comp_apply]
        omega
      obtain ⟨pre, hpre⟩ := h3
      obtain ⟨e1, e2, e3, e4⟩ := ih s1 (log ++ recordsOf s.currId ms) hfin1 hlog
        (by rw [hc1, List.length_append, recordsOf_length, h2]; omega)
        ⟨pre, by rw [hf1, hpre, List.append_assoc]⟩
      rw [hf1, List.drop_left, ← List.append_assoc]
      refine ⟨e1, e2, e3, ?_⟩
      intro hno hfl
      exact e4 (fun op hop => hno op (List.mem_cons_of_mem _ hop)) (by rw [hf1, hfl])
    | clearFound =>
      obtain ⟨e1, e2, e3, _⟩ := ih ({ s with found := [] } : Stage) log hfin h1 h2
        ⟨log, (List.append_nil log).symm⟩
      simp only [appendedBy, stageOps]
      refine ⟨e1, e2, e3, ?_⟩
      intro hno _
      exact absurd rfl (hno StageOp.clearFound (List.mem_cons_self _ _))

/-- The ids of the end of a list numbered 1, 2, ... . -/
theorem suffix_ids (log pre found : List FoundElem) (h : log = pre ++ found)
    (hids : log.map FoundElem.localId = (List.range log.length).map (fun k => k + 1)) :
    found.map FoundElem.localId
      = (List.range found.length).map (fun k => log.length - found.length + 1 + k) := by
  subst h
  rw [List.map_append, List.length_append, List.range_add, List.map_append, List.map_map] at hids
  have hlen : (List.map FoundElem.localId pre).length
      = (List.map (fun k => k + 1) (List.range pre.length)).length := by
    simp only [List.length_map, List.length_range]
  have h2 := (List.append_inj hids hlen).2
  rw [h2, List.length_append, Nat.add_sub_cancel]
  apply List.map_congr_left
  intro j _
  simp only [Function.comp_apply]
  omega

/-- C12, amended: for a freshly constructed (hence non-final) stage and every
sequence of `expand` calls on it, with the driver's `found->clear()` anywhere
between them, the k-th record appended since construction, counting from 1, has
`localId = k`, and `currId` is the number of records appended so far plus 1
after every `expand`; `found` holds the last `found.size()` of the appended
records, so its `localId` values are the strictly increasing consecutive
sequence `currId - found.size(), ..., currId - 1`. As long as `found` has not
been cleared, it holds all appended records: the sequence starts at 1 and
`currId = found.size() + 1`. -/
theorem found_numbering (sort : List Elem → List Elem) (hs : IsStdSort sort)
    (target : List Nat) (stageNum stopMerging : Nat) (ops : List StageOp) :
    (appendedBy sort (Stage.new target stageNum stopMerging) ops).map FoundElem.localId
      = (List.range (appendedBy sort (Stage.new target stageNum stopMerging) ops).length).map
          (fun k => k + 1) ∧
    (stageOps sort (Stage.new target stageNum stopMerging) ops).currId
      = (appendedBy sort (Stage.new target stageNum stopMerging) ops).length + 1 ∧
    (stageOps sort (Stage.new target stageNum stopMerging) ops).found
      = (appendedBy sort (Stage.new target stageNum stopMerging) ops).drop
          ((appendedBy sort (Stage.new target stageNum stopMerging) ops).length
            - (stageOps sort (Stage.new target stageNum stopMerging) ops).found.length) ∧
    (stageOps sort (Stage.new target stageNum stopMerging) ops).found.length
      < (stageOps sort (Stage.new target stageNum stopMerging) ops).currId ∧
    (stageOps sort (Stage.new target stageNum stopMerging) ops).found.map FoundElem.localId
      = (List.range (stageOps sort (Stage.new target stageNum stopMerging) ops).found.length).map
          (fun k => (stageOps sort (Stage.new target stageNum stopMerging) ops).currId
            - (stageOps sort (Stage.new target stageNum stopMerging) ops).found.length + k) ∧
    (stageOps sort (Stage.new target stageNum stopMerging) ops).found.Pairwise
      (fun F G => F.localId < G.localId) ∧
    ((∀ op ∈ ops, op ≠ StageOp.clearFound) →
      (stageOps sort (Stage.new target stageNum stopMerging) ops).found
        = appendedBy sort (Stage.new target stageNum stopMerging) ops ∧
      (stageOps sort (Stage.new target stageNum stopMerging) ops).found.map FoundElem.localId
        = (List.range
            (stageOps sort (Stage.new target stageNum stopMerging) ops).found.length).map
            (fun k => k + 1) ∧
      (stageOps sort (Stage.new target stageNum stopMerging) ops).currId
        = (stageOps sort (Stage.new target stageNum stopMerging) ops).found.length + 1) := by
  obtain ⟨h1, h2, ⟨pre, h3⟩, h4⟩ := stageOps_numbering sort hs ops
    (Stage.new target stageNum stopMerging) [] rfl rfl rfl ⟨[], rfl⟩
  simp only [List.nil_append] at h1 h2 h3 h4
  generalize appendedBy sort (Stage.new target stageNum stopMerging) ops = log at h1 h2 h3 h4 ⊢
  generalize stageOps sort (Stage.new target stageNum stopMerging) ops = s at h2 h3 h4 ⊢
  have hlen : log.length = pre.length + s.found.length := by
    rw [h3, List.length_append]
  have hids := suffix_ids log pre s.found h3 h1
  have hids2 : s.found.map FoundElem.localId
      = (List.range s.found.length).map (fun k => s.currId - s.found.length + k) := by
    rw [hids]
    apply List.map_congr_left
    intro j _
    omega
  refine ⟨h1, h2, ?_, by omega, hids2, ?_, ?_⟩
  · have hd : log.length - s.found.length = pre.length := by omega
    rw [hd, h3, List.drop_left]
  · rw [← List.pairwise_map (f := FoundElem.localId) (R := fun a b => a < b), hids2]
    exact (List.pairwise_lt_range _).map _ (fun a b h => by omega)
  · intro hno
    have hfl := h4 hno rfl
    refine ⟨hfl, ?_, by rw [h2, hfl]⟩
    rw [hfl]
    exact h1

theorem found_numbering_witness :
    IsStdSort insertSort ∧
    appendedBy insertSort (Stage.new onesBuf 0 100) clearedOps
      = [⟨1, 1, 2⟩, ⟨2, 2, 1⟩, ⟨3, 1, 3⟩] ∧
    (stageOps insertSort (Stage.new onesBuf 0 100) clearedOps).found = [⟨3, 1, 3⟩] ∧
    (stageOps insertSort (Stage.new onesBuf 0 100) clearedOps).currId = 4 ∧
    (stageOps insertSort (Stage.new onesBuf 0 100) clearedOps).found.map FoundElem.localId
      = (List.range (stageOps insertSort (Stage.new onesBuf 0 100) clearedOps).found.length).map
          (fun k => (stageOps insertSort (Stage.new onesBuf 0 100) clearedOps).currId
            - (stageOps insertSort (Stage.new onesBuf 0 100) clearedOps).found.length + k) :=
  ⟨insertSort_isStdSort, by decide, by decide, by decide,
    (found_numbering insertSort insertSort_isStdSort onesBuf 0 100 clearedOps).2.2.2.2.1⟩

/-! ## The merge limit -/

/-- C13, at an input where it fails: a final stage whose `big` has reached
`stopMerging`. The matching loop runs on the unchanged `big` and finds a match,
but no record is appended to `found` and no element to the outbox: the ids of
the match are returned instead. -/
theorem stop_merging_final_appends_nothing :
    stopFinalStage.stopMerging ≤ stopFinalStage.big.length ∧
    (stopFinalStage.expand insertSort []).stage.big = stopFinalStage.big ∧
    walkMatches stopFinalStage.stageNum
        (stopFinalStage.big.length + (stopFinalStage.sortedNegs insertSort).length)
        stopFinalStage.big (stopFinalStage.sortedNegs insertSort)
      = [(⟨xBuf, 1⟩, Elem.negateAndAdd ⟨yBuf, 2⟩ stopFinalStage.target)] ∧
    (stopFinalStage.expand insertSort []).stage.found = stopFinalStage.found ∧
    (stopFinalStage.expand insertSort []).outbox = [] ∧
    (stopFinalStage.expand insertSort []).ids = [1, 2] := by
  decide

theorem mergedBig_of_stop (sort : List Elem → List Elem) (s : Stage)
    (h : s.stopMerging ≤ s.big.length) : s.mergedBig sort = s.big := by
  unfold Stage.mergedBig
  have hd : ¬ s.big.length < s.stopMerging := by omega
  simp only [hd, decide_False, Bool.false_eq_true, if_false]

theorem length_mergedBig (sort : List Elem → List Elem) (hs : IsStdSort sort) (s : Stage)
    (h : s.big.length < s.stopMerging) :
    (s.mergedBig sort).length = s.big.length + s.inbox.length := by
  unfold Stage.mergedBig Stage.sortedInbox
  simp only [h, decide_True, if_true]
  by_cases hne : s.big.length ≠ 0
  · simp only [hne, if_true, ne_eq, not_false_eq_true]
    unfold stdMerge
    rw [length_mergeLoop, (hs.perm _).length_eq]
  · simp only [hne, if_false]
    rw [(hs.perm _).length_eq]
    omega

/-- C13, amended: for every stage with `big.size() >= stopMerging` when `expand`
starts, `expand` leaves `big` unchanged and still runs the matching loop of
`big` against the sorted negated inbox; a non-final stage appends a `found`
record and an outbox element for every match the loop finds, while a final stage
appends nothing and returns the ids of the first match. When
`big.size() < stopMerging` at entry, `big.size()` afterwards is the old
`big.size() + inbox.size()`. -/
theorem expand_stop_merging (sort : List Elem → List Elem) (hs : IsStdSort sort) (s : Stage)
    (outbox : List Elem) :
    (s.stopMerging ≤ s.big.length →
      (s.expand sort outbox).stage.big = s.big ∧
      (s.isFinalStage = false →
        (s.expand sort outbox).stage.found = s.found ++ recordsOf s.currId
          (walkMatches s.stageNum (s.big.length + (s.sortedNegs sort).length) s.big
            (s.sortedNegs sort)) ∧
        (s.expand sort outbox).outbox = outbox ++ itemsOf s.target s.currId
          (walkMatches s.stageNum (s.big.length + (s.sortedNegs sort).length) s.big
            (s.sortedNegs sort))) ∧
      (s.isFinalStage = true →
        (s.expand sort outbox).stage.found = s.found ∧
        (s.expand sort outbox).outbox = outbox ∧
        (s.expand sort outbox).ids =
          ((walkMatches s.stageNum (s.big.length + (s.sortedNegs sort).length) s.big
            (s.sortedNegs sort)).head?.map
              (fun m => setInsert m.2.id (setInsert m.1.id []))).getD [])) ∧
    (s.big.length < s.stopMerging →
      (s.expand sort outbox).stage.big.length = s.big.length + s.inbox.length) := by
  obtain ⟨h1, h2, h3, _⟩ := expand_unfold sort s outbox
  constructor
  · intro hstop
    have hb := mergedBig_of_stop sort s hstop
    have hw : s.expandWalk sort outbox = walk s.target s.stageNum s.isFinalStage
        (s.big.length + (s.sortedNegs sort).length) s.big (s.sortedNegs sort)
        ⟨s.found, outbox, s.currId⟩ := by
      unfold Stage.expandWalk
      rw [hb]
    rw [hw] at h1 h2 h3
    refine ⟨by rw [expand_big, hb], ?_, ?_⟩
    · intro hfin
      rw [hfin, walk_nonfinal_matches] at h2 h3
      exact ⟨h2, h3⟩
    · intro hfin
      rw [hfin, walk_final_matches] at h1 h2 h3
      exact ⟨h2, h3, h1⟩
  · intro hlt
    rw [expand_big, length_mergedBig sort hs s hlt]

theorem expand_stop_merging_witness :
    IsStdSort insertSort ∧ stopStage.stopMerging ≤ stopStage.big.length ∧
    stopStage.isFinalStage = false ∧
    ((stopStage.expand insertSort []).stage.big = stopStage.big ∧
      (stopStage.expand insertSort []).stage.found = [⟨1, 1, 2⟩] ∧
      (stopStage.expand insertSort []).outbox = [⟨leBytes 32 (13 * 2 ^ 32), 1⟩]) ∧
    mergeStage.big.length < mergeStage.stopMerging ∧
    (mergeStage.expand insertSort []).stage.big.length
      = mergeStage.big.length + mergeStage.inbox.length := by
  have h := expand_stop_merging insertSort insertSort_isStdSort stopStage []
  have h2 := expand_stop_merging insertSort insertSort_isStdSort mergeStage []
  exact ⟨insertSort_isStdSort, by decide, by decide,
    ⟨(h.1 (by decide)).1, by decide, by decide⟩, by decide, h2.2 (by decide)⟩


/-- C14, at an input where it fails: a stage constructed with `stopMerging = 1`
merges the whole two-element inbox of its first `expand` into the empty `big`,
so `big.size()` is 2 afterwards, and stays 2 after the second call. -/
theorem merge_limit_exceeded :
    (Stage.new onesBuf 0 1).stopMerging = 1 ∧
    (expandSeq insertSort (Stage.new onesBuf 0 1) (twoCalls.take 1)).big.length = 2 ∧
    (expandSeq insertSort (Stage.new onesBuf 0 1) twoCalls).big.length = 2 ∧
    ¬ (expandSeq insertSort (Stage.new onesBuf 0 1) twoCalls).big.length
        ≤ (Stage.new onesBuf 0 1).stopMerging := by
  decide

theorem expandSeq_stopMerging (sort : List Elem → List Elem) (calls : List ExpandCall) :
    ∀ s : Stage, (expandSeq sort s calls).stopMerging = s.stopMerging := by
  induction calls with
  | nil => intro s; rfl
  | cons c cs ih =>
    intro s
    simp only [expandSeq]
    rw [ih, (expand_isFinalStage sort _ _).2]

/-- One `expand` with an inbox of at most `B` elements keeps `big` within
`stopMerging - 1 + B` elements. -/
theorem expand_big_bound (sort : List Elem → List Elem) (hs : IsStdSort sort) (s : Stage)
    (outbox : List Elem) (B : Nat) (hin : s.inbox.length ≤ B)
    (hb : s.big.length ≤ s.stopMerging - 1 + B) :
    (s.expand sort outbox).stage.big.length ≤ s.stopMerging - 1 + B := by
  rw [expand_big]
  by_cases h : s.big.length < s.stopMerging
  · rw [length_mergedBig sort hs s h]
    omega
  · rw [mergedBig_of_stop sort s (by omega)]
    exact hb

/-- C14, amended: the merge limit is a threshold for merging, not a cap. For
every stage constructed with `stopMerging = MERGELIMIT` and every sequence of
`expand` calls whose inboxes hold at most `B` elements each, `stopMerging` keeps
its value and `big.size()` never exceeds `stopMerging - 1 + B`; an `expand`
entered with `big.size() >= stopMerging` leaves `big.size()` as it is. -/
theorem merge_limit_bound (sort : List Elem → List Elem) (hs : IsStdSort sort)
    (target : List Nat) (stageNum mergeLimit B : Nat) (calls : List ExpandCall)
    (hB : ∀ c ∈ calls, c.inbox.length ≤ B) :
    (expandSeq sort (Stage.new target stageNum mergeLimit) calls).stopMerging = mergeLimit ∧
    (expandSeq sort (Stage.new target stageNum mergeLimit) calls).big.length
      ≤ mergeLimit - 1 + B ∧
    ∀ c : ExpandCall,
      mergeLimit ≤ (expandSeq sort (Stage.new target stageNum mergeLimit) calls).big.length →
      (expandSeq sort (Stage.new target stageNum mergeLimit) (calls ++ [c])).big.length
        = (expandSeq sort (Stage.new target stageNum mergeLimit) calls).big.length := by
  have key : ∀ (calls : List ExpandCall) (s : Stage), (∀ c ∈ calls, c.inbox.length ≤ B) →
      s.big.length ≤ s.stopMerging - 1 + B →
      (expandSeq sort s calls).big.length ≤ s.stopMerging - 1 + B := by
    intro calls
    induction calls with
    | nil => intro s _ h; exact h
    | cons c cs ih =>
      intro s hc h
      simp only [expandSeq]
      have h1 := expand_big_bound sort hs ({ s with target := c.target, inbox := c.inbox } : Stage)
        c.outbox B (hc c (List.mem_cons_self _ _)) h
      have h2 := ih (({ s with target := c.target, inbox := c.inbox } : Stage).expand sort
        c.outbox).stage (fun d hd => hc d (List.mem_cons_of_mem _ hd))
      rw [(expand_isFinalStage sort _ _).2] at h2
      exact h2 h1
  have snoc : ∀ (calls : List ExpandCall) (s : Stage) (c : ExpandCall),
      expandSeq sort s (calls ++ [c])
        = (({ expandSeq sort s calls with target := c.target, inbox := c.inbox } : Stage).expand
            sort c.outbox).stage := by
    intro calls
    induction calls with
    | nil => intro s c; rfl
    | cons d ds ih =>
      intro s c
      show expandSeq sort _ (ds ++ [c]) = _
      rw [ih]
      rfl
  refine ⟨expandSeq_stopMerging sort calls _, ?_, ?_⟩
  · exact key calls (Stage.new target stageNum mergeLimit) hB (Nat.zero_le _)
  · intro c hge
    rw [snoc, expand_big, mergedBig_of_stop]
    show (expandSeq sort (Stage.new target stageNum mergeLimit) calls).stopMerging ≤ _
    rw [expandSeq_stopMerging]
    exact hge

theorem merge_limit_bound_witness :
    IsStdSort insertSort ∧ (∀ c ∈ twoCalls, c.inbox.length ≤ 2) ∧
    (expandSeq insertSort (Stage.new onesBuf 0 1) twoCalls).big.length = 2 ∧
    ((expandSeq insertSort (Stage.new onesBuf 0 1) twoCalls).stopMerging = 1 ∧
    (expandSeq insertSort (Stage.new onesBuf 0 1) twoCalls).big.length ≤ 1 - 1 + 2 ∧
    ∀ c : ExpandCall,
      1 ≤ (expandSeq insertSort (Stage.new onesBuf 0 1) twoCalls).big.length →
      (expandSeq insertSort (Stage.new onesBuf 0 1) (twoCalls ++ [c])).big.length
        = (expandSeq insertSort (Stage.new onesBuf 0 1) twoCalls).big.length) :=
  ⟨insertSort_isStdSort, by decide, by decide,
    merge_limit_bound insertSort insertSort_isStdSort onesBuf 0 1 2 twoCalls (by decide)⟩


/-! ## One iteration of `run` -/

/-- The call `expandAt` leaves `currSeed`, `batchSize` and, in every stage but
the expanded one, `big` and `found` as they are. -/
theorem expandAt_frame (sort : List Elem → List Elem) (g : Generator) (i : Nat) :
    (g.expandAt sort i).2.currSeed = g.currSeed ∧
    (g.expandAt sort i).2.batchSize = g.batchSize ∧
    ∀ j, j ≠ i → ((g.expandAt sort i).2.stage j).big = (g.stage j).big ∧
      ((g.expandAt sort i).2.stage j).found = (g.stage j).found := by
  have hg : (g.expandAt sort i).2.currSeed = g.currSeed ∧
      (g.expandAt sort i).2.batchSize = g.batchSize ∧
      (g.expandAt sort i).2.stages = (g.stages.set i
        ((g.stage i).expand sort (g.stage (i + 1)).inbox).stage).set (i + 1)
        ({ g.stage (i + 1) with
          inbox := ((g.stage i).expand sort (g.stage (i + 1)).inbox).outbox } : Stage) := by
    simp only [Generator.expandAt]
    split <;> exact ⟨rfl, rfl, rfl⟩
  obtain ⟨hg1, hg2, hg3⟩ := hg
  refine ⟨hg1, hg2, ?_⟩
  intro j hj
  simp only [Generator.stage, hg3, List.getD_eq_getElem?_getD, List.getElem?_set]
  by_cases h1 : i + 1 = j
  · subst h1
    by_cases h2 : i + 1 < g.stages.length
    · simp [h2]
    · have h3 : g.stages.length ≤ i + 1 := by omega
      simp [h2, List.getElem?_eq_none h3]
  · have h2 : ¬ i = j := fun h => hj h.symm
    simp [h1, h2]

/-- The stage walk from index `n` downwards expands the highest stage of
`1..n` whose inbox is non-empty, or stage 0, which is first filled with
`batchSize` fresh hashes when its inbox is empty. -/
theorem walkStages_spec (H : Nat → List Nat) (sort : List Elem → List Elem) (g : Generator)
    (n : Nat) :
    ∃ i, i ≤ n ∧ (∀ j, i < j → j ≤ n → (g.stage j).inbox.length = 0) ∧
      (0 < i → 0 < (g.stage i).inbox.length) ∧
      ((0 < i ∨ 0 < (g.stage 0).inbox.length) → g.walkStages H sort n = g.expandAt sort i) ∧
      (i = 0 → (g.stage 0).inbox.length = 0 →
        g.walkStages H sort n =
          Generator.expandAt sort
            { g with
              currSeed := g.currSeed + g.batchSize,
              stages := g.stages.set 0
                { g.stage 0 with
                  inbox := (List.range g.batchSize).map
                    (fun k => ⟨H (g.currSeed + k), g.currSeed + k⟩) } } 0) := by
  induction n with
  | zero =>
    refine ⟨0, le_refl _, fun j h1 h2 => by omega, fun h => by omega, ?_, ?_⟩
    · intro h
      have h0 : ¬ (g.stage 0).inbox.length = 0 := by omega
      simp only [Generator.walkStages, h0, if_false]
    · intro _ h0
      simp only [Generator.walkStages, h0, if_true, Generator.populateHashes]
  | succ n ih =>
    by_cases hpos : (g.stage (n + 1)).inbox.length > 0
    · refine ⟨n + 1, le_refl _, fun j h1 h2 => by omega, fun _ => hpos, ?_, fun h => by omega⟩
      intro _
      simp only [Generator.walkStages, hpos, if_true]
    · obtain ⟨i, h1, h2, h3, h4, h5⟩ := ih
      refine ⟨i, by omega, ?_, h3, ?_, ?_⟩
      · intro j hj1 hj2
        by_cases hj : j = n + 1
        · subst hj; omega
        · exact h2 j hj1 (by omega)
      · intro h
        simp only [Generator.walkStages, hpos, if_false]
        exact h4 h
      · intro hi h0
        simp only [Generator.walkStages, hpos, if_false]
        exact h5 hi h0


/-- Filling the inbox of stage 0 leaves `big` and `found` of every stage as they are. -/
theorem fill_inbox_frame (g : Generator) (seed : Nat) (inbox : List Elem) (j : Nat) :
    (Generator.stage
      { g with
        currSeed := seed,
        stages := g.stages.set 0 { g.stage 0 with inbox := inbox } } j).big = (g.stage j).big ∧
    (Generator.stage
      { g with
        currSeed := seed,
        stages := g.stages.set 0 { g.stage 0 with inbox := inbox } } j).found
      = (g.stage j).found := by
  simp only [Generator.stage, List.getD_eq_getElem?_getD, List.getElem?_set]
  by_cases h1 : 0 = j
  · subst h1
    by_cases h2 : 0 < g.stages.length
    · simp [h2]
    · have h3 : g.stages.length ≤ 0 := by omega
      simp [h2, List.getElem?_eq_none h3]
  · simp [h1]

/-- C19: in every iteration of the outer loop of `Generator::run` (the stage walk
from `numStages - 1` downwards, `numStages >= 1`) exactly one stage `i` is
expanded: the highest-indexed stage among `1..numStages-1` whose inbox is
non-empty, or stage 0 when all of those inboxes are empty; `big` and `found` of
every other stage stay as they are. `batchSize` fresh hashes with the ids
`currSeed .. currSeed+batchSize-1` are generated into the inbox of stage 0, and
`currSeed` is advanced by `batchSize`, when every inbox including that of stage 0
is empty; in every other iteration nothing is generated and `currSeed` keeps its
value. -/
theorem run_iteration (H : Nat → List Nat) (sort : List Elem → List Elem) (g : Generator)
    (numStages : Nat) (hn : 1 ≤ numStages) :
    ∃ i, i ≤ numStages - 1 ∧
      (∀ j, i < j → j ≤ numStages - 1 → (g.stage j).inbox.length = 0) ∧
      (0 < i → 0 < (g.stage i).inbox.length) ∧
      (∀ j, j ≠ i →
        ((g.walkStages H sort (numStages - 1)).2.stage j).big = (g.stage j).big ∧
        ((g.walkStages H sort (numStages - 1)).2.stage j).found = (g.stage j).found) ∧
      ((∃ j, j ≤ numStages - 1 ∧ 0 < (g.stage j).inbox.length) →
        g.walkStages H sort (numStages - 1) = g.expandAt sort i ∧
        (g.walkStages H sort (numStages - 1)).2.currSeed = g.currSeed) ∧
      ((∀ j, j ≤ numStages - 1 → (g.stage j).inbox.length = 0) →
        i = 0 ∧
        g.walkStages H sort (numStages - 1) =
          Generator.expandAt sort
            { g with
              currSeed := g.currSeed + g.batchSize,
              stages := g.stages.set 0
                { g.stage 0 with
                  inbox := (List.range g.batchSize).map
                    (fun k => ⟨H (g.currSeed + k), g.currSeed + k⟩) } } 0 ∧
        (g.walkStages H sort (numStages - 1)).2.currSeed = g.currSeed + g.batchSize) := by
  have _ := hn
  obtain ⟨i, h1, h2, h3, h4, h5⟩ := walkStages_spec H sort g (numStages - 1)
  have hcase : (∃ j, j ≤ numStages - 1 ∧ 0 < (g.stage j).inbox.length) →
      (0 < i ∨ 0 < (g.stage 0).inbox.length) := by
    rintro ⟨j, hj1, hj2⟩
    by_cases hi : 0 < i
    · exact Or.inl hi
    · right
      by_cases hj : j = 0
      · subst hj; exact hj2
      · have := h2 j (by omega) hj1
        omega
  have hzero : (∀ j, j ≤ numStages - 1 → (g.stage j).inbox.length = 0) →
      i = 0 ∧ (g.stage 0).inbox.length = 0 := by
    intro hall
    refine ⟨?_, hall 0 (Nat.zero_le _)⟩
    by_contra hi
    have := h3 (by omega)
    have := hall i h1
    omega
  refine ⟨i, h1, h2, h3, ?_, ?_, ?_⟩
  · intro j hj
    by_cases hc : 0 < i ∨ 0 < (g.stage 0).inbox.length
    · rw [h4 hc]
      exact (expandAt_frame sort g i).2.2 j hj
    · have hi : i = 0 := by omega
      have h0 : (g.stage 0).inbox.length = 0 := by omega
      rw [h5 hi h0]
      subst hi
      obtain ⟨e1, e2⟩ := (expandAt_frame sort _ 0).2.2 j hj
      obtain ⟨f1, f2⟩ := fill_inbox_frame g (g.currSeed + g.batchSize)
        ((List.range g.batchSize).map (fun k => ⟨H (g.currSeed + k), g.currSeed + k⟩)) j
      exact ⟨e1.trans f1, e2.trans f2⟩
  · intro hex
    rw [h4 (hcase hex)]
    exact ⟨rfl, (expandAt_frame sort g i).1⟩
  · intro hall
    obtain ⟨hi, h0⟩ := hzero hall
    rw [h5 hi h0]
    exact ⟨hi, rfl, (expandAt_frame sort _ 0).1⟩

theorem run_iteration_witness :
    1 ≤ 2 ∧
    (∃ i, i ≤ 2 - 1 ∧
      (∀ j, i < j → j ≤ 2 - 1 → ((toyGen.setup 2 toyTarget).stage j).inbox.length = 0) ∧
      (0 < i → 0 < ((toyGen.setup 2 toyTarget).stage i).inbox.length) ∧
      (∀ j, j ≠ i →
        (((toyGen.setup 2 toyTarget).walkStages toyHash insertSort (2 - 1)).2.stage j).big
          = ((toyGen.setup 2 toyTarget).stage j).big ∧
        (((toyGen.setup 2 toyTarget).walkStages toyHash insertSort (2 - 1)).2.stage j).found
          = ((toyGen.setup 2 toyTarget).stage j).found) ∧
      ((∃ j, j ≤ 2 - 1 ∧ 0 < ((toyGen.setup 2 toyTarget).stage j).inbox.length) →
        (toyGen.setup 2 toyTarget).walkStages toyHash insertSort (2 - 1)
          = (toyGen.setup 2 toyTarget).expandAt insertSort i ∧
        ((toyGen.setup 2 toyTarget).walkStages toyHash insertSort (2 - 1)).2.currSeed
          = (toyGen.setup 2 toyTarget).currSeed) ∧
      ((∀ j, j ≤ 2 - 1 → ((toyGen.setup 2 toyTarget).stage j).inbox.length = 0) →
        i = 0 ∧
        (toyGen.setup 2 toyTarget).walkStages toyHash insertSort (2 - 1) =
          Generator.expandAt insertSort
            { toyGen.setup 2 toyTarget with
              currSeed := (toyGen.setup 2 toyTarget).currSeed + (toyGen.setup 2 toyTarget).batchSize,
              stages := (toyGen.setup 2 toyTarget).stages.set 0
                { (toyGen.setup 2 toyTarget).stage 0 with
                  inbox := (List.range (toyGen.setup 2 toyTarget).batchSize).map
                    (fun k => ⟨toyHash ((toyGen.setup 2 toyTarget).currSeed + k),
                      (toyGen.setup 2 toyTarget).currSeed + k⟩) } } 0 ∧
        ((toyGen.setup 2 toyTarget).walkStages toyHash insertSort (2 - 1)).2.currSeed
          = (toyGen.setup 2 toyTarget).currSeed + (toyGen.setup 2 toyTarget).batchSize)) ∧
    ((toyGen.setup 2 toyTarget).walkStages toyHash insertSort (2 - 1)).2.currSeed = 3 ∧
    (((toyGen.setup 2 toyTarget).walkStages toyHash insertSort (2 - 1)).2.stage 0).big.map Elem.id
      = [1, 2] :=
  ⟨by decide, run_iteration toyHash insertSort (toyGen.setup 2 toyTarget) 2 (by decide),
    by decide, by decide⟩


/-! ## The order of the comparator -/

/-- C16, at an input where it fails: the buffer of 1 is smaller than the buffer
of 256 as little-endian integers, yet the comparator puts the buffer of 256
first, since its byte 0 is the smaller one. -/
theorem cmp_not_little_endian :
    Bytes32 loBuf ∧ Bytes32 hiBuf ∧ leVal loBuf = 1 ∧ leVal hiBuf = 256 ∧
    leVal loBuf < leVal hiBuf ∧
    cmp ⟨loBuf, 1⟩ ⟨hiBuf, 2⟩ = false ∧ cmp ⟨hiBuf, 2⟩ ⟨loBuf, 1⟩ = true := by
  decide

theorem beVal_lt : ∀ (l : List Nat), (∀ x ∈ l, x < 256) → beVal l < 256 ^ l.length
  | [], _ => by simp [beVal]
  | a :: as, h => by
    have ha : a < 256 := h a (List.mem_cons_self _ _)
    have ih := beVal_lt as (fun x hx => h x (List.mem_cons_of_mem _ hx))
    simp only [beVal, List.length_cons, pow_succ]
    have h1 : (a + 1) * 256 ^ as.length ≤ 256 * 256 ^ as.length :=
      Nat.mul_le_mul_right _ (by omega)
    rw [Nat.add_mul, Nat.one_mul] at h1
    rw [Nat.mul_comm (256 ^ as.length) 256]
    omega

/-- The big-endian value is the little-endian value of the reversed buffer. -/
theorem beVal_eq_leVal_reverse : ∀ (l : List Nat), beVal l = leVal l.reverse
  | [] => rfl
  | a :: as => by
    rw [List.reverse_cons, leVal_append, beVal, beVal_eq_leVal_reverse as, List.length_reverse]
    simp only [leVal]
    ring

theorem memcmp_lt_iff : ∀ (a b : List Nat) (n : Nat), a.length = n → b.length = n →
    (∀ x ∈ a, x < 256) → (∀ x ∈ b, x < 256) → (memcmp a b n < 0 ↔ beVal a < beVal b)
  | [], [], _, _, _, _, _ => by simp [memcmp, beVal]
  | [], _ :: _, _, h1, h2, _, _ => by simp at h1 h2; omega
  | _ :: _, [], _, h1, h2, _, _ => by simp at h1 h2; omega
  | _ :: _, _ :: _, 0, h1, _, _, _ => by simp at h1
  | x :: as, y :: bs, n + 1, h1, h2, ha, hb => by
    simp only [List.length_cons, Nat.add_right_cancel_iff] at h1 h2
    have ih := memcmp_lt_iff as bs n h1 h2 (fun z hz => ha z (List.mem_cons_of_mem _ hz))
      (fun z hz => hb z (List.mem_cons_of_mem _ hz))
    have la := beVal_lt as (fun z hz => ha z (List.mem_cons_of_mem _ hz))
    have lb := beVal_lt bs (fun z hz => hb z (List.mem_cons_of_mem _ hz))
    rw [h1] at la
    rw [h2] at lb
    simp only [memcmp, beVal, h1, h2]
    generalize 256 ^ n = P at la lb ⊢
    by_cases c1 : x < y
    · simp only [c1, if_true]
      have h3 : (x + 1) * P ≤ y * P := Nat.mul_le_mul_right _ (by omega)
      rw [Nat.add_mul, Nat.one_mul] at h3
      constructor
      · intro _; omega
      · intro _; decide
    · by_cases c2 : y < x
      · simp only [c1, c2, if_true, if_false]
        have h3 : (y + 1) * P ≤ x * P := Nat.mul_le_mul_right _ (by omega)
        rw [Nat.add_mul, Nat.one_mul] at h3
        constructor
        · intro h; exact absurd h (by decide)
        · intro _; omega
      · have hxy : x = y := by omega
        subst hxy
        simp only [c1, if_false]
        rw [ih]
        omega

/-- C16, amended: for every two elements `x` and `y` with 32-byte buffers, the
comparator used to sort, merge and walk (`memcmp` of the bufs `< 0`, bytewise
lexicographic order from byte 0) holds exactly when `x.buf` is smaller than
`y.buf` as 256-bit unsigned integers read with byte 0 MOST significant, that is
as big-endian integers: the little-endian values of the reversed buffers. It is
not the order of the little-endian values that `add` and `negateAndAdd` use. -/
theorem cmp_big_endian (x y : Elem) (hx : Bytes32 x.buf) (hy : Bytes32 y.buf) :
    (cmp x y = true ↔ beVal x.buf < beVal y.buf) ∧
    (cmp x y = true ↔ leVal x.buf.reverse < leVal y.buf.reverse) := by
  have h : cmp x y = true ↔ beVal x.buf < beVal y.buf := by
    unfold cmp
    rw [decide_eq_true_iff]
    exact memcmp_lt_iff x.buf y.buf 32 hx.1 hy.1 hx.2 hy.2
  refine ⟨h, ?_⟩
  rw [← beVal_eq_leVal_reverse, ← beVal_eq_leVal_reverse]
  exact h

theorem cmp_big_endian_witness :
    Bytes32 hiBuf ∧ Bytes32 loBuf ∧
    beVal hiBuf = 256 ^ 30 ∧ beVal loBuf = 256 ^ 31 ∧
    ((cmp ⟨hiBuf, 2⟩ ⟨loBuf, 1⟩ = true ↔ beVal hiBuf < beVal loBuf) ∧
      (cmp ⟨hiBuf, 2⟩ ⟨loBuf, 1⟩ = true ↔ leVal hiBuf.reverse < leVal loBuf.reverse)) :=
  ⟨by decide, by decide, by decide, by decide,
    cmp_big_endian ⟨hiBuf, 2⟩ ⟨loBuf, 1⟩ (by decide) (by decide)⟩


/-! ## The rebuilt target of the driver -/

theorem window_sub (t a : Nat) (ha : a < 2 ^ 32) :
    (t + (2 ^ 256 - a)) % 2 ^ 256 % 2 ^ 32 = (t + (2 ^ 32 - a)) % 2 ^ 32 := by
  have e : (2 : Nat) ^ 256 = 2 ^ 32 * 2 ^ 224 := by rw [← pow_add]
  have hK : 0 < (2 : Nat) ^ 224 := pow_pos (by norm_num) _
  rw [e, Nat.mod_mul_right_mod]
  generalize (2 : Nat) ^ 224 = K at hK
  obtain ⟨k, rfl⟩ : ∃ k, K = k + 1 := ⟨K - 1, by omega⟩
  have h2 : 2 ^ 32 * (k + 1) - a = 2 ^ 32 * k + (2 ^ 32 - a) := by
    rw [Nat.mul_succ]
    omega
  rw [h2, ← Nat.add_assoc, Nat.add_comm t, Nat.add_assoc, Nat.mul_add_mod]

theorem window_sub_int (t a : Nat) (ha : a < 2 ^ 32) :
    (((t + (2 ^ 256 - a)) % 2 ^ 256 % 2 ^ 32 : Nat) : Int)
      = ((t : Int) - (a : Int)) % 2 ^ 32 := by
  rw [window_sub t a ha]
  have h := sub_mod_cast (2 ^ 32) t a ha
  have e : (((2 : Nat) ^ 32 : Nat) : Int) = 2 ^ 32 := by
    rw [Nat.cast_pow]
    rfl
  rw [e] at h
  exact h

/-- A non-final step of the driver rebuilds `currTarget` from the new
accumulator at the new window offset. -/
theorem driverIter_retarget (H : Nat → List Nat)
    (run : Generator → Nat → List Nat → Option Recovered × Generator)
    (target : List Nat) (numStages : Nat) (st st1 : DriverState)
    (h : driverIter H run target numStages st = some (st1, false)) :
    st1.currStage = st.currStage + 1 ∧ st1.currStage < numStages ∧
    st1.currTarget = nextTarget target st1.accum (st1.currStage * 4) := by
  unfold driverIter at h
  split at h
  · simp only at h
    split at h
    · simp at h
    · rename_i hlt
      simp only [Option.some.injEq, Prod.mk.injEq, and_true] at h
      subst h
      exact ⟨rfl, by simp only; omega, rfl⟩
  · exact absurd h (by simp)

/-- C17: when the driver advances to a new stage index `c` (`1 <= c < numStages`,
`numStages <= 8`) with window offset `o = 4*c`, the new `currTarget` is the
buffer rebuilt from the target and the accumulator, and for every 32-byte target
and accumulator value it has zero in bytes `[0, o)`, bytes `[o, o+4)` holding
the little-endian 32-bit value `(target[o..o+4) - accum[o..o+4)) mod 2^32`, and
bytes `[o+4, 32)` equal to `target[o+4 .. 32)`. -/
theorem retarget_bytes (H : Nat → List Nat)
    (run : Generator → Nat → List Nat → Option Recovered × Generator)
    (target : List Nat) (numStages : Nat) (st st1 : DriverState)
    (ht : Bytes32 target) (hn8 : numStages ≤ 8) (ha : Bytes32 st1.accum.buf)
    (h : driverIter H run target numStages st = some (st1, false)) :
    1 ≤ st1.currStage ∧ st1.currStage < numStages ∧
    Bytes32 st1.currTarget.buf ∧
    st1.currTarget.buf.take (4 * st1.currStage) = List.replicate (4 * st1.currStage) 0 ∧
    ((st1.currTarget.buf.drop (4 * st1.currStage)).take 4).length = 4 ∧
    (leVal ((st1.currTarget.buf.drop (4 * st1.currStage)).take 4) : Int)
      = ((leVal ((target.drop (4 * st1.currStage)).take 4) : Int)
          - (leVal ((st1.accum.buf.drop (4 * st1.currStage)).take 4) : Int)) % 2 ^ 32 ∧
    st1.currTarget.buf.drop (4 * st1.currStage + 4) = target.drop (4 * st1.currStage + 4) := by
  obtain ⟨hc1, hc, hct⟩ := driverIter_retarget H run target numStages st st1 h
  have ho : st1.currStage * 4 + 4 ≤ 32 := by omega
  rw [Nat.mul_comm 4 st1.currStage, hct]
  generalize st1.currStage * 4 = off at ho
  generalize st1.accum = accum at ha
  have hp1 := window_pad_bytes32 accum.buf off ha ho
  have hp2 := window_pad_bytes32 target off ht ho
  have hres : Bytes32 (residual target accum off).buf := negateAndAdd_bytes32 _ _ hp1 hp2
  have hval : leVal (residual target accum off).buf
      = (leVal ((target.drop off).take 4)
          + (2 ^ 256 - leVal ((accum.buf.drop off).take 4))) % 2 ^ 256 := by
    unfold residual
    rw [negateAndAdd_val _ _ hp1 hp2, leVal_window_pad target off ht.2]
    simp only
    rw [leVal_window_pad accum.buf off ha.2, leVal_window target off ht.2,
      leVal_window accum.buf off ha.2]
  have hwlen : ((residual target accum off).buf.take 4).length = 4 := by
    simp [hres.1]
  have hzlen : (List.replicate off 0).length = off := List.length_replicate _ _
  have hbuf := nextTarget_buf target accum off ht ha ho
  have hwin : ((nextTarget target accum off).buf.drop off).take 4
      = (residual target accum off).buf.take 4 := by
    rw [hbuf, List.append_assoc, List.drop_left' hzlen, List.take_left' hwlen]
  have halt : leVal ((accum.buf.drop off).take 4) < 2 ^ 32 := by
    have := leVal_lt ((accum.buf.drop off).take 4)
      (fun x hx => ha.2 x (List.mem_of_mem_drop (List.mem_of_mem_take hx)))
    have hl : ((accum.buf.drop off).take 4).length ≤ 4 := List.length_take_le _ _
    calc leVal ((accum.buf.drop off).take 4) < 256 ^ ((accum.buf.drop off).take 4).length := this
      _ ≤ 256 ^ 4 := Nat.pow_le_pow_right (by norm_num) hl
      _ = 2 ^ 32 := by norm_num
  refine ⟨by omega, hc, (nextTarget_val target accum off ht ha ho).1, ?_, ?_, ?_, ?_⟩
  · rw [hbuf, List.append_assoc, List.take_left' hzlen]
  · rw [hwin, hwlen]
  · rw [hwin, leVal_take _ 4 hres.2, hval]
    have e4 : (256 : Nat) ^ 4 = 2 ^ 32 := by norm_num
    rw [e4]
    exact window_sub_int _ _ halt
  · have hl : (List.replicate off 0 ++ (residual target accum off).buf.take 4).length
        = off + 4 := by
      rw [List.length_append, hzlen, hwlen]
    rw [hbuf, List.drop_left' hl]


theorem retarget_bytes_witness :
    Bytes32 toyTarget ∧ 2 ≤ 8 ∧ Bytes32 toyStep.accum.buf ∧
    driverIter toyHash toyRun toyTarget 2 (driverInit toyTarget 2 toyGen)
      = some (toyStep, false) ∧
    toyStep.accum.buf = leBytes 32 (5 + 2 * 2 ^ 32) ∧
    toyStep.currTarget.buf = leBytes 32 (1 * 2 ^ 32) ∧
    (1 ≤ toyStep.currStage ∧ toyStep.currStage < 2 ∧
    Bytes32 toyStep.currTarget.buf ∧
    toyStep.currTarget.buf.take (4 * toyStep.currStage)
      = List.replicate (4 * toyStep.currStage) 0 ∧
    ((toyStep.currTarget.buf.drop (4 * toyStep.currStage)).take 4).length = 4 ∧
    (leVal ((toyStep.currTarget.buf.drop (4 * toyStep.currStage)).take 4) : Int)
      = ((leVal ((toyTarget.drop (4 * toyStep.currStage)).take 4) : Int)
          - (leVal ((toyStep.accum.buf.drop (4 * toyStep.currStage)).take 4) : Int)) % 2 ^ 32 ∧
    toyStep.currTarget.buf.drop (4 * toyStep.currStage + 4)
      = toyTarget.drop (4 * toyStep.currStage + 4)) :=
  ⟨by decide, by decide, by decide, by decide, by decide, by decide,
    retarget_bytes toyHash toyRun toyTarget 2 (driverInit toyTarget 2 toyGen) toyStep
      (by decide) (by decide) (by decide) (by decide)⟩


/-! ## The first stage of the driver -/

/-- C18, at an input where it fails: with `numStages = 2` and a target whose
first non-zero window is window 2, the loop stops at `numStages - 1 = 1`, whose
window is zero. -/
theorem currStage_not_first_nonzero :
    Bytes32 zeroLowTarget ∧
    (zeroLowTarget.drop (0 * 4)).take 4 = List.replicate 4 0 ∧
    (zeroLowTarget.drop (1 * 4)).take 4 = List.replicate 4 0 ∧
    (zeroLowTarget.drop (2 * 4)).take 4 = [7, 0, 0, 0] ∧
    (driverInit zeroLowTarget 2 toyGen).currStage = 1 ∧
    (zeroLowTarget.drop ((driverInit zeroLowTarget 2 toyGen).currStage * 4)).take 4
      = List.replicate 4 0 := by
  decide

/-- With enough iterations the loop over the zero windows stops either at
`numStages - 1` or at a window that is not zero. -/
theorem skipZeroWindows_stop (target : List Nat) (numStages : Nat) :
    ∀ (fuel c : Nat), numStages - 1 ≤ c + fuel →
      c ≤ skipZeroWindows target numStages fuel c ∧
      (skipZeroWindows target numStages fuel c < numStages - 1 →
        (target.drop (skipZeroWindows target numStages fuel c * 4)).take 4
          ≠ List.replicate 4 0) := by
  intro fuel
  induction fuel with
  | zero =>
    intro c h
    simp only [skipZeroWindows]
    exact ⟨le_refl _, fun h2 => by omega⟩
  | succ n ih =>
    intro c h
    by_cases hc : c < numStages - 1 ∧ (target.drop (c * 4)).take 4 = List.replicate 4 0
    · simp only [skipZeroWindows, hc, and_self, if_true]
      obtain ⟨h1, h2⟩ := ih (c + 1) (by omega)
      exact ⟨by omega, h2⟩
    · simp only [skipZeroWindows, hc, if_false]
      refine ⟨le_refl _, fun h2 h3 => hc ⟨h2, h3⟩⟩

/-- C18, amended: for every 32-byte stored target and every `numStages` in
`1..8`, the driver's initial `currStage` is at most `numStages - 1`, every
window below it is zero, and when it is below `numStages - 1` its own window is
non-zero: it is the smallest index `i` such that `target[4i .. 4i+4)` is
non-zero or `i = numStages - 1`. The initial `currTarget` is zero in bytes
`[0, 4*currStage)` and equal to the target in bytes `[4*currStage, 32)`. -/
theorem driverInit_currStage (target : List Nat) (numStages : Nat) (g : Generator)
    (ht : Bytes32 target) (hn1 : 1 ≤ numStages) (hn8 : numStages ≤ 8) :
    (driverInit target numStages g).currStage ≤ numStages - 1 ∧
    (∀ j, j < (driverInit target numStages g).currStage →
      (target.drop (j * 4)).take 4 = List.replicate 4 0) ∧
    ((driverInit target numStages g).currStage < numStages - 1 →
      (target.drop ((driverInit target numStages g).currStage * 4)).take 4
        ≠ List.replicate 4 0) ∧
    (∀ i, (i = numStages - 1 ∨ (target.drop (i * 4)).take 4 ≠ List.replicate 4 0) →
      (driverInit target numStages g).currStage ≤ i) ∧
    Bytes32 (driverInit target numStages g).currTarget.buf ∧
    (driverInit target numStages g).currTarget.buf.take
        (4 * (driverInit target numStages g).currStage)
      = List.replicate (4 * (driverInit target numStages g).currStage) 0 ∧
    (driverInit target numStages g).currTarget.buf.drop
        (4 * (driverInit target numStages g).currStage)
      = target.drop (4 * (driverInit target numStages g).currStage) := by
  obtain ⟨hle, hzero⟩ := skipZeroWindows_spec target numStages numStages 0
  have hle := hle (Nat.zero_le _)
  obtain ⟨_, hstop⟩ := skipZeroWindows_stop target numStages numStages 0 (by omega)
  have hinv := (driverInit_inv target numStages g ht hn1 hn8).2.2.1
  have hst : (driverInit target numStages g).currStage
      = skipZeroWindows target numStages numStages 0 := rfl
  have hbuf0 : (driverInit target numStages g).currTarget.buf
      = memcpy Elem.setToZero.buf (skipZeroWindows target numStages numStages 0 * 4) target
          (skipZeroWindows target numStages numStages 0 * 4)
          (32 - skipZeroWindows target numStages numStages 0 * 4) := rfl
  rw [hst]
  generalize skipZeroWindows target numStages numStages 0 = c at hle hzero hstop hbuf0
  have hbuf := memcpy_zero_tail target (c * 4) ht.1 (by omega)
  rw [hbuf] at hbuf0
  have hzlen : (List.replicate (c * 4) 0).length = 4 * c := by
    rw [List.length_replicate, Nat.mul_comm]
  refine ⟨hle, fun j hj => hzero j (Nat.zero_le _) hj, hstop, ?_, hinv, ?_, ?_⟩
  · intro i hi
    by_contra hlt
    rcases hi with hi | hi
    · omega
    · exact hi (hzero i (Nat.zero_le _) (by omega))
  · rw [hbuf0, List.take_left' hzlen, Nat.mul_comm]
  · rw [hbuf0, List.drop_left' hzlen, Nat.mul_comm]

theorem driverInit_currStage_witness :
    Bytes32 zeroLowTarget ∧ 1 ≤ 4 ∧ 4 ≤ 8 ∧
    (driverInit zeroLowTarget 4 toyGen).currStage = 2 ∧
    ((driverInit zeroLowTarget 4 toyGen).currStage ≤ 4 - 1 ∧
    (∀ j, j < (driverInit zeroLowTarget 4 toyGen).currStage →
      (zeroLowTarget.drop (j * 4)).take 4 = List.replicate 4 0) ∧
    ((driverInit zeroLowTarget 4 toyGen).currStage < 4 - 1 →
      (zeroLowTarget.drop ((driverInit zeroLowTarget 4 toyGen).currStage * 4)).take 4
        ≠ List.replicate 4 0) ∧
    (∀ i, (i = 4 - 1 ∨ (zeroLowTarget.drop (i * 4)).take 4 ≠ List.replicate 4 0) →
      (driverInit zeroLowTarget 4 toyGen).currStage ≤ i) ∧
    Bytes32 (driverInit zeroLowTarget 4 toyGen).currTarget.buf ∧
    (driverInit zeroLowTarget 4 toyGen).currTarget.buf.take
        (4 * (driverInit zeroLowTarget 4 toyGen).currStage)
      = List.replicate (4 * (driverInit zeroLowTarget 4 toyGen).currStage) 0 ∧
    (driverInit zeroLowTarget 4 toyGen).currTarget.buf.drop
        (4 * (driverInit zeroLowTarget 4 toyGen).currStage)
      = zeroLowTarget.drop (4 * (driverInit zeroLowTarget 4 toyGen).currStage)) :=
  ⟨by decide, by decide, by decide, by decide,
    driverInit_currStage zeroLowTarget 4 toyGen (by decide) (by decide) (by decide)⟩


/-! ## Growth of an `FVector` -/

end Bday
